import Mathlib

/-!
# LockingQueue (locking_queue.cpp)

A verification development for the mutex-and-condition-variable protected FIFO
queue of `locking_queue.cpp`.  Two embeddings of the class are used.

* Call level: every member function is a function on the contents of `m_queue`
  (and on the caller's output variable).  A call that waits on `m_cond` is given
  the list of wake-ups it experiences, each with the contents of `m_queue` found
  once the mutex is held again.
* Statement level: a pool of threads, each with a program of calls and a program
  counter that names the source statement it executes next, sharing one
  `m_queue`, one `m_mutex` and one `m_cond`.  A schedule chooses which thread
  executes its next statement, which waiting thread a `notify_one` wakes, and
  when a waiting thread wakes without a notification.
-/

namespace Snippets

/-! ## Call-level embedding -/

/-- Calls a member function makes on `m_mutex` and `m_cond`, in program order. -/
inductive SyncEvent where
  | lock
  | unlock
  | notify_one
  | notify_all
  | wait
  | wait_for (milli : Int)
  deriving DecidableEq, Repr

/-- The data member `std::queue<T> m_queue`; the head of the list is `front()`,
`push` appends at the back. -/
structure LockingQueue (α : Type) where
  m_queue : List α
  deriving DecidableEq, Repr

/-- `LockingQueue() = default`: the queue starts empty. -/
def LockingQueue.fresh {α : Type} : LockingQueue α :=
  { m_queue := [] }

/-- Outcome of `push`: the queue afterwards and the synchronisation calls made. -/
structure PushResult (α : Type) where
  queue : LockingQueue α
  events : List SyncEvent
  deriving DecidableEq, Repr

/-- Outcome of a pop-style call: the returned flag, the caller's `value`
variable afterwards, the queue afterwards and the synchronisation calls made. -/
structure PopResult (α : Type) where
  ret : Bool
  value : α
  queue : LockingQueue α
  events : List SyncEvent
  deriving DecidableEq, Repr

/-- `void push(const T& data)`, lines 21-28: under the lock `m_queue.push(data)`,
then, after the inner scope has released the lock, `m_cond.notify_one()`. -/
def LockingQueue.push {α : Type} (q : LockingQueue α) (data : α) : PushResult α :=
  { queue := { m_queue := q.m_queue ++ [data] }
    events := [SyncEvent.lock, SyncEvent.unlock, SyncEvent.notify_one] }

/-- `bool empty() const`, lines 30-34. -/
def LockingQueue.empty {α : Type} (q : LockingQueue α) : Bool × List SyncEvent :=
  (q.m_queue.isEmpty, [SyncEvent.lock, SyncEvent.unlock])

/-- `bool try_pop(T& value)`, lines 36-45: on an empty queue `return false`,
otherwise `value = m_queue.front(); m_queue.pop(); return true`. -/
def LockingQueue.try_pop {α : Type} (q : LockingQueue α) (value : α) : PopResult α :=
  match q.m_queue with
  | [] =>
    { ret := false, value := value, queue := q,
      events := [SyncEvent.lock, SyncEvent.unlock] }
  | x :: rest =>
    { ret := true, value := x, queue := { m_queue := rest },
      events := [SyncEvent.lock, SyncEvent.unlock] }

/-- Why a wait on `m_cond` came back. -/
inductive WakeCause where
  | notified
  | timeout
  | spurious
  deriving DecidableEq, Repr

/-- One return of `m_cond.wait` / `m_cond.wait_for`: the cause, and the contents
of `m_queue` the thread finds when it holds the mutex again (other threads run
while it waits). -/
structure Wake (α : Type) where
  cause : WakeCause
  queue : List α
  deriving DecidableEq, Repr

/-- The `while (m_queue.empty()) m_cond.wait(lock);` loop of `wait_and_pop`
followed by `value = m_queue.front(); m_queue.pop();` (lines 50-54).
The result is `none` when the listed wake-ups are used up and the thread is
still waiting. -/
def wait_and_pop_loop {α : Type} (value : α) :
    List α → List (Wake α) → List SyncEvent → Option (PopResult α)
  | x :: rest, _, ev =>
    some { ret := true, value := x, queue := { m_queue := rest },
           events := ev ++ [SyncEvent.unlock] }
  | [], [], _ => none
  | [], w :: ws, ev => wait_and_pop_loop value w.queue ws (ev ++ [SyncEvent.wait])

/-- `void wait_and_pop(T& value)`, lines 47-55 (`ret` is always `true`: the
function returns `void` and only returns after a pop). -/
def LockingQueue.wait_and_pop {α : Type} (q : LockingQueue α) (value : α)
    (wakes : List (Wake α)) : Option (PopResult α) :=
  wait_and_pop_loop value q.m_queue wakes [SyncEvent.lock]

/-- The loop of `try_wait_and_pop`, lines 60-68:
`while (m_queue.empty()) { m_cond.wait_for(lock, milli); if (m_queue.empty()) return false; }`
then `value = m_queue.front(); m_queue.pop(); return true;`.
The value returned by `wait_for` (timeout or not) is discarded by the source,
so the cause of a wake is not inspected.  The result is `none` when the thread
is still inside `wait_for` after the listed wake-ups. -/
def try_wait_and_pop_loop {α : Type} (value : α) (milli : Int) :
    List α → List (Wake α) → List SyncEvent → Option (PopResult α)
  | x :: rest, _, ev =>
    some { ret := true, value := x, queue := { m_queue := rest },
           events := ev ++ [SyncEvent.unlock] }
  | [], [], _ => none
  | [], w :: ws, ev =>
    if w.queue.isEmpty then
      some { ret := false, value := value, queue := { m_queue := w.queue },
             events := ev ++ [SyncEvent.wait_for milli, SyncEvent.unlock] }
    else
      try_wait_and_pop_loop value milli w.queue ws (ev ++ [SyncEvent.wait_for milli])

/-- `bool try_wait_and_pop(T& value, int milli)`, lines 57-69. -/
def LockingQueue.try_wait_and_pop {α : Type} (q : LockingQueue α) (value : α)
    (milli : Int) (wakes : List (Wake α)) : Option (PopResult α) :=
  try_wait_and_pop_loop value milli q.m_queue wakes [SyncEvent.lock]

/-- The queue after `push(p1); ...; push(pn)` by one caller. -/
def pushAll {α : Type} (q : LockingQueue α) : List α → LockingQueue α
  | [] => q
  | p :: ps => pushAll (q.push p).queue ps

/-- The results `(returned flag, value)` of `n` successive `try_pop(value)` calls
into the same variable, and the queue left behind. -/
def popMany {α : Type} (q : LockingQueue α) (value : α) :
    Nat → List (Bool × α) × LockingQueue α
  | 0 => ([], q)
  | n + 1 =>
    let r := q.try_pop value
    let rest := popMany r.queue r.value n
    ((r.ret, r.value) :: rest.1, rest.2)

/-! ## Statement-level embedding -/

/-- A call a thread makes on the shared queue, or the `assert(data == ...)` of
the demo's `consumer`. -/
inductive Op (α : Type) where
  | push (data : α)
  | empty
  | try_pop
  | wait_and_pop
  | try_wait_and_pop (milli : Int)
  | assert_eq (expected : α)
  deriving DecidableEq, Repr

/-- Program points.  `idle` is "between calls"; each other point names the source
statement the thread executes next (line numbers of `locking_queue.cpp`). -/
inductive Pc (α : Type) where
  | idle
  /-- line 25, `m_queue.push(data)`, lock held -/
  | push_append (data : α)
  /-- line 26, end of the `lock_guard` scope -/
  | push_unlock
  /-- line 27, `m_cond.notify_one()` -/
  | push_notify
  /-- line 33, evaluate `m_queue.empty()` -/
  | empty_read
  /-- line 34, `lock_guard` destructor and return -/
  | empty_ret (b : Bool)
  /-- line 39, `if (m_queue.empty())` -/
  | try_test
  /-- line 42, `value = m_queue.front()` -/
  | try_front
  /-- line 43, `m_queue.pop()` -/
  | try_pop
  /-- line 40 or 44, `lock_guard` destructor and `return b` -/
  | try_ret (b : Bool)
  /-- line 50, `while (m_queue.empty())` -/
  | wp_test
  /-- line 51, `m_cond.wait(lock)`: release the mutex and block -/
  | wp_wait
  /-- inside `m_cond.wait`, blocked -/
  | wp_blocked
  /-- inside `m_cond.wait`, woken, reacquiring the mutex -/
  | wp_relock
  /-- line 53, `value = m_queue.front()` -/
  | wp_front
  /-- line 54, `m_queue.pop()` -/
  | wp_pop
  /-- line 55, `unique_lock` destructor and return -/
  | wp_ret
  /-- line 60, `while (m_queue.empty())` -/
  | tw_test
  /-- line 61, `m_cond.wait_for(lock, milli)`: release the mutex and block -/
  | tw_wait
  /-- inside `m_cond.wait_for`, blocked -/
  | tw_blocked
  /-- inside `m_cond.wait_for`, woken or timed out, reacquiring the mutex -/
  | tw_relock
  /-- line 62, `if (m_queue.empty())` after the wait -/
  | tw_recheck
  /-- line 66, `value = m_queue.front()` -/
  | tw_front
  /-- line 67, `m_queue.pop()` -/
  | tw_pop
  /-- line 63 or 68, `unique_lock` destructor and `return b` -/
  | tw_ret (b : Bool)
  deriving DecidableEq, Repr

/-- One thread: where it is, the calls it still has to make, its output variable
`value`, the values its successful pops have returned so far, and the flag
returned by its last `bool` call. -/
structure Thread (α : Type) where
  pc : Pc α
  todo : List (Op α)
  value : α
  got : List α
  result : Option Bool
  deriving DecidableEq, Repr

/-- The queue object shared by the threads, with history variables.
`m_mutex` is the owner of the mutex, if any.  `ub` records a `front()` or
`pop()` executed on an empty `std::queue` (undefined behaviour), and
`assert_failed` a failed `assert`.  History: `pushed` lists every value
appended by `m_queue.push`, `returned` every value a successful pop call has
returned, `inflight` the element removed by an `m_queue.pop()` whose call has
not returned yet. -/
structure Shared (α : Type) where
  m_queue : List α
  m_mutex : Option Nat
  ub : Bool
  assert_failed : Bool
  pushed : List α
  returned : List α
  inflight : List α
  deriving DecidableEq, Repr

/-- The whole program state: the shared queue and the thread pool.  The threads
blocked on `m_cond` are those whose program point is `wp_blocked` or
`tw_blocked`. -/
structure State (α : Type) where
  sh : Shared α
  threads : List (Thread α)
  deriving DecidableEq, Repr

/-- The thread owns `m_mutex` at this program point. -/
def Pc.holds {α : Type} : Pc α → Bool
  | Pc.idle => false
  | Pc.push_notify => false
  | Pc.wp_blocked => false
  | Pc.wp_relock => false
  | Pc.tw_blocked => false
  | Pc.tw_relock => false
  | _ => true

/-- The thread is blocked on `m_cond`. -/
def Pc.blocked {α : Type} : Pc α → Bool
  | Pc.wp_blocked => true
  | Pc.tw_blocked => true
  | _ => false

/-- Where a blocked thread continues once woken. -/
def Pc.woken {α : Type} : Pc α → Pc α
  | Pc.wp_blocked => Pc.wp_relock
  | Pc.tw_blocked => Pc.tw_relock
  | p => p

/-- The thread is about to execute `value = m_queue.front()`. -/
def Pc.atFront {α : Type} : Pc α → Bool
  | Pc.try_front => true
  | Pc.wp_front => true
  | Pc.tw_front => true
  | _ => false

/-- The thread is about to execute `m_queue.pop()`. -/
def Pc.atPop {α : Type} : Pc α → Bool
  | Pc.try_pop => true
  | Pc.wp_pop => true
  | Pc.tw_pop => true
  | _ => false

/-- The thread has executed `m_queue.pop()` and is about to return. -/
def Pc.popped {α : Type} : Pc α → Bool
  | Pc.try_ret true => true
  | Pc.wp_ret => true
  | Pc.tw_ret true => true
  | _ => false

/-- The thread has just found `m_queue.empty()` true and still holds the lock. -/
def Pc.sawEmpty {α : Type} : Pc α → Bool
  | Pc.try_ret false => true
  | Pc.tw_ret false => true
  | Pc.wp_wait => true
  | Pc.tw_wait => true
  | _ => false

/-- Lock acquisition by thread `i`: possible only while the mutex is free. -/
def Shared.acquire {α : Type} (sh : Shared α) (i : Nat) : Option (Shared α) :=
  if sh.m_mutex = none then some { sh with m_mutex := some i } else none

/-- Lock release. -/
def Shared.release {α : Type} (sh : Shared α) : Shared α :=
  { sh with m_mutex := none }

/-- Move to another program point. -/
def Thread.goto {α : Type} (t : Thread α) (pc : Pc α) : Thread α :=
  { t with pc := pc }

/-- Entering a call: the first statement of every member function takes the
lock (`lock_guard` / `unique_lock` constructor). -/
def enter {α : Type} (i : Nat) (t : Thread α) (sh : Shared α) (rest : List (Op α))
    (pc : Pc α) : Option (Thread α × Shared α × Bool) :=
  match sh.acquire i with
  | none => none
  | some sh1 => some ({ t with pc := pc, todo := rest }, sh1, false)

/-- `value = m_queue.front()`; on an empty queue this is undefined behaviour. -/
def execFront {α : Type} (t : Thread α) (sh : Shared α) (next : Pc α) :
    Thread α × Shared α × Bool :=
  match sh.m_queue with
  | x :: _ => ({ t with pc := next, value := x }, sh, false)
  | [] => ({ t with pc := next }, { sh with ub := true }, false)

/-- `m_queue.pop()`; on an empty queue this is undefined behaviour. -/
def execPop {α : Type} (t : Thread α) (sh : Shared α) (next : Pc α) :
    Thread α × Shared α × Bool :=
  match sh.m_queue with
  | x :: rest => ({ t with pc := next }, { sh with m_queue := rest, inflight := [x] }, false)
  | [] => ({ t with pc := next }, { sh with ub := true }, false)

/-- Return from a pop-style call: the lock is released; a successful call hands
`value` to the caller. -/
def execRet {α : Type} (t : Thread α) (sh : Shared α) (success : Bool)
    (result : Option Bool) : Thread α × Shared α × Bool :=
  if success then
    ({ t with pc := Pc.idle, result := result, got := t.got ++ [t.value] },
     { sh with m_mutex := none, returned := sh.returned ++ [t.value], inflight := [] }, false)
  else
    ({ t with pc := Pc.idle, result := result }, sh.release, false)

/-- The next statement of thread `i`, if it can execute: the thread and the
shared object afterwards, and whether the statement was `m_cond.notify_one()`. -/
def exec {α : Type} [DecidableEq α] (i : Nat) (t : Thread α) (sh : Shared α) :
    Option (Thread α × Shared α × Bool) :=
  match t.pc with
  | Pc.idle =>
    match t.todo with
    | [] => none
    | Op.push d :: rest => enter i t sh rest (Pc.push_append d)
    | Op.empty :: rest => enter i t sh rest Pc.empty_read
    | Op.try_pop :: rest => enter i t sh rest Pc.try_test
    | Op.wait_and_pop :: rest => enter i t sh rest Pc.wp_test
    | Op.try_wait_and_pop _ :: rest => enter i t sh rest Pc.tw_test
    | Op.assert_eq e :: rest =>
      some ({ t with todo := rest },
            { sh with assert_failed := sh.assert_failed || decide (t.value ≠ e) }, false)
  | Pc.push_append d =>
    some (t.goto Pc.push_unlock,
          { sh with m_queue := sh.m_queue ++ [d], pushed := sh.pushed ++ [d] }, false)
  | Pc.push_unlock => some (t.goto Pc.push_notify, sh.release, false)
  | Pc.push_notify => some (t.goto Pc.idle, sh, true)
  | Pc.empty_read => some (t.goto (Pc.empty_ret sh.m_queue.isEmpty), sh, false)
  | Pc.empty_ret b => some ({ t with pc := Pc.idle, result := some b }, sh.release, false)
  | Pc.try_test =>
    some (t.goto (if sh.m_queue.isEmpty then Pc.try_ret false else Pc.try_front), sh, false)
  | Pc.try_front => some (execFront t sh Pc.try_pop)
  | Pc.try_pop => some (execPop t sh (Pc.try_ret true))
  | Pc.try_ret b => some (execRet t sh b (some b))
  | Pc.wp_test =>
    some (t.goto (if sh.m_queue.isEmpty then Pc.wp_wait else Pc.wp_front), sh, false)
  | Pc.wp_wait => some (t.goto Pc.wp_blocked, sh.release, false)
  | Pc.wp_blocked => none
  | Pc.wp_relock =>
    match sh.acquire i with
    | none => none
    | some sh1 => some (t.goto Pc.wp_test, sh1, false)
  | Pc.wp_front => some (execFront t sh Pc.wp_pop)
  | Pc.wp_pop => some (execPop t sh Pc.wp_ret)
  | Pc.wp_ret => some (execRet t sh true none)
  | Pc.tw_test =>
    some (t.goto (if sh.m_queue.isEmpty then Pc.tw_wait else Pc.tw_front), sh, false)
  | Pc.tw_wait => some (t.goto Pc.tw_blocked, sh.release, false)
  | Pc.tw_blocked => none
  | Pc.tw_relock =>
    match sh.acquire i with
    | none => none
    | some sh1 => some (t.goto Pc.tw_recheck, sh1, false)
  | Pc.tw_recheck =>
    some (t.goto (if sh.m_queue.isEmpty then Pc.tw_ret false else Pc.tw_test), sh, false)
  | Pc.tw_front => some (execFront t sh Pc.tw_pop)
  | Pc.tw_pop => some (execPop t sh (Pc.tw_ret true))
  | Pc.tw_ret b => some (execRet t sh b (some b))

/-- `m_cond.notify_one()`: if no thread is blocked on `m_cond` nothing happens;
otherwise one blocked thread, the one the schedule picks, is woken. -/
def notifyOne {α : Type} (ts : List (Thread α)) (pick : Nat) : Option (List (Thread α)) :=
  if ts.all (fun u => !u.pc.blocked) then some ts
  else
    match ts[pick]? with
    | none => none
    | some u => if u.pc.blocked then some (ts.set pick (u.goto u.pc.woken)) else none

/-- A blocked thread wakes without a notification: spuriously, or, inside
`wait_for`, because the timeout expired. -/
def wakeUp {α : Type} (t : Thread α) (cause : WakeCause) : Option (Thread α) :=
  match t.pc, cause with
  | Pc.wp_blocked, WakeCause.spurious => some (t.goto Pc.wp_relock)
  | Pc.tw_blocked, WakeCause.spurious => some (t.goto Pc.tw_relock)
  | Pc.tw_blocked, WakeCause.timeout => some (t.goto Pc.tw_relock)
  | _, _ => none

/-- What a schedule can do next: let thread `tid` execute its next statement
(`pick` is the thread a `notify_one` wakes), or wake the blocked thread `tid`
without a notification. -/
inductive Action where
  | run (tid : Nat) (pick : Nat)
  | wake (tid : Nat) (cause : WakeCause)
  deriving DecidableEq, Repr

/-- The action lets a thread execute its next statement (it is not a wake-up
without notification). -/
def Action.isRun : Action → Bool
  | Action.run _ _ => true
  | Action.wake _ _ => false

/-- One scheduling step; `none` when the chosen action is not enabled. -/
def step {α : Type} [DecidableEq α] (s : State α) : Action → Option (State α)
  | Action.run i pick =>
    match s.threads[i]? with
    | none => none
    | some t =>
      match exec i t s.sh with
      | none => none
      | some (t1, sh1, notify) =>
        if notify then
          match notifyOne (s.threads.set i t1) pick with
          | none => none
          | some ts => some { sh := sh1, threads := ts }
        else some { sh := sh1, threads := s.threads.set i t1 }
  | Action.wake j cause =>
    match s.threads[j]? with
    | none => none
    | some t =>
      match wakeUp t cause with
      | none => none
      | some t1 => some { sh := s.sh, threads := s.threads.set j t1 }

/-- Run a schedule; `none` when some action of it is not enabled. -/
def run {α : Type} [DecidableEq α] (s : State α) : List Action → Option (State α)
  | [] => some s
  | a :: rest =>
    match step s a with
    | none => none
    | some s1 => run s1 rest

/-- A thread that has not started: it will make the calls of `prog`, and its
output variable holds `value`. -/
def Thread.start {α : Type} (prog : List (Op α)) (value : α) : Thread α :=
  { pc := Pc.idle, todo := prog, value := value, got := [], result := none }

/-- A freshly constructed queue object. -/
def Shared.fresh {α : Type} : Shared α :=
  { m_queue := [], m_mutex := none, ub := false, assert_failed := false,
    pushed := [], returned := [], inflight := [] }

/-- Initial state: a fresh queue and one thread per given program. -/
def State.init {α : Type} (progs : List (List (Op α) × α)) : State α :=
  { sh := Shared.fresh, threads := progs.map (fun p => Thread.start p.1 p.2) }

/-- `producer`, lines 77-81. -/
def producer : List (Op String) := [Op.push "Hello"]

/-- `consumer`, lines 83-88 (`std::string data;` starts empty). -/
def consumer : List (Op String) := [Op.wait_and_pop, Op.assert_eq "Hello"]

/-- `main`, lines 90-98: thread 0 runs `producer`, thread 1 runs `consumer`. -/
def main : State String := State.init [(producer, ""), (consumer, "")]

/-! ### Invariants -/

/-- What thread `i` can rely on while it owns the mutex. -/
def Thread.ok {α : Type} (i : Nat) (t : Thread α) (sh : Shared α) : Prop :=
  t.pc.holds = true →
    sh.m_mutex = some i
    ∧ (t.pc.popped = true → sh.inflight = [t.value])
    ∧ (t.pc.popped = false → sh.inflight = [])
    ∧ (t.pc.atFront = true → sh.m_queue ≠ [])
    ∧ (t.pc.atPop = true → ∃ rest, sh.m_queue = t.value :: rest)
    ∧ (t.pc.sawEmpty = true → sh.m_queue = [])

/-- Invariant of the shared object alone. -/
def Shared.ok {α : Type} (sh : Shared α) : Prop :=
  sh.ub = false
  ∧ (sh.m_mutex = none → sh.inflight = [])
  ∧ sh.returned ++ sh.inflight ++ sh.m_queue = sh.pushed

/-- The global invariant. -/
def State.ok {α : Type} (s : State α) : Prop :=
  s.sh.ok ∧ ∀ (i : Nat) (t : Thread α), s.threads[i]? = some t → t.ok i s.sh

/-- Whoever is recorded as owner of the mutex is a thread inside a critical
section. -/
def State.owned {α : Type} (s : State α) : Prop :=
  ∀ k : Nat, s.sh.m_mutex = some k → ∃ u : Thread α, s.threads[k]? = some u ∧ u.pc.holds = true

/-! ### Bookkeeping used by the scenario results -/

/-- The arguments of the `push` calls of a program, in order. -/
def progPushes {α : Type} : List (Op α) → List α
  | [] => []
  | Op.push d :: rest => d :: progPushes rest
  | _ :: rest => progPushes rest

/-- Values the thread has still to append: the argument of the `m_queue.push` it
is about to execute, then those of its later `push` calls. -/
def Thread.pending {α : Type} (t : Thread α) : List α :=
  (match t.pc with
   | Pc.push_append d => [d]
   | _ => [])
  ++ progPushes t.todo

/-- Values still to be appended by any thread of the pool. -/
def pendingAll {α : Type} : List (Thread α) → List α
  | [] => []
  | t :: ts => t.pending ++ pendingAll ts

/-- Sum of a per-thread quantity over the pool. -/
def total {α : Type} (f : Thread α → Nat) : List (Thread α) → Nat
  | [] => 0
  | t :: ts => f t + total f ts

/-- Program points of `push` (and "between calls"). -/
def Pc.inPush {α : Type} : Pc α → Bool
  | Pc.idle => true
  | Pc.push_append _ => true
  | Pc.push_unlock => true
  | Pc.push_notify => true
  | _ => false

/-- The call is a `push`. -/
def Op.isPush {α : Type} : Op α → Bool
  | Op.push _ => true
  | _ => false

/-- A producer: it only ever calls `push`. -/
def Thread.pushOnly {α : Type} (t : Thread α) : Bool :=
  t.pc.inPush && t.todo.all Op.isPush

/-- Program points of `wait_and_pop` (and "between calls"). -/
def Pc.inWaitPop {α : Type} : Pc α → Bool
  | Pc.idle => true
  | Pc.wp_test => true
  | Pc.wp_wait => true
  | Pc.wp_blocked => true
  | Pc.wp_relock => true
  | Pc.wp_front => true
  | Pc.wp_pop => true
  | Pc.wp_ret => true
  | _ => false

/-- The call is `wait_and_pop` or an assertion. -/
def Op.isWaitPop {α : Type} : Op α → Bool
  | Op.wait_and_pop => true
  | Op.assert_eq _ => true
  | _ => false

/-- Number of `wait_and_pop` calls in a program. -/
def popCalls {α : Type} : List (Op α) → Nat
  | [] => 0
  | Op.wait_and_pop :: rest => popCalls rest + 1
  | _ :: rest => popCalls rest

/-- Pops a consumer has still to complete: the call it is in, and later ones. -/
def Thread.popsLeft {α : Type} (t : Thread α) : Nat :=
  (match t.pc with
   | Pc.idle => 0
   | _ => 1)
  + popCalls t.todo

/-- What is known of the single consumer of a pool: it only calls
`wait_and_pop` (and asserts), `k` pops in all, it alone has received values,
and between calls its variable holds the value received last. -/
def Thread.consumerInv {α : Type} (t : Thread α) (sh : Shared α) (k : Nat) : Prop :=
  t.pc.inWaitPop = true
  ∧ t.todo.all Op.isWaitPop = true
  ∧ t.got.length + t.popsLeft = k
  ∧ sh.returned = t.got
  ∧ (t.pc = Pc.idle → t.got ≠ [] → t.got.getLast? = some t.value)

/-- Invariant of a pool with one consumer, thread `c`, making `k` pops, all
other threads being producers which push, between them, the values `all`. -/
def State.handoffInv {α : Type} (s : State α) (c k : Nat) (all : Multiset α) : Prop :=
  (∃ t : Thread α, s.threads[c]? = some t ∧ t.consumerInv s.sh k)
  ∧ (∀ (j : Nat) (u : Thread α), j ≠ c → s.threads[j]? = some u → u.pushOnly = true)
  ∧ (s.sh.pushed : Multiset α) + (pendingAll s.threads : Multiset α) = all

/-- The thread has appended its value and its `notify_one` is still to come. -/
def Pc.notifyPending {α : Type} : Pc α → Bool
  | Pc.push_unlock => true
  | Pc.push_notify => true
  | _ => false

/-- The thread is inside a pop-style call, not blocked, and has not yet found
the queue empty nor removed an element: it competes for the head. -/
def Pc.competing {α : Type} : Pc α → Bool
  | Pc.try_test => true
  | Pc.try_front => true
  | Pc.try_pop => true
  | Pc.wp_test => true
  | Pc.wp_relock => true
  | Pc.wp_front => true
  | Pc.wp_pop => true
  | Pc.tw_test => true
  | Pc.tw_relock => true
  | Pc.tw_recheck => true
  | Pc.tw_front => true
  | Pc.tw_pop => true
  | _ => false

/-- One for a thread that will still signal or is competing for the head. -/
def Thread.wakers {α : Type} (t : Thread α) : Nat :=
  if t.pc.notifyPending || t.pc.competing then 1 else 0

/-- No wake-up is lost: while some thread is blocked on `m_cond`, every queued
element is matched by a `notify_one` still to come or by a competing consumer. -/
def State.noLost {α : Type} (s : State α) : Prop :=
  (∀ (j : Nat) (u : Thread α), s.threads[j]? = some u → u.pc.blocked = false)
  ∨ s.sh.m_queue.length ≤ total Thread.wakers s.threads

/-- A budget for every program point, chosen so that each statement lowers it;
a blocked thread that is woken regains at most 4. -/
def Pc.rank {α : Type} : Pc α → Nat
  | Pc.idle => 0
  | Pc.push_append _ => 7
  | Pc.push_unlock => 6
  | Pc.push_notify => 5
  | Pc.empty_read => 2
  | Pc.empty_ret _ => 1
  | Pc.try_test => 4
  | Pc.try_front => 3
  | Pc.try_pop => 2
  | Pc.try_ret _ => 1
  | Pc.wp_test => 4
  | Pc.wp_wait => 3
  | Pc.wp_blocked => 2
  | Pc.wp_relock => 5
  | Pc.wp_front => 3
  | Pc.wp_pop => 2
  | Pc.wp_ret => 1
  | Pc.tw_test => 5
  | Pc.tw_wait => 4
  | Pc.tw_blocked => 3
  | Pc.tw_relock => 7
  | Pc.tw_recheck => 6
  | Pc.tw_front => 3
  | Pc.tw_pop => 2
  | Pc.tw_ret _ => 1

/-- Budget of a call not yet started. -/
def Op.rank {α : Type} : Op α → Nat
  | Op.push _ => 8
  | Op.empty => 3
  | Op.try_pop => 5
  | Op.wait_and_pop => 5
  | Op.try_wait_and_pop _ => 6
  | Op.assert_eq _ => 1

/-- Budget of a program. -/
def progRank {α : Type} : List (Op α) → Nat
  | [] => 0
  | op :: rest => op.rank + progRank rest

/-- Budget of a thread. -/
def Thread.rank {α : Type} (t : Thread α) : Nat :=
  t.pc.rank + progRank t.todo

/-- Budget of the pool: it bounds the number of statements the threads can
execute before a wake-up without notification is needed. -/
def State.rank {α : Type} (s : State α) : Nat :=
  total Thread.rank s.threads

/-- The scenario of a lone consumer: thread 0 calls `wait_and_pop`, thread 1
pushes the values `vs` one after the other. -/
def handoffProgs {α : Type} (vs : List α) (v0 : α) : List (List (Op α) × α) :=
  [([Op.wait_and_pop], v0), (vs.map Op.push, v0)]

/-- Thread `p` is the only producer and has so far pushed a prefix of `vs`,
the rest being what it has still to push. -/
def State.soleProducer {α : Type} (s : State α) (p : Nat) (vs : List α) : Prop :=
  (∃ tp : Thread α, s.threads[p]? = some tp ∧ s.sh.pushed ++ tp.pending = vs)
  ∧ ∀ (j : Nat) (u : Thread α), j ≠ p → s.threads[j]? = some u → u.pending = []

/-- The `M` uniquely tagged values of producer `k`. -/
def tagged (k M : Nat) : List (Nat × Nat) :=
  (List.range M).map (fun j => (k, j))

/-- All tagged values of `N` producers. -/
def allTagged : Nat → Nat → List (Nat × Nat)
  | 0, _ => []
  | N + 1, M => allTagged N M ++ tagged N M

/-- The programs of producers `0 .. N-1`, each pushing its `M` tagged values. -/
def producers : Nat → Nat → List (List (Op (Nat × Nat)) × (Nat × Nat))
  | 0, _ => []
  | N + 1, M => producers N M ++ [((tagged N M).map Op.push, (0, 0))]

/-- The contention test: producers are threads `0 .. N-1`, thread `N` is the
consumer calling `wait_and_pop` `N * M` times. -/
def contention (N M : Nat) : State (Nat × Nat) :=
  State.init (producers N M ++ [(List.replicate (N * M) Op.wait_and_pop, (0, 0))])

/-- What is known of the demo's consumer (thread 1 of `main`): no assertion has
failed, and the consumer is before its `wait_and_pop`, or at its assertion, or
done. -/
def State.demoInv (s : State String) : Prop :=
  s.sh.assert_failed = false
  ∧ ∃ tc : Thread String, s.threads[1]? = some tc
      ∧ ((tc.pc = Pc.idle ∧ tc.todo = consumer ∧ tc.got = [])
         ∨ (tc.pc ≠ Pc.idle ∧ tc.todo = [Op.assert_eq "Hello"])
         ∨ (tc.pc = Pc.idle ∧ tc.todo = [Op.assert_eq "Hello"] ∧ tc.got ≠ [])
         ∨ (tc.pc = Pc.idle ∧ tc.todo = [] ∧ tc.got ≠ []))

/-! ### Infinite schedules -/

/-- The state after the first `n` actions of an infinite schedule, started in
`s0`; an action that is not enabled is skipped. -/
def trace {α : Type} [DecidableEq α] (s0 : State α) (sched : Nat → Action) : Nat → State α
  | 0 => s0
  | n + 1 =>
    match step (trace s0 sched n) (sched n) with
    | some s1 => s1
    | none => trace s0 sched n

/-- Thread `i` can execute its next statement. -/
def State.canRun {α : Type} [DecidableEq α] (s : State α) (i : Nat) : Prop :=
  ∃ (pick : Nat) (s1 : State α), step s (Action.run i pick) = some s1

/-- At instant `m` of the schedule thread `i` executes a statement. -/
def runsAt {α : Type} [DecidableEq α] (s0 : State α) (sched : Nat → Action) (i m : Nat) :
    Prop :=
  ∃ (pick : Nat) (s1 : State α),
    sched m = Action.run i pick ∧ step (trace s0 sched m) (Action.run i pick) = some s1

/-- Strong fairness of a schedule: a thread that can execute a statement at
infinitely many instants does execute one at infinitely many instants. -/
def Fair {α : Type} [DecidableEq α] (s0 : State α) (sched : Nat → Action) : Prop :=
  ∀ i : Nat, (∀ k : Nat, ∃ m : Nat, k ≤ m ∧ (trace s0 sched m).canRun i) →
    ∀ k : Nat, ∃ m : Nat, k ≤ m ∧ runsAt s0 sched i m

/-- The thread has completed its program. -/
def Thread.finished {α : Type} (t : Thread α) : Prop :=
  t.pc = Pc.idle ∧ t.todo = []

/-- Budget of thread `j` in a state. -/
def State.rankOf {α : Type} (s : State α) (j : Nat) : Nat :=
  match s.threads[j]? with
  | some t => t.rank
  | none => 0

/-- All invariants of the lone-consumer scenario (thread 0 the consumer, thread
1 the producer of `vs`). -/
def State.good {α : Type} (s : State α) (vs : List α) : Prop :=
  s.ok ∧ s.owned ∧ s.noLost ∧ s.handoffInv 0 1 (vs : Multiset α) ∧ s.soleProducer 1 vs
  ∧ s.threads.length = 2

/-- The infinite schedule that plays the actions of `l` and afterwards keeps
asking thread 0 for a statement. -/
def schedOf (l : List Action) : Nat → Action :=
  fun n => l.getD n (Action.run 0 0)

/-! ### Concrete runs -/

/-- A complete run of the demo: the consumer blocks first, the producer pushes
and notifies, the consumer wakes, pops and checks its assertion. -/
def demoSchedule : List Action :=
  [Action.run 1 0, Action.run 1 0, Action.run 1 0,
   Action.run 0 0, Action.run 0 0, Action.run 0 0, Action.run 0 1,
   Action.run 1 0, Action.run 1 0, Action.run 1 0, Action.run 1 0, Action.run 1 0,
   Action.run 1 0]

/-- The consumer thread at the end of `demoSchedule`. -/
def demoConsumerDone : Thread String :=
  { pc := Pc.idle, todo := [], value := "Hello", got := ["Hello"], result := none }

/-- The state at the end of `demoSchedule`. -/
def demoDone : State String :=
  { sh := { m_queue := [], m_mutex := none, ub := false, assert_failed := false,
            pushed := ["Hello"], returned := ["Hello"], inflight := [] },
    threads := [{ pc := Pc.idle, todo := [], value := "", got := [], result := none },
                demoConsumerDone] }

/-- A complete run of the contention test with two producers of one value each:
the consumer blocks, producer 1 then producer 0 append, producer 0 wakes the
consumer, which pops both values. -/
def contentionSchedule : List Action :=
  [Action.run 2 0, Action.run 2 0, Action.run 2 0,
   Action.run 1 0, Action.run 1 0, Action.run 1 0,
   Action.run 0 0, Action.run 0 0, Action.run 0 0,
   Action.run 0 2,
   Action.run 1 0,
   Action.run 2 0, Action.run 2 0, Action.run 2 0, Action.run 2 0, Action.run 2 0,
   Action.run 2 0, Action.run 2 0, Action.run 2 0, Action.run 2 0, Action.run 2 0]

/-- The consumer thread at the end of `contentionSchedule`. -/
def contentionConsumerDone : Thread (Nat × Nat) :=
  { pc := Pc.idle, todo := [], value := (0, 0), got := [(1, 0), (0, 0)], result := none }

/-- The state at the end of `contentionSchedule`. -/
def contentionDone : State (Nat × Nat) :=
  { sh := { m_queue := [], m_mutex := none, ub := false, assert_failed := false,
            pushed := [(1, 0), (0, 0)], returned := [(1, 0), (0, 0)], inflight := [] },
    threads := [{ pc := Pc.idle, todo := [], value := (0, 0), got := [], result := none },
                { pc := Pc.idle, todo := [], value := (0, 0), got := [], result := none },
                contentionConsumerDone] }

/-- Two threads: thread 0 pushes 1 then 2, thread 1 calls `wait_and_pop`. -/
def pairProgs : List (List (Op Nat) × Nat) :=
  [([Op.push 1, Op.push 2], 0), ([Op.wait_and_pop], 0)]

/-- The consumer blocks, the producer pushes 1 and wakes it, the consumer
re-checks and reads the head. -/
def pairScheduleFront : List Action :=
  [Action.run 1 0, Action.run 1 0, Action.run 1 0,
   Action.run 0 0, Action.run 0 0, Action.run 0 0, Action.run 0 1,
   Action.run 1 0, Action.run 1 0, Action.run 1 0]

/-- The state after `pairScheduleFront`: the consumer is at `m_queue.pop()`. -/
def pairAtPop : State Nat :=
  { sh := { m_queue := [1], m_mutex := some 1, ub := false, assert_failed := false,
            pushed := [1], returned := [], inflight := [] },
    threads := [{ pc := Pc.idle, todo := [Op.push 2], value := 0, got := [], result := none },
                { pc := Pc.wp_pop, todo := [], value := 1, got := [], result := none }] }

/-- As `pairScheduleFront`, then the consumer pops and returns and the producer
appends 2. -/
def pairScheduleLater : List Action :=
  [Action.run 1 0, Action.run 1 0, Action.run 1 0,
   Action.run 0 0, Action.run 0 0, Action.run 0 0, Action.run 0 1,
   Action.run 1 0, Action.run 1 0, Action.run 1 0,
   Action.run 1 0, Action.run 1 0, Action.run 0 0, Action.run 0 0]

/-- The state after `pairScheduleLater`. -/
def pairLater : State Nat :=
  { sh := { m_queue := [2], m_mutex := some 0, ub := false, assert_failed := false,
            pushed := [1, 2], returned := [1], inflight := [] },
    threads := [{ pc := Pc.push_unlock, todo := [], value := 0, got := [], result := none },
                { pc := Pc.idle, todo := [], value := 1, got := [1], result := none }] }

/-- Lone consumer against a producer of 7 then 8: the consumer blocks, then the
producer appends 7 and releases the mutex; its `notify_one` is still to come. -/
def handoffSchedule : List Action :=
  [Action.run 0 0, Action.run 0 0, Action.run 0 0,
   Action.run 1 0, Action.run 1 0, Action.run 1 0]

/-- The state after `handoffSchedule`. -/
def handoffBlocked : State Nat :=
  { sh := { m_queue := [7], m_mutex := none, ub := false, assert_failed := false,
            pushed := [7], returned := [], inflight := [] },
    threads := [{ pc := Pc.wp_blocked, todo := [], value := 0, got := [], result := none },
                { pc := Pc.push_notify, todo := [Op.push 8], value := 0, got := [],
                  result := none }] }

/-- Thread 0 calls `try_wait_and_pop(value, 1000)`, thread 1 pushes 1, thread 2
calls `try_pop`. -/
def racedProgs : List (List (Op Nat) × Nat) :=
  [([Op.try_wait_and_pop 1000], 0), ([Op.push 1], 0), ([Op.try_pop], 0)]

/-- Thread 0 finds the queue empty and waits; thread 1 pushes 1 and its
`notify_one` wakes thread 0; before thread 0 has the mutex again thread 2 pops
the 1; thread 0 then re-checks and returns.  No timeout and no spurious wake-up
occurs. -/
def racedSchedule : List Action :=
  [Action.run 0 0, Action.run 0 0, Action.run 0 0,
   Action.run 1 0, Action.run 1 0, Action.run 1 0, Action.run 1 0,
   Action.run 2 0, Action.run 2 0, Action.run 2 0, Action.run 2 0, Action.run 2 0,
   Action.run 0 0, Action.run 0 0, Action.run 0 0]

/-- A complete run of the lone-consumer scenario with values 7 and 8: the
consumer blocks, the producer pushes 7 (waking the consumer) and 8, the consumer
re-checks, pops 7 and returns. -/
def handoffComplete : List Action :=
  [Action.run 0 0, Action.run 0 0, Action.run 0 0,
   Action.run 1 0, Action.run 1 0, Action.run 1 0, Action.run 1 0,
   Action.run 1 0, Action.run 1 0, Action.run 1 0, Action.run 1 0,
   Action.run 0 0, Action.run 0 0, Action.run 0 0, Action.run 0 0, Action.run 0 0]

/-- The state at the end of `handoffComplete`. -/
def handoffDone : State Nat :=
  { sh := { m_queue := [8], m_mutex := none, ub := false, assert_failed := false,
            pushed := [7, 8], returned := [7], inflight := [] },
    threads := [{ pc := Pc.idle, todo := [], value := 7, got := [7], result := none },
                { pc := Pc.idle, todo := [], value := 0, got := [], result := none }] }

/-- Thread 0 finds the queue empty and waits in `wait_for`; thread 1 appends 1
and releases the mutex; thread 2 pops the 1 with `try_pop`; the timeout of
thread 0 expires, thread 0 re-checks, finds the queue empty and returns; last,
thread 1 issues its `notify_one`, with no thread waiting any more. -/
def expiredSchedule : List Action :=
  [Action.run 0 0, Action.run 0 0, Action.run 0 0,
   Action.run 1 0, Action.run 1 0, Action.run 1 0,
   Action.run 2 0, Action.run 2 0, Action.run 2 0, Action.run 2 0, Action.run 2 0,
   Action.wake 0 WakeCause.timeout,
   Action.run 0 0, Action.run 0 0, Action.run 0 0,
   Action.run 1 0]

/-- The first five actions of `expiredSchedule`: thread 0 is blocked in
`wait_for` and the producer has just appended 1. -/
def expiredElementArrived : List Action := expiredSchedule.take 5

/-- The state after `expiredElementArrived`. -/
def expiredWaiting : State Nat :=
  { sh := { m_queue := [1], m_mutex := some 1, ub := false, assert_failed := false,
            pushed := [1], returned := [], inflight := [] },
    threads := [{ pc := Pc.tw_blocked, todo := [], value := 0, got := [], result := none },
                { pc := Pc.push_unlock, todo := [], value := 0, got := [], result := none },
                { pc := Pc.idle, todo := [Op.try_pop], value := 0, got := [],
                  result := none }] }

/-- The state at the end of `expiredSchedule`. -/
def expiredDone : State Nat :=
  { sh := { m_queue := [], m_mutex := none, ub := false, assert_failed := false,
            pushed := [1], returned := [1], inflight := [] },
    threads := [{ pc := Pc.idle, todo := [], value := 0, got := [], result := some false },
                { pc := Pc.idle, todo := [], value := 0, got := [], result := none },
                { pc := Pc.idle, todo := [], value := 1, got := [1], result := some true }] }

/-- The first fourteen actions of `expiredSchedule`: thread 0 has re-checked the
queue after the timeout and is about to return `false`. -/
def expiredBeforeReturn : List Action := expiredSchedule.take 14

/-- The state after `expiredBeforeReturn`. -/
def expiredAboutToFail : State Nat :=
  { sh := { m_queue := [], m_mutex := some 0, ub := false, assert_failed := false,
            pushed := [1], returned := [1], inflight := [] },
    threads := [{ pc := Pc.tw_ret false, todo := [], value := 0, got := [], result := none },
                { pc := Pc.push_notify, todo := [], value := 0, got := [], result := none },
                { pc := Pc.idle, todo := [], value := 1, got := [1], result := some true }] }

/-! ### The loop of `try_wait_and_pop` -/

/-- The event is a timed wait on `m_cond`. -/
def SyncEvent.isTimedWait : SyncEvent → Bool
  | SyncEvent.wait_for _ => true
  | _ => false

/-- Number of times the body of the `while` loop of `try_wait_and_pop`
(lines 60-64) is entered, for a call that starts with the given contents and
experiences the given wake-ups: the body is entered when the loop test finds the
queue empty, and after its `wait_for` it either returns or goes back to the
test. -/
def try_wait_and_pop_iterations {α : Type} : List α → List (Wake α) → Nat
  | _ :: _, _ => 0
  | [], [] => 1
  | [], w :: ws =>
    if w.queue.isEmpty then 1 else 1 + try_wait_and_pop_iterations w.queue ws

/-- The end of the loop-free version: "if it is still empty return false;
otherwise pop the head and return true". -/
def popOrFail {α : Type} (value : α) : List α → List SyncEvent → PopResult α
  | [], ev =>
    { ret := false, value := value, queue := { m_queue := [] },
      events := ev ++ [SyncEvent.unlock] }
  | x :: rest, ev =>
    { ret := true, value := x, queue := { m_queue := rest },
      events := ev ++ [SyncEvent.unlock] }

/-- The loop-free version of `try_wait_and_pop`, written from its description:
"if the queue is empty, wait once for at most `milli` milliseconds; if it is
still empty return false; otherwise pop the head and return true".  Only the
first wake-up is looked at; with no wake-up the call is still inside its one
wait. -/
def LockingQueue.try_wait_and_pop_once {α : Type} (q : LockingQueue α) (value : α)
    (milli : Int) (wakes : List (Wake α)) : Option (PopResult α) :=
  if q.m_queue.isEmpty then
    match wakes with
    | [] => none
    | w :: _ => some (popOrFail value w.queue [SyncEvent.lock, SyncEvent.wait_for milli])
  else some (popOrFail value q.m_queue [SyncEvent.lock])

/-- How executing the statement at a program point changes the number of timed
waits of the current call: the first statement of a call starts from zero,
`m_cond.wait_for` adds one. -/
def Pc.waitsAfter {α : Type} (p : Pc α) (w : Nat) : Nat :=
  match p with
  | Pc.idle => 0
  | Pc.tw_wait => w + 1
  | _ => w

/-- The count of timed waits of thread `i` after one more action. -/
def bumpWaits {α : Type} (i : Nat) (s : State α) (a : Action) (w : Nat) : Nat :=
  match a with
  | Action.wake _ _ => w
  | Action.run j _ =>
    if j = i then
      match s.threads[i]? with
      | some t => t.pc.waitsAfter w
      | none => w
    else w

/-- Number of timed waits thread `i` has started in the call it is in (or has
last completed) at the end of a schedule, `w` being that number at its
beginning; the count stops at the first action that is not enabled. -/
def timedWaits {α : Type} [DecidableEq α] (i : Nat) : State α → List Action → Nat → Nat
  | _, [], w => w
  | s, a :: rest, w =>
    match step s a with
    | none => w
    | some s1 => timedWaits i s1 rest (bumpWaits i s a w)

/-- What the count of timed waits of thread `i` satisfies: it is at most one; at
the loop test of `try_wait_and_pop` it is zero unless the queue is non-empty;
and the thread stands at `wait_for` only with a count of zero. -/
def State.waitsOk {α : Type} (s : State α) (i w : Nat) : Prop :=
  w ≤ 1
  ∧ ∀ t : Thread α, s.threads[i]? = some t →
      (t.pc = Pc.tw_test → w = 0 ∨ s.sh.m_queue ≠ [])
      ∧ (t.pc = Pc.tw_wait → w = 0)

/-! ### `push` and the allocation it needs -/

/-- All invariants of a pool with one consumer, thread `c`, making `k` pops,
the other threads being producers of the values `all`. -/
def State.pool {α : Type} (s : State α) (c k : Nat) (all : Multiset α) : Prop :=
  s.ok ∧ s.owned ∧ s.noLost ∧ s.handoffInv c k all

/-! ## Call-level results -/

theorem pushAll_m_queue {α : Type} (ps : List α) (q : LockingQueue α) :
    (pushAll q ps).m_queue = q.m_queue ++ ps := by
  induction ps generalizing q with
  | nil => simp [pushAll]
  | cons p ps ih => simp [pushAll, ih, LockingQueue.push]

theorem popMany_append {α : Type} (ps : List α) (rest : List α) (value : α) :
    popMany { m_queue := ps ++ rest } value ps.length
      = (ps.map (fun p => (true, p)), { m_queue := rest }) := by
  induction ps generalizing value with
  | nil => simp [popMany]
  | cons p ps ih => simp [popMany, LockingQueue.try_pop, ih]

/-- C1 (FIFO order, single caller): after `push(p1) ... push(pn)` on a fresh
queue, `n` calls of `try_pop` all succeed and deliver `p1 ... pn` in that order,
the queue is then empty, and one more `try_pop` reports "no value" leaving the
variable alone; a `try_pop` on the fresh queue fails as well. -/
theorem C1_fifo_push_then_try_pop {α : Type} (ps : List α) (value : α) :
    (popMany (pushAll LockingQueue.fresh ps) value ps.length).1
        = ps.map (fun p => (true, p))
    ∧ (popMany (pushAll LockingQueue.fresh ps) value ps.length).2 = LockingQueue.fresh
    ∧ (((popMany (pushAll LockingQueue.fresh ps) value ps.length).2).try_pop value).ret = false
    ∧ (((popMany (pushAll LockingQueue.fresh ps) value ps.length).2).try_pop value).value = value
    ∧ ((LockingQueue.fresh : LockingQueue α).try_pop value).ret = false := by
  have hq : pushAll (LockingQueue.fresh : LockingQueue α) ps = { m_queue := ps ++ [] } := by
    have h := pushAll_m_queue ps (LockingQueue.fresh : LockingQueue α)
    cases hp : pushAll (LockingQueue.fresh : LockingQueue α) ps with
    | mk l =>
      rw [hp] at h
      simp [LockingQueue.fresh] at h
      simp [h]
  rw [hq, popMany_append]
  simp [LockingQueue.fresh, LockingQueue.try_pop]

/-- C2 (`try_pop` is decided by the contents alone and never waits): on an empty
queue it returns `false` with queue and variable unchanged; on `x :: rest` it
returns `true`, stores `x` and leaves exactly `rest`; in both cases the only
synchronisation calls are the lock and its release.  Statement by statement: a
thread that starts `try_pop` with the mutex free runs straight through, three
statements on an empty queue and five otherwise, never reaching a blocked
program point, and ends with the same flag, variable and queue. -/
theorem C2_try_pop_total {α : Type} [DecidableEq α] (value x : α) (rest : List α) :
    LockingQueue.try_pop { m_queue := [] } value
        = { ret := false, value := value, queue := { m_queue := [] },
            events := [SyncEvent.lock, SyncEvent.unlock] }
    ∧ LockingQueue.try_pop { m_queue := x :: rest } value
        = { ret := true, value := x, queue := { m_queue := rest },
            events := [SyncEvent.lock, SyncEvent.unlock] }
    ∧ (∀ q : LockingQueue α, SyncEvent.wait ∉ (q.try_pop value).events
        ∧ ∀ milli, SyncEvent.wait_for milli ∉ (q.try_pop value).events)
    ∧ (∀ (i : Nat) (t : Thread α) (sh : Shared α) (more : List (Op α)),
        t.pc = Pc.idle → t.todo = Op.try_pop :: more → t.value = value →
        sh.m_mutex = none → sh.m_queue = [] →
        ∃ (t1 t2 t3 : Thread α) (sh1 sh3 : Shared α),
          exec i t sh = some (t1, sh1, false) ∧ t1.pc = Pc.try_test
          ∧ exec i t1 sh1 = some (t2, sh1, false) ∧ t2.pc = Pc.try_ret false
          ∧ exec i t2 sh1 = some (t3, sh3, false)
          ∧ t3.pc = Pc.idle ∧ t3.todo = more ∧ t3.result = some false
          ∧ t3.value = value ∧ sh3.m_queue = [] ∧ sh3.m_mutex = none)
    ∧ (∀ (i : Nat) (t : Thread α) (sh : Shared α) (more : List (Op α)),
        t.pc = Pc.idle → t.todo = Op.try_pop :: more →
        sh.m_mutex = none → sh.m_queue = x :: rest →
        ∃ (t1 t2 t3 t4 t5 : Thread α) (sh1 sh4 sh5 : Shared α),
          exec i t sh = some (t1, sh1, false) ∧ t1.pc = Pc.try_test
          ∧ exec i t1 sh1 = some (t2, sh1, false) ∧ t2.pc = Pc.try_front
          ∧ exec i t2 sh1 = some (t3, sh1, false) ∧ t3.pc = Pc.try_pop
          ∧ exec i t3 sh1 = some (t4, sh4, false) ∧ t4.pc = Pc.try_ret true
          ∧ exec i t4 sh4 = some (t5, sh5, false)
          ∧ t5.pc = Pc.idle ∧ t5.todo = more ∧ t5.result = some true
          ∧ t5.value = x ∧ sh5.m_queue = rest ∧ sh5.m_mutex = none) := by
  refine ⟨rfl, rfl, ?_, ?_, ?_⟩
  · intro q
    cases q with
    | mk l => cases l <;> simp [LockingQueue.try_pop]
  · intro i t sh more hpc htodo hval hm hq
    rcases t with ⟨pc, todo, v, got, result⟩
    simp only at hpc htodo hval
    subst hpc htodo hval
    refine ⟨{ pc := Pc.try_test, todo := more, value := v, got := got, result := result },
      { pc := Pc.try_ret false, todo := more, value := v, got := got, result := result },
      { pc := Pc.idle, todo := more, value := v, got := got, result := some false },
      { sh with m_mutex := some i }, { sh with m_mutex := none }, ?_⟩
    simp [exec, enter, Shared.acquire, Shared.release, Thread.goto, execRet, hm, hq]
  · intro i t sh more hpc htodo hm hq
    rcases t with ⟨pc, todo, v, got, result⟩
    simp only at hpc htodo
    subst hpc htodo
    refine ⟨{ pc := Pc.try_test, todo := more, value := v, got := got, result := result },
      { pc := Pc.try_front, todo := more, value := v, got := got, result := result },
      { pc := Pc.try_pop, todo := more, value := x, got := got, result := result },
      { pc := Pc.try_ret true, todo := more, value := x, got := got, result := result },
      { pc := Pc.idle, todo := more, value := x, got := got ++ [x], result := some true },
      { sh with m_mutex := some i },
      { sh with m_mutex := some i, m_queue := rest, inflight := [x] },
      { sh with m_mutex := none, m_queue := rest, returned := sh.returned ++ [x],
                inflight := [] }, ?_⟩
    simp [exec, enter, Shared.acquire, Shared.release, Thread.goto, execRet, execFront,
      execPop, hm, hq]

/-- C6 (failing runs): on an empty queue, a wake that is not a timeout (spurious,
or a notification whose element is already gone) and finds the queue empty makes
`try_wait_and_pop` return `false` at once, whatever would happen later in the
wait budget; so "no value" is reported although no timeout has occurred.
Statement by statement, in `racedSchedule` thread 0 waits in
`try_wait_and_pop(value, 1000)`, is notified by the producer, loses the element
to a `try_pop` of thread 2 and returns `false`, without any timeout or spurious
wake-up in the schedule. -/
theorem C6_early_wake_reports_no_value :
    LockingQueue.try_wait_and_pop ({ m_queue := [] } : LockingQueue String) "" 50
        [{ cause := WakeCause.spurious, queue := [] },
         { cause := WakeCause.notified, queue := ["late"] }]
      = some { ret := false, value := "", queue := { m_queue := [] },
               events := [SyncEvent.lock, SyncEvent.wait_for 50, SyncEvent.unlock] }
    ∧ (∀ (value : String) (milli : Int) (cause : WakeCause) (ws : List (Wake String)),
        (LockingQueue.try_wait_and_pop { m_queue := [] } value milli
            ({ cause := cause, queue := [] } :: ws)).map (fun r => r.ret) = some false)
    ∧ ¬ (∀ (value : String) (milli : Int) (wakes : List (Wake String)) (r : PopResult String),
          LockingQueue.try_wait_and_pop { m_queue := [] } value milli wakes = some r →
          r.ret = false → ∃ w ∈ wakes, w.cause = WakeCause.timeout)
    ∧ (run (State.init racedProgs) racedSchedule).map
          (fun s => (s.threads.map (fun t => (t.pc, t.result)), s.sh.returned, s.sh.m_queue))
        = some ([(Pc.idle, some false), (Pc.idle, none), (Pc.idle, some true)], [1], [])
    ∧ racedSchedule.all Action.isRun = true := by
  refine ⟨by decide, ?_, ?_, rfl, rfl⟩
  · intro value milli cause ws
    simp [LockingQueue.try_wait_and_pop, try_wait_and_pop_loop]
  · intro h
    have h1 := h "" 50 [{ cause := WakeCause.spurious, queue := [] }] _ rfl rfl
    simp at h1

/-! ## Statement-level results -/

theorem exec_ok {α : Type} [DecidableEq α] {i : Nat} {t t1 : Thread α} {sh sh1 : Shared α}
    {n : Bool} (hsh : sh.ok) (ht : t.ok i sh) (h : exec i t sh = some (t1, sh1, n)) :
    sh1.ok ∧ t1.ok i sh1 := by
  obtain ⟨hub, hfree, hhist⟩ := hsh
  unfold Thread.ok at ht
  unfold Shared.ok Thread.ok
  rcases t with ⟨pc, todo, value, got, result⟩
  rcases sh with ⟨q, m, ub, af, pushed, returned, inflight⟩
  cases pc
  case idle =>
    rcases todo with _ | ⟨op, rest⟩
    · simp [exec] at h
    · cases op <;> cases m <;>
        simp [exec, enter, Shared.acquire] at h hfree hhist hub <;>
        obtain ⟨rfl, rfl, rfl⟩ := h <;>
        simp_all [Pc.holds, Pc.popped, Pc.atFront, Pc.atPop, Pc.sawEmpty]
  case push_append d =>
    simp [exec, Pc.holds, Pc.popped, Thread.goto] at ht h
    obtain ⟨rfl, rfl, rfl⟩ := h
    simp only [] at hhist
    subst hhist
    simp_all [Pc.holds, Pc.popped, Pc.atFront, Pc.atPop, Pc.sawEmpty]
  all_goals
    try (rename_i b; cases b)
  all_goals
    cases q <;> cases m <;>
      simp [exec, Pc.holds, Pc.popped, Pc.atFront, Pc.atPop, Pc.sawEmpty, Thread.goto,
        Shared.release, execFront, execPop, execRet, enter, Shared.acquire]
        at ht h hfree hhist hub <;>
      obtain ⟨rfl, rfl, rfl⟩ := h <;>
      simp_all [Pc.holds, Pc.popped, Pc.atFront, Pc.atPop, Pc.sawEmpty]

/-- A statement executed by a thread that does not own the mutex, while some
thread owns it, leaves queue, owner and history alone. -/
theorem exec_nonholder {α : Type} [DecidableEq α] {i : Nat} {t t1 : Thread α}
    {sh sh1 : Shared α} {n : Bool} (hp : t.pc.holds = false) (hm : sh.m_mutex ≠ none)
    (h : exec i t sh = some (t1, sh1, n)) :
    sh1.m_queue = sh.m_queue ∧ sh1.m_mutex = sh.m_mutex ∧ sh1.inflight = sh.inflight
    ∧ sh1.pushed = sh.pushed ∧ sh1.returned = sh.returned ∧ sh1.ub = sh.ub := by
  rcases t with ⟨pc, todo, value, got, result⟩
  rcases sh with ⟨q, m, ub, af, pushed, returned, inflight⟩
  cases pc <;> simp [Pc.holds] at hp
  case idle =>
    rcases todo with _ | ⟨op, rest⟩
    · simp [exec] at h
    · cases op <;> cases m <;>
        simp [exec, enter, Shared.acquire] at h hm
      obtain ⟨rfl, rfl, rfl⟩ := h
      simp
  all_goals
    cases m <;>
      simp [exec, Thread.goto, Shared.acquire] at h hm
  all_goals
    obtain ⟨rfl, rfl, rfl⟩ := h
    simp

theorem exec_frame {α : Type} [DecidableEq α] {i j : Nat} {t t1 u : Thread α}
    {sh sh1 : Shared α} {n : Bool} (ht : t.ok i sh) (hu : u.ok j sh) (hij : j ≠ i)
    (h : exec i t sh = some (t1, sh1, n)) : u.ok j sh1 := by
  intro hh
  have hu1 := hu hh
  have hp : t.pc.holds = false := by
    cases hc : t.pc.holds with
    | false => rfl
    | true =>
      have := (ht hc).1
      rw [hu1.1] at this
      simp at this
      exact absurd this hij
  have hm : sh.m_mutex ≠ none := by rw [hu1.1]; simp
  obtain ⟨h1, h2, h3, -, -, -⟩ := exec_nonholder hp hm h
  rw [h1, h2, h3]
  exact hu1

theorem Thread.ok_of_not_holds {α : Type} {j : Nat} {u : Thread α} {sh : Shared α}
    (h : u.pc.holds = false) : u.ok j sh := by
  intro hh
  rw [h] at hh
  cases hh

theorem notifyOne_get {α : Type} {ts ts1 : List (Thread α)} {pick : Nat}
    (h : notifyOne ts pick = some ts1) {j : Nat} {u1 : Thread α} (hj : ts1[j]? = some u1) :
    ∃ u, ts[j]? = some u ∧ (u1 = u ∨ (u.pc.blocked = true ∧ u1 = u.goto u.pc.woken)) := by
  unfold notifyOne at h
  split at h
  · simp at h
    subst h
    exact ⟨u1, hj, Or.inl rfl⟩
  · split at h
    · simp at h
    · rename_i u hu
      split at h
      · rename_i hb
        simp at h
        subst h
        rw [List.getElem?_set] at hj
        split at hj
        · rename_i hpj
          subst hpj
          split at hj
          · simp at hj
            subst hj
            exact ⟨u, hu, Or.inr ⟨hb, rfl⟩⟩
          · simp at hj
        · exact ⟨u1, hj, Or.inl rfl⟩
      · simp at h

theorem woken_not_holds {α : Type} {p : Pc α} (h : p.blocked = true) :
    p.woken.holds = false := by
  cases p <;> simp [Pc.blocked] at h <;> simp [Pc.woken, Pc.holds]

theorem wakeUp_spec {α : Type} {t t1 : Thread α} {c : WakeCause} (h : wakeUp t c = some t1) :
    t.pc.blocked = true ∧ t1 = t.goto t.pc.woken := by
  rcases t with ⟨pc, todo, value, got, result⟩
  cases pc <;> cases c <;> simp [wakeUp] at h <;> subst h <;>
    simp [Pc.blocked, Pc.woken, Thread.goto]

theorem step_ok {α : Type} [DecidableEq α] {s s1 : State α} {a : Action}
    (hs : s.ok) (h : step s a = some s1) : s1.ok := by
  obtain ⟨hsh, hth⟩ := hs
  cases a with
  | run i pick =>
    simp only [step] at h
    split at h
    · simp at h
    · rename_i t hti
      split at h
      · simp at h
      · rename_i t1 sh1 n hex
        have hex1 := exec_ok hsh (hth i t hti) hex
        have hset : ∀ (j : Nat) (u : Thread α), (s.threads.set i t1)[j]? = some u →
            u.ok j sh1 := by
          intro j u hj
          rw [List.getElem?_set] at hj
          split at hj
          · rename_i hij
            subst hij
            split at hj
            · simp at hj
              subst hj
              exact hex1.2
            · simp at hj
          · rename_i hij
            exact exec_frame (hth i t hti) (hth j u hj) (Ne.symm hij) hex
        split at h
        · split at h
          · simp at h
          · rename_i ts hn
            simp at h
            subst h
            refine ⟨hex1.1, ?_⟩
            intro j u1 hj
            obtain ⟨u, hu, hcase⟩ := notifyOne_get hn hj
            rcases hcase with rfl | ⟨hb, rfl⟩
            · exact hset j u1 hu
            · exact Thread.ok_of_not_holds (woken_not_holds hb)
        · simp at h
          subst h
          exact ⟨hex1.1, hset⟩
  | wake j c =>
    simp only [step] at h
    split at h
    · simp at h
    · rename_i t htj
      split at h
      · simp at h
      · rename_i t1 hw
        simp at h
        subst h
        obtain ⟨hb, rfl⟩ := wakeUp_spec hw
        refine ⟨hsh, ?_⟩
        intro k u hk
        simp only at hk
        rw [List.getElem?_set] at hk
        split at hk
        · split at hk
          · simp at hk
            subst hk
            exact Thread.ok_of_not_holds (woken_not_holds hb)
          · simp at hk
        · exact hth k u hk

theorem run_ok {α : Type} [DecidableEq α] (acts : List Action) {s s1 : State α}
    (hs : s.ok) (h : run s acts = some s1) : s1.ok := by
  induction acts generalizing s with
  | nil =>
    simp [run] at h
    subst h
    exact hs
  | cons a rest ih =>
    simp only [run] at h
    split at h
    · simp at h
    · rename_i s2 hst
      exact ih (step_ok hs hst) h

theorem init_ok {α : Type} (progs : List (List (Op α) × α)) : (State.init progs).ok := by
  refine ⟨⟨rfl, fun _ => rfl, rfl⟩, ?_⟩
  intro i t hi
  simp [State.init, List.getElem?_map] at hi
  obtain ⟨p, v, -, rfl⟩ := hi
  exact Thread.ok_of_not_holds rfl

theorem holds_not_blocked {α : Type} {p : Pc α} (h : p.holds = true) : p.blocked = false := by
  cases p <;> simp [Pc.holds] at h <;> simp [Pc.blocked]

/-- How a statement changes ownership of the mutex. -/
theorem exec_owner {α : Type} [DecidableEq α] {i : Nat} {t t1 : Thread α}
    {sh sh1 : Shared α} {n : Bool} (ht : t.ok i sh) (h : exec i t sh = some (t1, sh1, n)) :
    (t1.pc.holds = true ∧ sh1.m_mutex = some i ∧ n = false)
    ∨ (t1.pc.holds = false ∧ sh1.m_mutex = none ∧ n = false)
    ∨ (t1.pc.holds = false ∧ t.pc.holds = false ∧ sh1.m_mutex = sh.m_mutex) := by
  unfold Thread.ok at ht
  rcases t with ⟨pc, todo, value, got, result⟩
  rcases sh with ⟨q, m, ub, af, pushed, returned, inflight⟩
  cases pc
  case idle =>
    rcases todo with _ | ⟨op, rest⟩
    · simp [exec] at h
    · cases op <;> cases m <;>
        simp [exec, enter, Shared.acquire] at h <;>
        obtain ⟨rfl, rfl, rfl⟩ := h <;>
        simp [Pc.holds]
  all_goals
    try (rename_i b; cases b)
  all_goals
    cases q <;> cases m <;>
      simp [exec, Pc.holds, Thread.goto, Shared.release, execFront, execPop, execRet,
        Shared.acquire] at ht h <;>
      obtain ⟨rfl, rfl, rfl⟩ := h <;>
      simp_all [Pc.holds]

theorem notifyOne_keep {α : Type} {ts ts1 : List (Thread α)} {pick : Nat}
    (h : notifyOne ts pick = some ts1) {k : Nat} {u : Thread α} (hk : ts[k]? = some u)
    (hb : u.pc.blocked = false) : ts1[k]? = some u := by
  unfold notifyOne at h
  split at h
  · simp at h
    subst h
    exact hk
  · split at h
    · simp at h
    · rename_i v hv
      split at h
      · rename_i hvb
        simp at h
        subst h
        have hne : pick ≠ k := by
          intro he
          subst he
          rw [hv] at hk
          simp at hk
          subst hk
          rw [hb] at hvb
          cases hvb
        rw [List.getElem?_set_ne hne]
        exact hk
      · simp at h

theorem getElem?_set_same {β : Type} {l : List β} {i : Nat} {a b : β}
    (h : l[i]? = some a) : (l.set i b)[i]? = some b := by
  have hlt : i < l.length := by
    rcases List.getElem?_eq_some.mp h with ⟨hlt, -⟩
    exact hlt
  exact List.getElem?_set_self hlt

theorem step_owned {α : Type} [DecidableEq α] {s s1 : State α} {a : Action}
    (hs : s.ok) (ho : s.owned) (h : step s a = some s1) : s1.owned := by
  obtain ⟨hsh, hth⟩ := hs
  cases a with
  | run i pick =>
    simp only [step] at h
    split at h
    · simp at h
    · rename_i t hti
      split at h
      · simp at h
      · rename_i t1 sh1 n hex
        have hcase := exec_owner (hth i t hti) hex
        have hother : t.pc.holds = false → sh1.m_mutex = s.sh.m_mutex →
            ∀ k : Nat, sh1.m_mutex = some k →
              ∃ u : Thread α, (s.threads.set i t1)[k]? = some u ∧ u.pc.holds = true := by
          intro htp hm k hk
          rw [hm] at hk
          obtain ⟨u, hu, huh⟩ := ho k hk
          have hne : i ≠ k := by
            intro he
            subst he
            rw [hti] at hu
            simp at hu
            subst hu
            rw [htp] at huh
            cases huh
          exact ⟨u, by rw [List.getElem?_set_ne hne]; exact hu, huh⟩
        split at h
        · rename_i hn
          split at h
          · simp at h
          · rename_i ts hnot
            simp at h
            subst h
            intro k hk
            simp only at hk
            rcases hcase with ⟨-, -, hn1⟩ | ⟨-, -, hn1⟩ | ⟨-, htp, hm⟩
            · rw [hn1] at hn; cases hn
            · rw [hn1] at hn; cases hn
            · obtain ⟨u, hu, huh⟩ := hother htp hm k hk
              exact ⟨u, notifyOne_keep hnot hu (holds_not_blocked huh), huh⟩
        · simp at h
          subst h
          intro k hk
          simp only at hk
          rcases hcase with ⟨hh, hm, -⟩ | ⟨-, hm, -⟩ | ⟨-, htp, hm⟩
          · rw [hm] at hk
            simp at hk
            subst hk
            exact ⟨t1, getElem?_set_same hti, hh⟩
          · rw [hm] at hk
            cases hk
          · exact hother htp hm k hk
  | wake j c =>
    simp only [step] at h
    split at h
    · simp at h
    · rename_i t htj
      split at h
      · simp at h
      · rename_i t1 hw
        simp at h
        subst h
        obtain ⟨hb, rfl⟩ := wakeUp_spec hw
        intro k hk
        obtain ⟨u, hu, huh⟩ := ho k hk
        have hne : j ≠ k := by
          intro he
          subst he
          rw [htj] at hu
          simp at hu
          subst hu
          rw [holds_not_blocked huh] at hb
          cases hb
        exact ⟨u, by simp only; rw [List.getElem?_set_ne hne]; exact hu, huh⟩

/-- The two basic invariants together hold along every schedule. -/
theorem run_ok_owned {α : Type} [DecidableEq α] (acts : List Action) {s s1 : State α}
    (hs : s.ok) (ho : s.owned) (h : run s acts = some s1) : s1.ok ∧ s1.owned := by
  induction acts generalizing s with
  | nil =>
    simp [run] at h
    subst h
    exact ⟨hs, ho⟩
  | cons a rest ih =>
    simp only [run] at h
    split at h
    · simp at h
    · rename_i s2 hst
      exact ih (step_ok hs hst) (step_owned hs ho hst) h

theorem init_owned {α : Type} (progs : List (List (Op α) × α)) : (State.init progs).owned := by
  intro k hk
  simp [State.init, Shared.fresh] at hk

/-- Effect of one statement on the queue and on the history variables. -/
theorem exec_hist {α : Type} [DecidableEq α] {i : Nat} {t t1 : Thread α}
    {sh sh1 : Shared α} {n : Bool} (ht : t.ok i sh) (h : exec i t sh = some (t1, sh1, n)) :
    (sh1.m_queue = sh.m_queue ∧ sh1.pushed = sh.pushed
      ∧ sh1.returned ++ sh1.inflight = sh.returned ++ sh.inflight)
    ∨ (∃ v, t.pc = Pc.push_append v ∧ sh1.m_queue = sh.m_queue ++ [v]
        ∧ sh1.pushed = sh.pushed ++ [v]
        ∧ sh1.returned ++ sh1.inflight = sh.returned ++ sh.inflight)
    ∨ (t.pc.atPop = true ∧ sh.m_queue = t.value :: sh1.m_queue ∧ sh1.pushed = sh.pushed
        ∧ sh1.returned ++ sh1.inflight = sh.returned ++ sh.inflight ++ [t.value]) := by
  unfold Thread.ok at ht
  rcases t with ⟨pc, todo, value, got, result⟩
  rcases sh with ⟨q, m, ub, af, pushed, returned, inflight⟩
  cases pc
  case idle =>
    rcases todo with _ | ⟨op, rest⟩
    · simp [exec] at h
    · cases op <;> cases m <;>
        simp [exec, enter, Shared.acquire] at h <;>
        obtain ⟨rfl, rfl, rfl⟩ := h <;>
        simp
  all_goals
    try (rename_i b; cases b)
  all_goals
    cases q <;> cases m <;>
      simp [exec, Pc.holds, Pc.popped, Pc.atFront, Pc.atPop, Pc.sawEmpty, Thread.goto,
        Shared.release, execFront, execPop, execRet, Shared.acquire] at ht h <;>
      obtain ⟨rfl, rfl, rfl⟩ := h <;>
      simp_all [Pc.atPop]

theorem inflight_le_one {α : Type} {s : State α} (hs : s.ok) (ho : s.owned) :
    s.sh.inflight.length ≤ 1
    ∧ ((∀ (i : Nat) (t : Thread α), s.threads[i]? = some t → t.pc.popped = false) →
        s.sh.inflight = []) := by
  cases hm : s.sh.m_mutex with
  | none =>
    have := hs.1.2.1 hm
    simp [this]
  | some k =>
    obtain ⟨u, hu, huh⟩ := ho k hm
    have hok := hs.2 k u hu huh
    cases hp : u.pc.popped with
    | true =>
      have := hok.2.1 hp
      refine ⟨by simp [this], ?_⟩
      intro hall
      rw [hall k u hu] at hp
      cases hp
    | false =>
      have := hok.2.2.1 hp
      simp [this]

/-- C9 (global FIFO along every schedule): for any thread programs and any
interleaving, including wake-ups without notification, the values returned by
successful pops, then the element (at most one) already removed by a pop that
has not returned yet, then the queue contents, are exactly the values pushed so
far in push order; when no call is between its `m_queue.pop()` and its return
this reads returned ++ queue = pushed.  So the returned values are a prefix of
the pushed ones, and every statement leaves the queue alone, or is an
`m_queue.push` adding exactly its value at the back, or is an `m_queue.pop()`
removing exactly the head, which is the value the call will return. -/
theorem C9_global_fifo_history {α : Type} [DecidableEq α] (progs : List (List (Op α) × α))
    (acts : List Action) (s : State α) (h : run (State.init progs) acts = some s) :
    s.sh.returned ++ s.sh.inflight ++ s.sh.m_queue = s.sh.pushed
    ∧ s.sh.inflight.length ≤ 1
    ∧ ((∀ (i : Nat) (t : Thread α), s.threads[i]? = some t → t.pc.popped = false) →
        s.sh.returned ++ s.sh.m_queue = s.sh.pushed)
    ∧ s.sh.returned <+: s.sh.pushed
    ∧ (∀ (a : Action) (s1 : State α), step s a = some s1 →
        (s1.sh.m_queue = s.sh.m_queue ∧ s1.sh.pushed = s.sh.pushed
          ∧ s1.sh.returned ++ s1.sh.inflight = s.sh.returned ++ s.sh.inflight)
        ∨ (∃ v, s1.sh.m_queue = s.sh.m_queue ++ [v] ∧ s1.sh.pushed = s.sh.pushed ++ [v]
            ∧ s1.sh.returned ++ s1.sh.inflight = s.sh.returned ++ s.sh.inflight)
        ∨ (∃ x, s.sh.m_queue = x :: s1.sh.m_queue ∧ s1.sh.pushed = s.sh.pushed
            ∧ s1.sh.returned ++ s1.sh.inflight = s.sh.returned ++ s.sh.inflight ++ [x])) := by
  obtain ⟨hs, ho⟩ := run_ok_owned acts (init_ok progs) (init_owned progs) h
  have hhist := hs.1.2.2
  obtain ⟨hlen, hnone⟩ := inflight_le_one hs ho
  refine ⟨hhist, hlen, ?_, ?_, ?_⟩
  · intro hall
    have := hnone hall
    rw [this] at hhist
    simpa using hhist
  · rw [← hhist, List.append_assoc]
    exact List.prefix_append _ _
  · intro a s1 hst
    cases a with
    | run i pick =>
      simp only [step] at hst
      split at hst
      · simp at hst
      · rename_i t hti
        split at hst
        · simp at hst
        · rename_i t1 sh1 n hex
          have hsh1 : s1.sh = sh1 := by
            split at hst
            · split at hst
              · simp at hst
              · simp at hst
                subst hst
                rfl
            · simp at hst
              subst hst
              rfl
          rw [hsh1]
          rcases exec_hist (hs.2 i t hti) hex with h1 | ⟨v, -, h2⟩ | ⟨-, h3⟩
          · exact Or.inl h1
          · exact Or.inr (Or.inl ⟨v, h2⟩)
          · exact Or.inr (Or.inr ⟨t.value, h3⟩)
    | wake j c =>
      simp only [step] at hst
      split at hst
      · simp at hst
      · split at hst
        · simp at hst
        · simp at hst
          subst hst
          exact Or.inl ⟨rfl, rfl, rfl⟩

/-- C10 (`wait_and_pop` re-checks after every wake): along every schedule, with
wake-ups allowed at any time, no `front()` or `pop()` is ever executed on an
empty queue; a blocked `wait_and_pop` that wakes (notified or not) reacquires
the mutex and goes back to the loop test, which sends it to wait again when the
queue is empty; and whenever it stands at `value = m_queue.front()` the queue is
non-empty, the statement stores the current head, the following `m_queue.pop()`
removes exactly that element, and that element is what the call returns. -/
theorem C10_wait_and_pop_rechecks {α : Type} [DecidableEq α]
    (progs : List (List (Op α) × α)) (acts : List Action) (s : State α)
    (h : run (State.init progs) acts = some s) :
    s.sh.ub = false
    ∧ ∀ (i : Nat) (t : Thread α), s.threads[i]? = some t →
        (t.pc = Pc.wp_blocked →
          t.pc.woken = Pc.wp_relock
          ∧ wakeUp t WakeCause.spurious = some (t.goto Pc.wp_relock)
          ∧ exec i t s.sh = none)
        ∧ (t.pc = Pc.wp_relock →
            ∀ r, exec i t s.sh = some r → r.1.pc = Pc.wp_test)
        ∧ (t.pc = Pc.wp_test →
            exec i t s.sh
              = some (t.goto (if s.sh.m_queue.isEmpty then Pc.wp_wait else Pc.wp_front),
                      s.sh, false))
        ∧ (t.pc = Pc.wp_wait →
            s.sh.m_queue = []
            ∧ exec i t s.sh = some (t.goto Pc.wp_blocked, s.sh.release, false))
        ∧ (t.pc = Pc.wp_front →
            ∃ x rest, s.sh.m_queue = x :: rest
              ∧ exec i t s.sh = some ({ t with pc := Pc.wp_pop, value := x }, s.sh, false))
        ∧ (t.pc = Pc.wp_pop →
            ∃ rest, s.sh.m_queue = t.value :: rest
              ∧ exec i t s.sh
                = some (t.goto Pc.wp_ret,
                        { s.sh with m_queue := rest, inflight := [t.value] }, false))
        ∧ (t.pc = Pc.wp_ret →
            s.sh.inflight = [t.value]
            ∧ exec i t s.sh
              = some ({ t with pc := Pc.idle, result := none, got := t.got ++ [t.value] },
                      { s.sh with m_mutex := none, returned := s.sh.returned ++ [t.value],
                                  inflight := [] }, false)) := by
  have hs := run_ok acts (init_ok progs) h
  refine ⟨hs.1.1, ?_⟩
  intro i t hti
  have hok := hs.2 i t hti
  unfold Thread.ok at hok
  rcases t with ⟨pc, todo, value, got, result⟩
  refine ⟨?_, ?_, ?_, ?_, ?_, ?_, ?_⟩
  · intro hpc
    simp only at hpc
    subst hpc
    simp [Pc.woken, wakeUp, exec, Thread.goto]
  · intro hpc r hr
    simp only at hpc
    subst hpc
    simp only [exec] at hr
    split at hr
    · simp at hr
    · simp at hr
      subst hr
      rfl
  · intro hpc
    simp only at hpc
    subst hpc
    simp [exec]
  · intro hpc
    simp only at hpc
    subst hpc
    have hq := (hok rfl).2.2.2.2.2 rfl
    simp only at hq
    simp [exec, hq]
  · intro hpc
    simp only at hpc
    subst hpc
    have hne := (hok rfl).2.2.2.1 rfl
    cases hq : s.sh.m_queue with
    | nil => exact absurd hq hne
    | cons x rest =>
      exact ⟨x, rest, rfl, by simp [exec, execFront, hq]⟩
  · intro hpc
    simp only at hpc
    subst hpc
    obtain ⟨rest, hq⟩ := (hok rfl).2.2.2.2.1 rfl
    simp only at hq
    exact ⟨rest, hq, by simp [exec, execPop, hq, Thread.goto]⟩
  · intro hpc
    simp only at hpc
    subst hpc
    have hfl := (hok rfl).2.1 rfl
    exact ⟨hfl, by simp [exec, execRet]⟩

/-! ### Shape of a step -/

theorem step_run_inv {α : Type} [DecidableEq α] {s s1 : State α} {i pick : Nat}
    (h : step s (Action.run i pick) = some s1) :
    ∃ (t t1 : Thread α) (sh1 : Shared α) (n : Bool),
      s.threads[i]? = some t ∧ exec i t s.sh = some (t1, sh1, n) ∧ s1.sh = sh1
      ∧ ((n = false ∧ s1.threads = s.threads.set i t1)
         ∨ (n = true ∧ notifyOne (s.threads.set i t1) pick = some s1.threads)) := by
  simp only [step] at h
  split at h
  · simp at h
  · rename_i t hti
    split at h
    · simp at h
    · rename_i t1 sh1 n hex
      refine ⟨t, t1, sh1, n, hti, hex, ?_⟩
      split at h
      · rename_i hn
        split at h
        · simp at h
        · rename_i ts hnot
          simp at h
          subst h
          exact ⟨rfl, Or.inr ⟨hn, hnot⟩⟩
      · rename_i hn
        simp at h
        subst h
        simp at hn
        exact ⟨rfl, Or.inl ⟨hn, rfl⟩⟩

theorem step_wake_inv {α : Type} [DecidableEq α] {s s1 : State α} {j : Nat} {c : WakeCause}
    (h : step s (Action.wake j c) = some s1) :
    ∃ t : Thread α, s.threads[j]? = some t ∧ t.pc.blocked = true
      ∧ s1.sh = s.sh ∧ s1.threads = s.threads.set j (t.goto t.pc.woken) := by
  simp only [step] at h
  split at h
  · simp at h
  · rename_i t htj
    split at h
    · simp at h
    · rename_i t1 hw
      simp at h
      subst h
      obtain ⟨hb, rfl⟩ := wakeUp_spec hw
      exact ⟨t, htj, hb, rfl, rfl⟩

theorem notifyOne_inv {α : Type} {ts ts1 : List (Thread α)} {pick : Nat}
    (h : notifyOne ts pick = some ts1) :
    (ts1 = ts ∧ ∀ (j : Nat) (u : Thread α), ts[j]? = some u → u.pc.blocked = false)
    ∨ (∃ u : Thread α, ts[pick]? = some u ∧ u.pc.blocked = true
        ∧ ts1 = ts.set pick (u.goto u.pc.woken)) := by
  unfold notifyOne at h
  split at h
  · rename_i hall
    simp at h
    subst h
    refine Or.inl ⟨rfl, ?_⟩
    intro j u hj
    rw [List.all_eq_true] at hall
    have := hall u (List.getElem?_mem hj)
    simpa using this
  · split at h
    · simp at h
    · rename_i u hu
      split at h
      · rename_i hb
        simp at h
        subst h
        exact Or.inr ⟨u, hu, hb, rfl⟩
      · simp at h

/-! ### Sums over the pool -/

theorem total_set {α : Type} (f : Thread α → Nat) (ts : List (Thread α)) (i : Nat)
    (t t1 : Thread α) (h : ts[i]? = some t) :
    total f (ts.set i t1) + f t = total f ts + f t1 := by
  induction ts generalizing i with
  | nil => simp at h
  | cons hd tl ih =>
    cases i with
    | zero =>
      simp at h
      subst h
      simp [total]
      omega
    | succ i =>
      simp at h
      have := ih i h
      simp [total]
      omega

theorem pendingAll_set {α : Type} (ts : List (Thread α)) (i : Nat) (t t1 : Thread α)
    (h : ts[i]? = some t) :
    ((pendingAll (ts.set i t1) : List α) : Multiset α) + (t.pending : Multiset α)
      = (pendingAll ts : Multiset α) + (t1.pending : Multiset α) := by
  induction ts generalizing i with
  | nil => simp at h
  | cons hd tl ih =>
    cases i with
    | zero =>
      simp at h
      subst h
      simp only [List.set_cons_zero, pendingAll, ← Multiset.coe_add]
      abel
    | succ i =>
      simp at h
      have := ih i h
      simp only [List.set_cons_succ, pendingAll, ← Multiset.coe_add] at this ⊢
      rw [add_assoc, this]
      abel

theorem exec_pending {α : Type} [DecidableEq α] {i : Nat} {t t1 : Thread α}
    {sh sh1 : Shared α} {n : Bool} (h : exec i t sh = some (t1, sh1, n)) :
    sh1.pushed ++ t1.pending = sh.pushed ++ t.pending := by
  rcases t with ⟨pc, todo, value, got, result⟩
  rcases sh with ⟨q, m, ub, af, pushed, returned, inflight⟩
  cases pc
  case idle =>
    rcases todo with _ | ⟨op, rest⟩
    · simp [exec] at h
    · cases op <;> cases m <;>
        simp [exec, enter, Shared.acquire] at h <;>
        obtain ⟨rfl, rfl, rfl⟩ := h <;>
        simp [Thread.pending, progPushes]
  all_goals
    try (rename_i b; cases b)
  all_goals
    cases q <;> cases m <;>
      simp [exec, Thread.goto, Shared.release, execFront, execPop, execRet,
        Shared.acquire] at h <;>
      obtain ⟨rfl, rfl, rfl⟩ := h <;>
      simp [Thread.pending]

theorem woken_pending {α : Type} (u : Thread α) :
    (u.goto u.pc.woken).pending = u.pending := by
  rcases u with ⟨pc, todo, value, got, result⟩
  cases pc <;> simp [Thread.goto, Pc.woken, Thread.pending]

theorem pendingAll_set_woken {α : Type} (ts : List (Thread α)) (j : Nat) (u : Thread α)
    (h : ts[j]? = some u) :
    ((pendingAll (ts.set j (u.goto u.pc.woken)) : List α) : Multiset α)
      = (pendingAll ts : Multiset α) := by
  have := pendingAll_set ts j u (u.goto u.pc.woken) h
  rw [woken_pending] at this
  exact add_right_cancel this

/-- Every step keeps the multiset "pushed so far plus still to be pushed". -/
theorem step_pending {α : Type} [DecidableEq α] {s s1 : State α} {a : Action}
    (h : step s a = some s1) :
    (s1.sh.pushed : Multiset α) + (pendingAll s1.threads : Multiset α)
      = (s.sh.pushed : Multiset α) + (pendingAll s.threads : Multiset α) := by
  cases a with
  | run i pick =>
    obtain ⟨t, t1, sh1, n, hti, hex, hsh, hts⟩ := step_run_inv h
    have hloc := exec_pending hex
    have hset := pendingAll_set s.threads i t t1 hti
    have hkey : (sh1.pushed : Multiset α) + (pendingAll (s.threads.set i t1) : Multiset α)
        = (s.sh.pushed : Multiset α) + (pendingAll s.threads : Multiset α) := by
      apply add_right_cancel (b := (t.pending : Multiset α))
      rw [add_assoc, hset]
      have h2 : (sh1.pushed : Multiset α) + (t1.pending : Multiset α)
          = (s.sh.pushed : Multiset α) + (t.pending : Multiset α) := by
        rw [Multiset.coe_add, Multiset.coe_add, hloc]
      calc (sh1.pushed : Multiset α) + ((pendingAll s.threads : Multiset α) + (t1.pending : Multiset α))
          = ((sh1.pushed : Multiset α) + (t1.pending : Multiset α)) + (pendingAll s.threads : Multiset α) := by abel
        _ = ((s.sh.pushed : Multiset α) + (t.pending : Multiset α)) + (pendingAll s.threads : Multiset α) := by rw [h2]
        _ = (s.sh.pushed : Multiset α) + (pendingAll s.threads : Multiset α) + (t.pending : Multiset α) := by abel
    rw [hsh]
    rcases hts with ⟨-, hts⟩ | ⟨-, hnot⟩
    · rw [hts]
      exact hkey
    · rcases notifyOne_inv hnot with ⟨he, -⟩ | ⟨u, hu, -, he⟩
      · rw [he]
        exact hkey
      · rw [he, pendingAll_set_woken _ _ _ hu]
        exact hkey
  | wake j c =>
    obtain ⟨t, htj, -, hsh, hts⟩ := step_wake_inv h
    rw [hsh, hts, pendingAll_set_woken _ _ _ htj]

/-! ### One consumer, many producers -/

theorem exec_consumer {α : Type} [DecidableEq α] {i k : Nat} {t t1 : Thread α}
    {sh sh1 : Shared α} {n : Bool} (hc : t.consumerInv sh k)
    (h : exec i t sh = some (t1, sh1, n)) : t1.consumerInv sh1 k ∧ n = false := by
  unfold Thread.consumerInv at hc ⊢
  rcases t with ⟨pc, todo, value, got, result⟩
  rcases sh with ⟨q, m, ub, af, pushed, returned, inflight⟩
  obtain ⟨hpc, htodo, hlen, hret, hval⟩ := hc
  simp only at hpc htodo hlen hret hval
  cases pc <;> simp [Pc.inWaitPop] at hpc
  case idle =>
    rcases todo with _ | ⟨op, rest⟩
    · simp [exec] at h
    · simp only [List.all_cons, Bool.and_eq_true] at htodo
      obtain ⟨hop, hrest⟩ := htodo
      cases op <;> simp [Op.isWaitPop] at hop
      · cases m <;> simp [exec, enter, Shared.acquire] at h
        obtain ⟨rfl, rfl, rfl⟩ := h
        simp [Thread.popsLeft, popCalls] at hlen
        refine ⟨⟨rfl, hrest, ?_, hret, ?_⟩, rfl⟩
        · simp [Thread.popsLeft]
          omega
        · intro hx
          cases hx
      · simp [exec] at h
        obtain ⟨rfl, rfl, rfl⟩ := h
        simp [Thread.popsLeft, popCalls] at hlen
        refine ⟨⟨rfl, hrest, ?_, hret, ?_⟩, rfl⟩
        · simp [Thread.popsLeft]
          omega
        · intro _
          exact hval rfl
  all_goals
    simp [Thread.popsLeft] at hlen
  all_goals
    cases q <;> cases m <;>
      simp [exec, Thread.goto, Shared.release, execFront, execPop, execRet,
        Shared.acquire] at h <;>
      obtain ⟨rfl, rfl, rfl⟩ := h <;>
      simp [Pc.inWaitPop, Thread.popsLeft, htodo, hret] <;>
      omega

theorem exec_pushOnly {α : Type} [DecidableEq α] {i : Nat} {t t1 : Thread α}
    {sh sh1 : Shared α} {n : Bool} (hp : t.pushOnly = true)
    (h : exec i t sh = some (t1, sh1, n)) :
    t1.pushOnly = true ∧ sh1.returned = sh.returned
    ∧ sh1.assert_failed = sh.assert_failed := by
  unfold Thread.pushOnly at hp ⊢
  rcases t with ⟨pc, todo, value, got, result⟩
  rcases sh with ⟨q, m, ub, af, pushed, returned, inflight⟩
  simp only [Bool.and_eq_true] at hp
  obtain ⟨hpc, htodo⟩ := hp
  cases pc <;> simp [Pc.inPush] at hpc
  case idle =>
    rcases todo with _ | ⟨op, rest⟩
    · simp [exec] at h
    · simp only [List.all_cons, Bool.and_eq_true] at htodo
      obtain ⟨hop, hrest⟩ := htodo
      cases op <;> simp [Op.isPush] at hop
      cases m <;> simp [exec, enter, Shared.acquire] at h
      obtain ⟨rfl, rfl, rfl⟩ := h
      simp [Pc.inPush, hrest]
  all_goals
    simp [exec, Thread.goto, Shared.release] at h
    obtain ⟨rfl, rfl, rfl⟩ := h
    simp [Pc.inPush, htodo]

theorem pushOnly_not_blocked {α : Type} {u : Thread α} (h : u.pushOnly = true) :
    u.pc.blocked = false := by
  unfold Thread.pushOnly at h
  rcases u with ⟨pc, todo, value, got, result⟩
  cases pc <;> simp [Pc.inPush] at h <;> simp [Pc.blocked]

theorem consumerInv_woken {α : Type} {k : Nat} {t : Thread α} {sh : Shared α}
    (hc : t.consumerInv sh k) (hb : t.pc.blocked = true) :
    (t.goto t.pc.woken).consumerInv sh k := by
  unfold Thread.consumerInv at hc ⊢
  rcases t with ⟨pc, todo, value, got, result⟩
  cases pc <;> simp [Pc.blocked] at hb <;>
    simp_all [Pc.inWaitPop, Thread.goto, Pc.woken, Thread.popsLeft]

theorem consumerInv_returned {α : Type} {k : Nat} {t : Thread α} {sh sh1 : Shared α}
    (hc : t.consumerInv sh k) (hr : sh1.returned = sh.returned) : t.consumerInv sh1 k := by
  unfold Thread.consumerInv at hc ⊢
  rw [hr]
  exact hc

theorem step_handoff {α : Type} [DecidableEq α] {s s1 : State α} {a : Action} {c k : Nat}
    {all : Multiset α} (hi : s.handoffInv c k all) (h : step s a = some s1) :
    s1.handoffInv c k all := by
  obtain ⟨⟨tc, htc, hcons⟩, hprod, hmul⟩ := hi
  refine ⟨?_, ?_, by rw [step_pending h]; exact hmul⟩
  · cases a with
    | run i pick =>
      obtain ⟨t, t1, sh1, n, hti, hex, hsh, hts⟩ := step_run_inv h
      by_cases hic : i = c
      · subst hic
        rw [hti] at htc
        simp at htc
        subst htc
        obtain ⟨hc1, hn⟩ := exec_consumer hcons hex
        rcases hts with ⟨-, hts⟩ | ⟨hn1, -⟩
        · exact ⟨t1, by rw [hts]; exact getElem?_set_same hti, by rw [hsh]; exact hc1⟩
        · rw [hn] at hn1
          cases hn1
      · have hp := exec_pushOnly (hprod i t hic hti) hex
        have hc1 : tc.consumerInv s1.sh k := by
          rw [hsh]
          exact consumerInv_returned hcons hp.2.1
        have hget : (s.threads.set i t1)[c]? = some tc := by
          rw [List.getElem?_set_ne hic]
          exact htc
        rcases hts with ⟨-, hts⟩ | ⟨-, hnot⟩
        · exact ⟨tc, by rw [hts]; exact hget, hc1⟩
        · rcases notifyOne_inv hnot with ⟨he, -⟩ | ⟨u, hu, hb, he⟩
          · exact ⟨tc, by rw [he]; exact hget, hc1⟩
          · by_cases hpc : pick = c
            · subst hpc
              rw [hget] at hu
              simp at hu
              subst hu
              exact ⟨tc.goto tc.pc.woken, by rw [he]; exact getElem?_set_same hget,
                consumerInv_woken hc1 hb⟩
            · exact ⟨tc, by rw [he, List.getElem?_set_ne hpc]; exact hget, hc1⟩
    | wake j w =>
      obtain ⟨t, htj, hb, hsh, hts⟩ := step_wake_inv h
      by_cases hjc : j = c
      · subst hjc
        rw [htj] at htc
        simp at htc
        subst htc
        exact ⟨t.goto t.pc.woken, by rw [hts]; exact getElem?_set_same htj,
          by rw [hsh]; exact consumerInv_woken hcons hb⟩
      · exact ⟨tc, by rw [hts, List.getElem?_set_ne hjc]; exact htc, by rw [hsh]; exact hcons⟩
  · intro j u hjc hju
    cases a with
    | run i pick =>
      obtain ⟨t, t1, sh1, n, hti, hex, hsh, hts⟩ := step_run_inv h
      have hset : ∀ v : Thread α, (s.threads.set i t1)[j]? = some v → v.pushOnly = true := by
        intro v hv
        rw [List.getElem?_set] at hv
        split at hv
        · rename_i hij
          subst hij
          split at hv
          · simp at hv
            subst hv
            exact (exec_pushOnly (hprod i t hjc hti) hex).1
          · simp at hv
        · exact hprod j v hjc hv
      rcases hts with ⟨-, hts⟩ | ⟨-, hnot⟩
      · rw [hts] at hju
        exact hset u hju
      · obtain ⟨v, hv, hcase⟩ := notifyOne_get hnot hju
        rcases hcase with rfl | ⟨hb, -⟩
        · exact hset u hv
        · rw [pushOnly_not_blocked (hset v hv)] at hb
          cases hb
    | wake i w =>
      obtain ⟨t, hti, hb, hsh, hts⟩ := step_wake_inv h
      rw [hts, List.getElem?_set] at hju
      split at hju
      · rename_i hij
        subst hij
        rw [pushOnly_not_blocked (hprod i t hjc hti)] at hb
        cases hb
      · exact hprod j u hjc hju

theorem run_handoff {α : Type} [DecidableEq α] (acts : List Action) {s s1 : State α}
    {c k : Nat} {all : Multiset α} (hi : s.handoffInv c k all)
    (h : run s acts = some s1) : s1.handoffInv c k all := by
  induction acts generalizing s with
  | nil =>
    simp [run] at h
    subst h
    exact hi
  | cons a rest ih =>
    simp only [run] at h
    split at h
    · simp at h
    · rename_i s2 hst
      exact ih (step_handoff hi hst) h

/-- Once the consumer has completed all its pops, it has received exactly the
values the producers had to push, and nothing is left anywhere. -/
theorem handoff_done {α : Type} {s : State α} {c k : Nat} {all : Multiset α}
    (hs : s.ok) (hi : s.handoffInv c k all) (hcard : Multiset.card all = k)
    {tc : Thread α} (htc : s.threads[c]? = some tc) (hidle : tc.pc = Pc.idle)
    (hpops : popCalls tc.todo = 0) :
    tc.got.length = k ∧ (tc.got : Multiset α) = all ∧ s.sh.m_queue = []
    ∧ s.sh.pushed = tc.got ∧ s.sh.inflight = [] ∧ pendingAll s.threads = []
    ∧ (tc.got ≠ [] → tc.got.getLast? = some tc.value) := by
  obtain ⟨⟨tc1, htc1, hcons⟩, -, hmul⟩ := hi
  rw [htc] at htc1
  simp at htc1
  subst htc1
  obtain ⟨-, -, hlen, hret, hval⟩ := hcons
  have hhist := hs.1.2.2
  have hgot : tc.got.length = k := by
    simp [Thread.popsLeft, hidle, hpops] at hlen
    exact hlen
  have hc1 := congrArg Multiset.card hmul
  simp only [Multiset.card_add, Multiset.coe_card] at hc1
  have hl := congrArg List.length hhist
  simp only [List.length_append] at hl
  rw [hret] at hl
  have hq : s.sh.m_queue = [] := List.eq_nil_of_length_eq_zero (by omega)
  have hfl : s.sh.inflight = [] := List.eq_nil_of_length_eq_zero (by omega)
  have hpend : pendingAll s.threads = [] := List.eq_nil_of_length_eq_zero (by omega)
  have hpushed : s.sh.pushed = tc.got := by
    rw [← hhist, hret, hq, hfl]
    simp
  refine ⟨hgot, ?_, hq, hpushed, hfl, hpend, hval hidle⟩
  rw [← hmul, hpend, hpushed]
  simp

theorem popCalls_replicate {α : Type} (n : Nat) :
    popCalls (List.replicate n (Op.wait_and_pop : Op α)) = n := by
  induction n with
  | zero => rfl
  | succ n ih => simp [List.replicate_succ, popCalls, ih]

theorem progPushes_map_push {α : Type} (l : List α) : progPushes (l.map Op.push) = l := by
  induction l with
  | nil => rfl
  | cons x l ih => simp [progPushes, ih]

theorem progPushes_replicate {α : Type} (n : Nat) :
    progPushes (List.replicate n (Op.wait_and_pop : Op α)) = [] := by
  induction n with
  | zero => rfl
  | succ n ih => simp [List.replicate_succ, progPushes, ih]

theorem pendingAll_append {α : Type} (a b : List (Thread α)) :
    pendingAll (a ++ b) = pendingAll a ++ pendingAll b := by
  induction a with
  | nil => rfl
  | cons t a ih => simp [pendingAll, ih]

theorem producers_length (N M : Nat) : (producers N M).length = N := by
  induction N with
  | zero => rfl
  | succ N ih => simp [producers, ih]

theorem producers_pending (N M : Nat) :
    pendingAll ((producers N M).map (fun p => Thread.start p.1 p.2)) = allTagged N M := by
  induction N with
  | zero => rfl
  | succ N ih =>
    simp only [producers, allTagged, List.map_append, pendingAll_append, ih]
    simp [pendingAll, Thread.pending, Thread.start, progPushes_map_push]

theorem producers_pushOnly (N M : Nat) :
    ∀ u ∈ (producers N M).map (fun p => Thread.start p.1 p.2), u.pushOnly = true := by
  induction N with
  | zero => simp [producers]
  | succ N ih =>
    intro u hu
    simp only [producers, List.map_append, List.mem_append] at hu
    rcases hu with hu | hu
    · exact ih u hu
    · simp at hu
      subst hu
      simp only [Thread.pushOnly, Thread.start, Pc.inPush, Bool.true_and, List.all_eq_true]
      intro op hop
      simp at hop
      obtain ⟨a, b, -, rfl⟩ := hop
      rfl

theorem allTagged_length (N M : Nat) : (allTagged N M).length = N * M := by
  induction N with
  | zero => simp [allTagged]
  | succ N ih => simp [allTagged, ih, tagged, Nat.succ_mul]

theorem allTagged_fst_lt (N M : Nat) : ∀ x ∈ allTagged N M, x.1 < N := by
  induction N with
  | zero => simp [allTagged]
  | succ N ih =>
    intro x hx
    simp only [allTagged, List.mem_append] at hx
    rcases hx with hx | hx
    · exact Nat.lt_succ_of_lt (ih x hx)
    · simp [tagged] at hx
      obtain ⟨j, -, rfl⟩ := hx
      exact Nat.lt_succ_self N

theorem allTagged_nodup (N M : Nat) : (allTagged N M).Nodup := by
  induction N with
  | zero => simp [allTagged]
  | succ N ih =>
    simp only [allTagged]
    rw [List.nodup_append]
    refine ⟨ih, ?_, ?_⟩
    · unfold tagged
      apply List.Nodup.map
      · intro a b hab
        simpa using hab
      · exact List.nodup_range M
    · intro x hx1 hx2
      have := allTagged_fst_lt N M x hx1
      simp [tagged] at hx2
      obtain ⟨j, -, rfl⟩ := hx2
      exact absurd this (Nat.lt_irrefl N)

theorem contention_consumer (N M : Nat) :
    (contention N M).threads[N]?
      = some (Thread.start (List.replicate (N * M) Op.wait_and_pop) (0, 0)) := by
  simp only [contention, State.init, List.map_append]
  rw [List.getElem?_append_right (by simp [producers_length])]
  simp [producers_length]

theorem contention_handoff (N M : Nat) :
    (contention N M).handoffInv N (N * M) (allTagged N M : Multiset (Nat × Nat)) := by
  refine ⟨⟨_, contention_consumer N M, ?_⟩, ?_, ?_⟩
  · refine ⟨rfl, ?_, ?_, rfl, ?_⟩
    · simp [Thread.start, Op.isWaitPop]
    · simp [Thread.start, Thread.popsLeft, popCalls_replicate]
    · intro _ hne
      exact absurd rfl hne
  · intro j u hj hu
    simp only [contention, State.init, List.map_append] at hu
    by_cases hlt : j < N
    · rw [List.getElem?_append_left (by simp [producers_length, hlt])] at hu
      exact producers_pushOnly N M u (List.getElem?_mem hu)
    · rw [List.getElem?_append_right (by simp [producers_length]; omega)] at hu
      simp [producers_length] at hu
      have : j - N = 0 := by
        by_contra hne
        obtain ⟨m, hm⟩ := Nat.exists_eq_succ_of_ne_zero hne
        rw [hm] at hu
        simp at hu
      omega
  · simp only [contention, State.init, List.map_append, pendingAll_append, producers_pending]
    simp [Shared.fresh, pendingAll, Thread.pending, Thread.start, progPushes_replicate]

/-! ### The demo program -/

theorem main_handoff : main.handoffInv 1 1 (["Hello"] : Multiset String) := by
  refine ⟨⟨Thread.start consumer "", rfl, ?_⟩, ?_, ?_⟩
  · refine ⟨rfl, rfl, rfl, rfl, ?_⟩
    intro _ hne
    exact absurd rfl hne
  · intro j u hj hu
    match j, hj, hu with
    | 0, _, hu =>
      simp [main, State.init] at hu
      subst hu
      rfl
    | 1, hj, _ => exact absurd rfl hj
    | n + 2, _, hu => simp [main, State.init] at hu
  · rfl

theorem main_demoInv : main.demoInv :=
  ⟨rfl, Thread.start consumer "", rfl, Or.inl ⟨rfl, rfl, rfl⟩⟩

/-- In the demo, a consumer that is between calls with its pop completed holds
"Hello". -/
theorem demo_value {s : State String} (hs : s.ok)
    (hi : s.handoffInv 1 1 (["Hello"] : Multiset String)) {tc : Thread String}
    (htc : s.threads[1]? = some tc) (hidle : tc.pc = Pc.idle)
    (hpops : popCalls tc.todo = 0) :
    tc.value = "Hello" ∧ tc.got = ["Hello"] ∧ s.sh.m_queue = [] := by
  obtain ⟨hlen, hmul, hq, -, -, -, hval⟩ :=
    handoff_done hs hi (by simp) htc hidle hpops
  have hperm : tc.got.Perm ["Hello"] := Multiset.coe_eq_coe.mp hmul
  have hgot : tc.got = ["Hello"] := List.perm_singleton.mp hperm
  refine ⟨?_, hgot, hq⟩
  have := hval (by rw [hgot]; simp)
  rw [hgot] at this
  simp at this
  exact this.symm

theorem step_demo {s s1 : State String} {a : Action} (hs : s.ok)
    (hi : s.handoffInv 1 1 (["Hello"] : Multiset String)) (hd : s.demoInv)
    (h : step s a = some s1) : s1.demoInv := by
  obtain ⟨haf, tc, htc, hcase⟩ := hd
  obtain ⟨⟨tc1, htc1, hcons⟩, hprod, -⟩ := id hi
  rw [htc] at htc1
  simp at htc1
  subst htc1
  have hwoken : ∀ hb : tc.pc.blocked = true,
      (tc.goto tc.pc.woken).pc ≠ Pc.idle ∧ tc.pc ≠ Pc.idle := by
    intro hb
    rcases tc with ⟨pc, todo, value, got, result⟩
    cases pc <;> simp [Pc.blocked] at hb <;> simp [Thread.goto, Pc.woken]
  have hwake : ∀ hb : tc.pc.blocked = true,
      (tc.goto tc.pc.woken).pc ≠ Pc.idle ∧ (tc.goto tc.pc.woken).todo = [Op.assert_eq "Hello"] := by
    intro hb
    obtain ⟨h1, h2⟩ := hwoken hb
    rcases hcase with ⟨hx, -⟩ | ⟨-, hx⟩ | ⟨hx, -⟩ | ⟨hx, -⟩
    · exact absurd hx h2
    · exact ⟨h1, hx⟩
    · exact absurd hx h2
    · exact absurd hx h2
  cases a with
  | run i pick =>
    obtain ⟨t, t1, sh1, n, hti, hex, hsh, hts⟩ := step_run_inv h
    by_cases hic : i = 1
    · subst hic
      rw [htc] at hti
      simp at hti
      subst hti
      obtain ⟨hc1, hn⟩ := exec_consumer hcons hex
      have hth : s1.threads[1]? = some t1 := by
        rcases hts with ⟨-, hts⟩ | ⟨hn1, -⟩
        · rw [hts]
          exact getElem?_set_same htc
        · rw [hn] at hn1
          cases hn1
      have hinw := hcons.1
      rcases hcase with ⟨hpc, htodo, hgot⟩ | ⟨hpc, htodo⟩ | ⟨hpc, htodo, hgot⟩ | ⟨hpc, htodo, hgot⟩
      · rcases tc with ⟨pc, todo, value, got, result⟩
        simp only at hpc htodo hgot
        subst hpc htodo hgot
        simp only [exec, consumer, enter] at hex
        split at hex
        · simp at hex
        · simp at hex
          obtain ⟨rfl, rfl, rfl⟩ := hex
          rename_i sh2 hacq
          have haf2 : sh2.assert_failed = s.sh.assert_failed := by
            unfold Shared.acquire at hacq
            split at hacq
            · simp at hacq
              subst hacq
              rfl
            · simp at hacq
          exact ⟨by rw [hsh, haf2]; exact haf, _, hth, Or.inr (Or.inl ⟨by simp, rfl⟩)⟩
      · have key : sh1.assert_failed = s.sh.assert_failed ∧ t1.todo = tc.todo
            ∧ (t1.pc = Pc.idle → t1.got ≠ []) := by
          rcases tc with ⟨pc, todo, value, got, result⟩
          rcases hsq : s.sh with ⟨q, m, ub, af, pushed, returned, inflight⟩
          rw [hsq] at hex
          simp only at hpc
          cases pc <;> simp [Pc.inWaitPop] at hinw
          · exact absurd rfl hpc
          all_goals
            cases q <;> cases m <;>
              simp [exec, Thread.goto, Shared.release, execFront, execPop, execRet,
                Shared.acquire] at hex <;>
              obtain ⟨rfl, rfl, rfl⟩ := hex <;>
              simp
        obtain ⟨k1, k2, k3⟩ := key
        refine ⟨by rw [hsh, k1]; exact haf, t1, hth, ?_⟩
        by_cases hp1 : t1.pc = Pc.idle
        · exact Or.inr (Or.inr (Or.inl ⟨hp1, by rw [k2, htodo], k3 hp1⟩))
        · exact Or.inr (Or.inl ⟨hp1, by rw [k2, htodo]⟩)
      · have hv := (demo_value hs hi htc hpc (by rw [htodo]; rfl)).1
        rcases tc with ⟨pc, todo, value, got, result⟩
        simp only at hpc htodo hgot hv
        subst hpc htodo hv
        simp [exec] at hex
        obtain ⟨rfl, rfl, rfl⟩ := hex
        exact ⟨by rw [hsh]; simpa using haf, _, hth, Or.inr (Or.inr (Or.inr ⟨rfl, rfl, hgot⟩))⟩
      · rcases tc with ⟨pc, todo, value, got, result⟩
        simp only at hpc htodo
        subst hpc htodo
        simp [exec] at hex
    · have hp := exec_pushOnly (hprod i t hic hti) hex
      have haf1 : s1.sh.assert_failed = false := by
        rw [hsh, hp.2.2]
        exact haf
      have hget : (s.threads.set i t1)[1]? = some tc := by
        rw [List.getElem?_set_ne hic]
        exact htc
      rcases hts with ⟨-, hts⟩ | ⟨-, hnot⟩
      · exact ⟨haf1, tc, by rw [hts]; exact hget, hcase⟩
      · rcases notifyOne_inv hnot with ⟨he, -⟩ | ⟨u, hu, hb, he⟩
        · exact ⟨haf1, tc, by rw [he]; exact hget, hcase⟩
        · by_cases hpc : pick = 1
          · subst hpc
            rw [hget] at hu
            simp at hu
            subst hu
            exact ⟨haf1, tc.goto tc.pc.woken, by rw [he]; exact getElem?_set_same hget,
              Or.inr (Or.inl (hwake hb))⟩
          · exact ⟨haf1, tc, by rw [he, List.getElem?_set_ne hpc]; exact hget, hcase⟩
  | wake j w =>
    obtain ⟨t, htj, hb, hsh, hts⟩ := step_wake_inv h
    have haf1 : s1.sh.assert_failed = false := by
      rw [hsh]
      exact haf
    by_cases hjc : j = 1
    · subst hjc
      rw [htc] at htj
      simp at htj
      subst htj
      exact ⟨haf1, tc.goto tc.pc.woken, by rw [hts]; exact getElem?_set_same htc,
        Or.inr (Or.inl (hwake hb))⟩
    · exact ⟨haf1, tc, by rw [hts, List.getElem?_set_ne hjc]; exact htc, hcase⟩

theorem run_demo (acts : List Action) {s s1 : State String} (hs : s.ok)
    (hi : s.handoffInv 1 1 (["Hello"] : Multiset String)) (hd : s.demoInv)
    (h : run s acts = some s1) :
    s1.ok ∧ s1.handoffInv 1 1 (["Hello"] : Multiset String) ∧ s1.demoInv := by
  induction acts generalizing s with
  | nil =>
    simp [run] at h
    subst h
    exact ⟨hs, hi, hd⟩
  | cons a rest ih =>
    simp only [run] at h
    split at h
    · simp at h
    · rename_i s2 hst
      exact ih (step_ok hs hst) (step_handoff hi hst) (step_demo hs hi hd hst) h

/-- C4 (the demo program): along every schedule of `main` no assertion fails,
and whenever the consumer's `wait_and_pop` has returned (thread 1 is between
calls and no longer has its whole program ahead) its variable holds "Hello",
"Hello" is the one value it received, and `empty()` on the queue as it then is
answers `true`. -/
theorem C4_demo_consumer_receives_hello (acts : List Action) (s : State String)
    (tc : Thread String) (h : run main acts = some s)
    (htc : s.threads[1]? = some tc) (hidle : tc.pc = Pc.idle)
    (hret : tc.todo ≠ consumer) :
    s.sh.assert_failed = false
    ∧ tc.value = "Hello"
    ∧ tc.got = ["Hello"]
    ∧ (LockingQueue.empty { m_queue := s.sh.m_queue }).1 = true := by
  obtain ⟨hs, hi, hd⟩ := run_demo acts (init_ok _) main_handoff main_demoInv h
  obtain ⟨haf, tc1, htc1, hcase⟩ := id hd
  rw [htc] at htc1
  simp at htc1
  subst htc1
  have hpops : popCalls tc.todo = 0 := by
    rcases hcase with ⟨-, hx, -⟩ | ⟨hx, -⟩ | ⟨-, hx, -⟩ | ⟨-, hx, -⟩
    · exact absurd hx hret
    · exact absurd hidle hx
    · rw [hx]; rfl
    · rw [hx]; rfl
  obtain ⟨hv, hg, hq⟩ := demo_value hs hi htc hidle hpops
  exact ⟨haf, hv, hg, by simp [LockingQueue.empty, hq]⟩

/-! ### No lost wake-up -/

theorem exec_wakers {α : Type} [DecidableEq α] {i : Nat} {t t1 : Thread α}
    {sh sh1 : Shared α} {n : Bool} (ht : t.ok i sh) (h : exec i t sh = some (t1, sh1, n)) :
    (n = false ∧ sh1.m_queue = [])
    ∨ (n = false ∧ t1.pc.blocked = false
        ∧ sh1.m_queue.length + t.wakers ≤ sh.m_queue.length + t1.wakers)
    ∨ (n = true ∧ sh1.m_queue = sh.m_queue ∧ t.wakers = 1 ∧ t1.wakers = 0
        ∧ t1.pc.blocked = false) := by
  unfold Thread.ok at ht
  rcases t with ⟨pc, todo, value, got, result⟩
  rcases sh with ⟨q, m, ub, af, pushed, returned, inflight⟩
  cases pc
  case idle =>
    rcases todo with _ | ⟨op, rest⟩
    · simp [exec] at h
    · cases op <;> cases m <;>
        simp [exec, enter, Shared.acquire] at h <;>
        obtain ⟨rfl, rfl, rfl⟩ := h <;>
        simp [Thread.wakers, Pc.notifyPending, Pc.competing, Pc.blocked]
  all_goals
    try (rename_i b; cases b)
  all_goals
    cases q <;> cases m <;>
      simp [exec, Pc.holds, Pc.sawEmpty, Thread.goto, Shared.release, execFront, execPop,
        execRet, Shared.acquire] at ht h <;>
      obtain ⟨rfl, rfl, rfl⟩ := h <;>
      simp [Thread.wakers, Pc.notifyPending, Pc.competing, Pc.blocked]

theorem woken_wakers {α : Type} {u : Thread α} (hb : u.pc.blocked = true) :
    u.wakers = 0 ∧ (u.goto u.pc.woken).wakers = 1 := by
  rcases u with ⟨pc, todo, value, got, result⟩
  cases pc <;> simp [Pc.blocked] at hb <;>
    simp [Thread.wakers, Thread.goto, Pc.woken, Pc.notifyPending, Pc.competing]

theorem step_noLost {α : Type} [DecidableEq α] {s s1 : State α} {a : Action}
    (hs : s.ok) (hl : s.noLost) (h : step s a = some s1) : s1.noLost := by
  cases a with
  | run i pick =>
    obtain ⟨t, t1, sh1, n, hti, hex, hsh, hts⟩ := step_run_inv h
    have hsum := total_set Thread.wakers s.threads i t t1 hti
    have hsetA : t1.pc.blocked = false →
        (∀ (j : Nat) (u : Thread α), s.threads[j]? = some u → u.pc.blocked = false) →
        ∀ (j : Nat) (u : Thread α), (s.threads.set i t1)[j]? = some u → u.pc.blocked = false := by
      intro hb hA j u hj
      rw [List.getElem?_set] at hj
      split at hj
      · split at hj
        · simp at hj
          subst hj
          exact hb
        · simp at hj
      · exact hA j u hj
    rcases exec_wakers (hs.2 i t hti) hex with ⟨hn, hq⟩ | ⟨hn, hb, hle⟩ | ⟨hn, hq, hw, hw1, hb⟩
    · right
      rw [hsh, hq]
      simp
    · rcases hts with ⟨-, hts⟩ | ⟨hn1, -⟩
      · rcases hl with hA | hB
        · left
          rw [hts]
          exact hsetA hb hA
        · right
          rw [hsh, hts]
          omega
      · rw [hn] at hn1
        cases hn1
    · rcases hts with ⟨hn1, -⟩ | ⟨-, hnot⟩
      · rw [hn] at hn1
        cases hn1
      · rcases notifyOne_inv hnot with ⟨he, hall⟩ | ⟨u, hu, hub, he⟩
        · left
          rw [he]
          exact hall
        · rcases hl with hA | hB
          · have := hsetA hb hA pick u hu
            rw [this] at hub
            cases hub
          · right
            have hsum2 := total_set Thread.wakers (s.threads.set i t1) pick u
              (u.goto u.pc.woken) hu
            obtain ⟨hu0, hu1⟩ := woken_wakers hub
            rw [hsh, hq, he]
            omega
  | wake j c =>
    obtain ⟨t, htj, hb, hsh, hts⟩ := step_wake_inv h
    rcases hl with hA | hB
    · rw [hA j t htj] at hb
      cases hb
    · right
      have hsum := total_set Thread.wakers s.threads j t (t.goto t.pc.woken) htj
      obtain ⟨hu0, hu1⟩ := woken_wakers hb
      rw [hsh, hts]
      omega

theorem init_noLost {α : Type} (progs : List (List (Op α) × α)) :
    (State.init progs).noLost := by
  left
  intro j u hj
  simp [State.init, List.getElem?_map] at hj
  obtain ⟨p, v, -, rfl⟩ := hj
  rfl

theorem run_noLost {α : Type} [DecidableEq α] (acts : List Action) {s s1 : State α}
    (hs : s.ok) (hl : s.noLost) (h : run s acts = some s1) : s1.noLost := by
  induction acts generalizing s with
  | nil =>
    simp [run] at h
    subst h
    exact hl
  | cons a rest ih =>
    simp only [run] at h
    split at h
    · simp at h
    · rename_i s2 hst
      exact ih (step_ok hs hst) (step_noLost hs hl hst) h

theorem total_pos {α : Type} (f : Thread α → Nat) (ts : List (Thread α))
    (h : 0 < total f ts) : ∃ (k : Nat) (w : Thread α), ts[k]? = some w ∧ 0 < f w := by
  induction ts with
  | nil => simp [total] at h
  | cons hd tl ih =>
    by_cases hf : 0 < f hd
    · exact ⟨0, hd, by simp, hf⟩
    · simp only [total] at h
      obtain ⟨k, w, hk, hw⟩ := ih (by omega)
      exact ⟨k + 1, w, by simpa using hk, hw⟩

theorem total_zero {α : Type} (f : Thread α → Nat) (ts : List (Thread α))
    (h : ∀ (k : Nat) (w : Thread α), ts[k]? = some w → f w = 0) : total f ts = 0 := by
  induction ts with
  | nil => rfl
  | cons hd tl ih =>
    have h0 := h 0 hd (by simp)
    have h1 := ih (fun k w hk => h (k + 1) w (by simpa using hk))
    simp [total, h0, h1]

/-! ### Termination measure -/

theorem exec_rank {α : Type} [DecidableEq α] {i : Nat} {t t1 : Thread α}
    {sh sh1 : Shared α} {n : Bool} (h : exec i t sh = some (t1, sh1, n)) :
    t1.rank + (if n then 4 else 0) < t.rank := by
  rcases t with ⟨pc, todo, value, got, result⟩
  rcases sh with ⟨q, m, ub, af, pushed, returned, inflight⟩
  cases pc
  case idle =>
    rcases todo with _ | ⟨op, rest⟩
    · simp [exec] at h
    · cases op <;> cases m <;>
        simp [exec, enter, Shared.acquire] at h <;>
        obtain ⟨rfl, rfl, rfl⟩ := h <;>
        simp [Thread.rank, Pc.rank, Op.rank, progRank]
  all_goals
    try (rename_i b; cases b)
  all_goals
    cases q <;> cases m <;>
      simp [exec, Thread.goto, Shared.release, execFront, execPop, execRet,
        Shared.acquire] at h <;>
      obtain ⟨rfl, rfl, rfl⟩ := h <;>
      simp [Thread.rank, Pc.rank] <;>
      omega

theorem woken_rank {α : Type} {u : Thread α} (hb : u.pc.blocked = true) :
    (u.goto u.pc.woken).rank ≤ u.rank + 4 := by
  rcases u with ⟨pc, todo, value, got, result⟩
  cases pc <;> simp [Pc.blocked] at hb <;>
    simp [Thread.rank, Thread.goto, Pc.woken, Pc.rank] <;> omega

/-- Executing a statement lowers the budget of the pool. -/
theorem step_rank {α : Type} [DecidableEq α] {s s1 : State α} {i pick : Nat}
    (h : step s (Action.run i pick) = some s1) : s1.rank < s.rank := by
  obtain ⟨t, t1, sh1, n, hti, hex, hsh, hts⟩ := step_run_inv h
  have hsum := total_set Thread.rank s.threads i t t1 hti
  have hr := exec_rank hex
  unfold State.rank
  rcases hts with ⟨hn, hts⟩ | ⟨hn, hnot⟩
  · rw [hts]
    omega
  · rw [hn] at hr
    simp at hr
    rcases notifyOne_inv hnot with ⟨he, -⟩ | ⟨u, hu, hub, he⟩
    · rw [he]
      omega
    · have hsum2 := total_set Thread.rank (s.threads.set i t1) pick u (u.goto u.pc.woken) hu
      have hw := woken_rank hub
      rw [he]
      omega

/-- A schedule made of statement executions only is no longer than the budget. -/
theorem run_rank {α : Type} [DecidableEq α] (acts : List Action) {s s1 : State α}
    (hall : acts.all Action.isRun = true) (h : run s acts = some s1) :
    acts.length + s1.rank ≤ s.rank := by
  induction acts generalizing s with
  | nil =>
    simp [run] at h
    subst h
    simp
  | cons a rest ih =>
    simp only [run] at h
    split at h
    · simp at h
    · rename_i s2 hst
      simp only [List.all_cons, Bool.and_eq_true] at hall
      obtain ⟨ha, hrest⟩ := hall
      cases a with
      | wake j c => cases ha
      | run i pick =>
        have h1 := step_rank hst
        have h2 := ih hrest h
        simp only [List.length_cons]
        omega

/-! ### Enabled statements -/

theorem exec_holds_some {α : Type} [DecidableEq α] (i : Nat) (t : Thread α) (sh : Shared α)
    (h : t.pc.holds = true) : ∃ (t1 : Thread α) (sh1 : Shared α),
      exec i t sh = some (t1, sh1, false) := by
  rcases t with ⟨pc, todo, value, got, result⟩
  cases pc <;> simp [Pc.holds] at h
  all_goals
    try (rename_i b; cases b)
  all_goals
    simp [exec, execFront, execPop, execRet]
  all_goals
    cases hq : sh.m_queue <;> simp

theorem exec_free_some {α : Type} [DecidableEq α] (i : Nat) (t : Thread α) (sh : Shared α)
    (hm : sh.m_mutex = none) (hh : t.pc.holds = false) (hb : t.pc.blocked = false)
    (hrun : ¬ (t.pc = Pc.idle ∧ t.todo = [])) :
    ∃ r : Thread α × Shared α × Bool, exec i t sh = some r := by
  rcases t with ⟨pc, todo, value, got, result⟩
  cases pc <;> simp [Pc.holds] at hh <;> simp [Pc.blocked] at hb
  case idle =>
    rcases todo with _ | ⟨op, rest⟩
    · simp at hrun
    · cases op <;> simp [exec, enter, Shared.acquire, hm]
  all_goals
    simp [exec, Shared.acquire, hm]

theorem notifyOne_total {α : Type} (ts : List (Thread α)) :
    ∃ (pick : Nat) (ts1 : List (Thread α)), notifyOne ts pick = some ts1 := by
  by_cases hall : ts.all (fun u => !u.pc.blocked) = true
  · exact ⟨0, ts, by simp [notifyOne, hall]⟩
  · have hex : ∃ u ∈ ts, u.pc.blocked = true := by
      by_contra hne
      apply hall
      rw [List.all_eq_true]
      intro u hu
      cases hb : u.pc.blocked with
      | false => rfl
      | true => exact absurd ⟨u, hu, hb⟩ hne
    obtain ⟨u, hu, hb⟩ := hex
    obtain ⟨k, hk⟩ := List.getElem?_of_mem hu
    exact ⟨k, ts.set k (u.goto u.pc.woken), by simp [notifyOne, hall, hk, hb]⟩

theorem step_of_exec {α : Type} [DecidableEq α] {s : State α} {i : Nat} {t : Thread α}
    {r : Thread α × Shared α × Bool} (hti : s.threads[i]? = some t)
    (hex : exec i t s.sh = some r) :
    ∃ (pick : Nat) (s1 : State α), step s (Action.run i pick) = some s1 := by
  obtain ⟨t1, sh1, n⟩ := r
  cases n with
  | false =>
    exact ⟨0, { sh := sh1, threads := s.threads.set i t1 }, by simp [step, hti, hex]⟩
  | true =>
    obtain ⟨pick, ts1, hn⟩ := notifyOne_total (s.threads.set i t1)
    exact ⟨pick, { sh := sh1, threads := ts1 }, by simp [step, hti, hex, hn]⟩

/-- A thread that is neither blocked nor finished means some statement can be
executed (by it, or by the owner of the mutex it needs). -/
theorem enabled_of_runnable {α : Type} [DecidableEq α] {s : State α} (hs : s.ok)
    (ho : s.owned) {j : Nat} {u : Thread α} (hj : s.threads[j]? = some u)
    (hb : u.pc.blocked = false) (hrun : ¬ (u.pc = Pc.idle ∧ u.todo = [])) :
    ∃ (i pick : Nat) (s1 : State α), step s (Action.run i pick) = some s1 := by
  cases hm : s.sh.m_mutex with
  | some k =>
    obtain ⟨w, hw, hwh⟩ := ho k hm
    obtain ⟨w1, sh1, hex⟩ := exec_holds_some k w s.sh hwh
    obtain ⟨pick, s1, hst⟩ := step_of_exec hw hex
    exact ⟨k, pick, s1, hst⟩
  | none =>
    have hh : u.pc.holds = false := by
      cases hc : u.pc.holds with
      | false => rfl
      | true =>
        have := (hs.2 j u hj hc).1
        rw [hm] at this
        cases this
    obtain ⟨r, hex⟩ := exec_free_some j u s.sh hm hh hb hrun
    obtain ⟨pick, s1, hst⟩ := step_of_exec hj hex
    exact ⟨j, pick, s1, hst⟩

/-- When no statement can be executed, the mutex is free and every thread is
blocked on `m_cond` or has finished its program. -/
theorem quiescent_spec {α : Type} [DecidableEq α] {s : State α} (hs : s.ok) (ho : s.owned)
    (hq : ∀ (i pick : Nat), step s (Action.run i pick) = none) :
    s.sh.m_mutex = none
    ∧ ∀ (j : Nat) (u : Thread α), s.threads[j]? = some u →
        u.pc.blocked = true ∨ (u.pc = Pc.idle ∧ u.todo = []) := by
  have hth : ∀ (j : Nat) (u : Thread α), s.threads[j]? = some u →
      u.pc.blocked = true ∨ (u.pc = Pc.idle ∧ u.todo = []) := by
    intro j u hj
    by_contra hne
    push_neg at hne
    have hb : u.pc.blocked = false := by
      cases hc : u.pc.blocked with
      | false => rfl
      | true => exact absurd hc hne.1
    obtain ⟨i, pick, s1, hst⟩ := enabled_of_runnable hs ho hj hb (fun hx => hne.2 hx.1 hx.2)
    rw [hq i pick] at hst
    cases hst
  refine ⟨?_, hth⟩
  cases hm : s.sh.m_mutex with
  | none => rfl
  | some k =>
    obtain ⟨w, hw, hwh⟩ := ho k hm
    rcases hth k w hw with hb | ⟨hidle, -⟩
    · rw [holds_not_blocked hwh] at hb
      cases hb
    · rw [hidle] at hwh
      cases hwh

/-! ### A single producer pushes in program order -/

theorem exec_pending_nil {α : Type} [DecidableEq α] {i : Nat} {t t1 : Thread α}
    {sh sh1 : Shared α} {n : Bool} (hp : t.pending = [])
    (h : exec i t sh = some (t1, sh1, n)) : sh1.pushed = sh.pushed ∧ t1.pending = [] := by
  rcases t with ⟨pc, todo, value, got, result⟩
  rcases sh with ⟨q, m, ub, af, pushed, returned, inflight⟩
  cases pc
  case idle =>
    rcases todo with _ | ⟨op, rest⟩
    · simp [exec] at h
    · cases op <;> cases m <;>
        simp [exec, enter, Shared.acquire] at h <;>
        obtain ⟨rfl, rfl, rfl⟩ := h <;>
        simp_all [Thread.pending, progPushes]
  all_goals
    try (rename_i b; cases b)
  all_goals
    cases q <;> cases m <;>
      simp [exec, Thread.goto, Shared.release, execFront, execPop, execRet,
        Shared.acquire] at h <;>
      obtain ⟨rfl, rfl, rfl⟩ := h <;>
      simp_all [Thread.pending]

theorem notifyOne_pending {α : Type} {ts ts1 : List (Thread α)} {pick : Nat}
    (h : notifyOne ts pick = some ts1) {j : Nat} {u : Thread α} (hj : ts[j]? = some u) :
    ∃ u1 : Thread α, ts1[j]? = some u1 ∧ u1.pending = u.pending := by
  rcases notifyOne_inv h with ⟨he, -⟩ | ⟨w, hw, -, he⟩
  · exact ⟨u, by rw [he]; exact hj, rfl⟩
  · by_cases hpj : pick = j
    · subst hpj
      rw [hj] at hw
      simp at hw
      subst hw
      exact ⟨u.goto u.pc.woken, by rw [he]; exact getElem?_set_same hj, woken_pending u⟩
    · exact ⟨u, by rw [he, List.getElem?_set_ne hpj]; exact hj, rfl⟩

theorem step_soleProducer {α : Type} [DecidableEq α] {s s1 : State α} {a : Action}
    {p : Nat} {vs : List α} (hsp : s.soleProducer p vs) (h : step s a = some s1) :
    s1.soleProducer p vs := by
  obtain ⟨⟨tp, htp, hord⟩, hnil⟩ := hsp
  cases a with
  | run i pick =>
    obtain ⟨t, t1, sh1, n, hti, hex, hsh, hts⟩ := step_run_inv h
    have hmid : (∃ tp1 : Thread α, (s.threads.set i t1)[p]? = some tp1
          ∧ sh1.pushed ++ tp1.pending = vs)
        ∧ ∀ (j : Nat) (u : Thread α), j ≠ p → (s.threads.set i t1)[j]? = some u →
            u.pending = [] := by
      by_cases hip : i = p
      · subst hip
        rw [htp] at hti
        simp at hti
        subst hti
        refine ⟨⟨t1, getElem?_set_same htp, by rw [exec_pending hex]; exact hord⟩, ?_⟩
        intro j u hj hu
        rw [List.getElem?_set_ne (Ne.symm hj)] at hu
        exact hnil j u hj hu
      · obtain ⟨h1, h2⟩ := exec_pending_nil (hnil i t hip hti) hex
        refine ⟨⟨tp, by rw [List.getElem?_set_ne hip]; exact htp, by rw [h1]; exact hord⟩, ?_⟩
        intro j u hj hu
        rw [List.getElem?_set] at hu
        split at hu
        · split at hu
          · simp at hu
            subst hu
            exact h2
          · simp at hu
        · exact hnil j u hj hu
    obtain ⟨⟨tp1, htp1, hord1⟩, hnil1⟩ := hmid
    rcases hts with ⟨-, hts⟩ | ⟨-, hnot⟩
    · exact ⟨⟨tp1, by rw [hts]; exact htp1, by rw [hsh]; exact hord1⟩,
        fun j u hj hu => hnil1 j u hj (by rw [hts] at hu; exact hu)⟩
    · obtain ⟨tp2, htp2, hpe⟩ := notifyOne_pending hnot htp1
      refine ⟨⟨tp2, htp2, by rw [hsh, hpe]; exact hord1⟩, ?_⟩
      intro j u hj hu
      obtain ⟨v, hv, hcase⟩ := notifyOne_get hnot hu
      rcases hcase with rfl | ⟨-, rfl⟩
      · exact hnil1 j u hj hv
      · rw [woken_pending]
        exact hnil1 j v hj hv
  | wake j c =>
    obtain ⟨t, htj, hb, hsh, hts⟩ := step_wake_inv h
    refine ⟨?_, ?_⟩
    · by_cases hjp : j = p
      · subst hjp
        rw [htp] at htj
        simp at htj
        subst htj
        exact ⟨tp.goto tp.pc.woken, by rw [hts]; exact getElem?_set_same htp,
          by rw [hsh, woken_pending]; exact hord⟩
      · exact ⟨tp, by rw [hts, List.getElem?_set_ne hjp]; exact htp, by rw [hsh]; exact hord⟩
    · intro k u hk hu
      rw [hts, List.getElem?_set] at hu
      split at hu
      · rename_i hjk
        subst hjk
        split at hu
        · simp at hu
          subst hu
          rw [woken_pending]
          exact hnil j t hk htj
        · simp at hu
      · exact hnil k u hk hu

theorem run_soleProducer {α : Type} [DecidableEq α] (acts : List Action) {s s1 : State α}
    {p : Nat} {vs : List α} (hsp : s.soleProducer p vs) (h : run s acts = some s1) :
    s1.soleProducer p vs := by
  induction acts generalizing s with
  | nil =>
    simp [run] at h
    subst h
    exact hsp
  | cons a rest ih =>
    simp only [run] at h
    split at h
    · simp at h
    · rename_i s2 hst
      exact ih (step_soleProducer hsp hst) h

/-! ### The lone consumer -/

theorem handoff_init {α : Type} (vs : List α) (v0 : α) :
    (State.init (handoffProgs vs v0)).handoffInv 0 1 (vs : Multiset α)
    ∧ (State.init (handoffProgs vs v0)).soleProducer 1 vs := by
  refine ⟨⟨⟨Thread.start [Op.wait_and_pop] v0, rfl, ?_⟩, ?_, ?_⟩, ⟨?_, ?_⟩⟩
  · refine ⟨rfl, rfl, rfl, rfl, ?_⟩
    intro _ hne
    exact absurd rfl hne
  · intro j u hj hu
    match j, hj, hu with
    | 0, hj, _ => exact absurd rfl hj
    | 1, _, hu =>
      simp [State.init, handoffProgs] at hu
      subst hu
      simp only [Thread.pushOnly, Thread.start, Pc.inPush, Bool.true_and, List.all_eq_true]
      intro op hop
      simp at hop
      obtain ⟨a, -, rfl⟩ := hop
      rfl
    | n + 2, _, hu => simp [State.init, handoffProgs] at hu
  · simp [State.init, handoffProgs, Shared.fresh, pendingAll, Thread.pending, Thread.start,
      progPushes, progPushes_map_push]
  · exact ⟨Thread.start (vs.map Op.push) v0, rfl,
      by simp [State.init, Shared.fresh, Thread.pending, Thread.start, progPushes_map_push]⟩
  · intro j u hj hu
    match j, hj, hu with
    | 0, _, hu =>
      simp [State.init, handoffProgs] at hu
      subst hu
      rfl
    | 1, hj, _ => exact absurd rfl hj
    | n + 2, _, hu => simp [State.init, handoffProgs] at hu

/-- In the lone-consumer scenario a consumer that has returned holds the first
value pushed. -/
theorem handoff_returned {α : Type} {s : State α} {v : α} {rest : List α}
    (hs : s.ok) (hi : s.handoffInv 0 1 ((v :: rest : List α) : Multiset α))
    (hsp : s.soleProducer 1 (v :: rest)) {tc : Thread α} (htc : s.threads[0]? = some tc)
    (hidle : tc.pc = Pc.idle) (hdone : tc.todo = []) : tc.value = v ∧ tc.got = [v] := by
  obtain ⟨⟨tc1, htc1, hcons⟩, -, -⟩ := hi
  rw [htc] at htc1
  simp at htc1
  subst htc1
  obtain ⟨-, -, hlen, hret, hval⟩ := hcons
  obtain ⟨⟨tp, -, hord⟩, -⟩ := hsp
  have hhist := hs.1.2.2
  simp [Thread.popsLeft, hidle, hdone, popCalls] at hlen
  obtain ⟨x, hx⟩ := List.length_eq_one.mp hlen
  rw [hret, hx] at hhist
  rw [← hhist] at hord
  simp at hord
  have hxv : x = v := hord.1
  subst hxv
  have hv := hval hidle (by rw [hx]; simp)
  rw [hx] at hv
  simp at hv
  exact ⟨hv.symm, hx⟩

/-! ### Fair infinite schedules -/

theorem trace_cases {α : Type} [DecidableEq α] (s0 : State α) (sched : Nat → Action)
    (n : Nat) :
    (step (trace s0 sched n) (sched n) = none ∧ trace s0 sched (n + 1) = trace s0 sched n)
    ∨ step (trace s0 sched n) (sched n) = some (trace s0 sched (n + 1)) := by
  cases hst : step (trace s0 sched n) (sched n) with
  | none =>
    left
    exact ⟨rfl, by simp [trace, hst]⟩
  | some s1 =>
    right
    simp [trace, hst]

theorem step_length {α : Type} [DecidableEq α] {s s1 : State α} {a : Action}
    (h : step s a = some s1) : s1.threads.length = s.threads.length := by
  cases a with
  | run i pick =>
    obtain ⟨t, t1, sh1, n, -, -, -, hts⟩ := step_run_inv h
    rcases hts with ⟨-, hts⟩ | ⟨-, hnot⟩
    · rw [hts, List.length_set]
    · rcases notifyOne_inv hnot with ⟨he, -⟩ | ⟨u, -, -, he⟩
      · rw [he, List.length_set]
      · rw [he, List.length_set, List.length_set]
  | wake j c =>
    obtain ⟨t, -, -, -, hts⟩ := step_wake_inv h
    rw [hts, List.length_set]

theorem step_good {α : Type} [DecidableEq α] {s s1 : State α} {a : Action} {vs : List α}
    (hg : s.good vs) (h : step s a = some s1) : s1.good vs := by
  obtain ⟨hs, ho, hl, hi, hsp, hlen⟩ := hg
  exact ⟨step_ok hs h, step_owned hs ho h, step_noLost hs hl h, step_handoff hi h,
    step_soleProducer hsp h, by rw [step_length h]; exact hlen⟩

theorem run_good {α : Type} [DecidableEq α] (acts : List Action) {s s1 : State α}
    {vs : List α} (hg : s.good vs) (h : run s acts = some s1) : s1.good vs := by
  induction acts generalizing s with
  | nil =>
    simp [run] at h
    subst h
    exact hg
  | cons a rest ih =>
    simp only [run] at h
    split at h
    · simp at h
    · rename_i s2 hst
      exact ih (step_good hg hst) h

theorem trace_good {α : Type} [DecidableEq α] {s0 : State α} {vs : List α}
    (hg : s0.good vs) (sched : Nat → Action) (n : Nat) : (trace s0 sched n).good vs := by
  induction n with
  | zero => exact hg
  | succ n ih =>
    rcases trace_cases s0 sched n with ⟨-, he⟩ | hst
    · rw [he]
      exact ih
    · exact step_good ih hst

/-- A thread that is not blocked is left alone by every action that is not one
of its own statements. -/
theorem step_other_unchanged {α : Type} [DecidableEq α] {s s1 : State α} {a : Action}
    {j : Nat} {u : Thread α} (h : step s a = some s1) (hj : s.threads[j]? = some u)
    (hb : u.pc.blocked = false) (hne : ∀ pick, a ≠ Action.run j pick) :
    s1.threads[j]? = some u := by
  cases a with
  | run i pick =>
    have hij : i ≠ j := by
      intro he
      subst he
      exact hne pick rfl
    obtain ⟨t, t1, sh1, n, -, -, -, hts⟩ := step_run_inv h
    have hset : (s.threads.set i t1)[j]? = some u := by
      rw [List.getElem?_set_ne hij]
      exact hj
    rcases hts with ⟨-, hts⟩ | ⟨-, hnot⟩
    · rw [hts]
      exact hset
    · exact notifyOne_keep hnot hset hb
  | wake k c =>
    obtain ⟨t, htk, hbk, -, hts⟩ := step_wake_inv h
    have hkj : k ≠ j := by
      intro he
      subst he
      rw [hj] at htk
      simp at htk
      subst htk
      rw [hb] at hbk
      cases hbk
    rw [hts, List.getElem?_set_ne hkj]
    exact hj

theorem exec_notify_idle {α : Type} [DecidableEq α] {i : Nat} {t t1 : Thread α}
    {sh sh1 : Shared α} (h : exec i t sh = some (t1, sh1, true)) : t1.pc = Pc.idle := by
  rcases t with ⟨pc, todo, value, got, result⟩
  rcases sh with ⟨q, m, ub, af, pushed, returned, inflight⟩
  cases pc
  case idle =>
    rcases todo with _ | ⟨op, rest⟩
    · simp [exec] at h
    · cases op <;> cases m <;> simp [exec, enter, Shared.acquire] at h
  all_goals
    try (rename_i b; cases b)
  all_goals
    cases q <;> cases m <;>
      simp [exec, Thread.goto, Shared.release, execFront, execPop, execRet,
        Shared.acquire] at h
  all_goals
    obtain ⟨rfl, -⟩ := h
    rfl

/-- A thread's own statement lowers its budget. -/
theorem step_own_rank {α : Type} [DecidableEq α] {s s1 : State α} {j pick : Nat}
    {u : Thread α} (h : step s (Action.run j pick) = some s1) (hj : s.threads[j]? = some u) :
    ∃ u1 : Thread α, s1.threads[j]? = some u1 ∧ u1.rank < u.rank := by
  obtain ⟨t, t1, sh1, n, hti, hex, -, hts⟩ := step_run_inv h
  rw [hj] at hti
  simp at hti
  subst hti
  have hr := exec_rank hex
  have hset : (s.threads.set j t1)[j]? = some t1 := getElem?_set_same hj
  rcases hts with ⟨-, hts⟩ | ⟨hn, hnot⟩
  · exact ⟨t1, by rw [hts]; exact hset, by omega⟩
  · subst hn
    have hidle := exec_notify_idle hex
    have hb : t1.pc.blocked = false := by rw [hidle]; rfl
    exact ⟨t1, notifyOne_keep hnot hset hb, by omega⟩

theorem no_infinite_descent (f : Nat → Nat) :
    ∀ (b n0 : Nat), f n0 ≤ b → (∀ m, n0 ≤ m → f (m + 1) ≤ f m) →
      (∀ n, ∃ m, n ≤ m ∧ f (m + 1) < f m) → False := by
  intro b
  induction b with
  | zero =>
    intro n0 hb hmono hinf
    have hle : ∀ d, f (n0 + d) ≤ f n0 := by
      intro d
      induction d with
      | zero => exact Nat.le_refl _
      | succ d ih => exact Nat.le_trans (hmono (n0 + d) (Nat.le_add_right _ _)) ih
    obtain ⟨m, hm, hlt⟩ := hinf n0
    obtain ⟨d, rfl⟩ := Nat.exists_eq_add_of_le hm
    have := hle d
    omega
  | succ b ih =>
    intro n0 hb hmono hinf
    have hle : ∀ d, f (n0 + d) ≤ f n0 := by
      intro d
      induction d with
      | zero => exact Nat.le_refl _
      | succ d ih2 => exact Nat.le_trans (hmono (n0 + d) (Nat.le_add_right _ _)) ih2
    obtain ⟨m, hm, hlt⟩ := hinf n0
    obtain ⟨d, rfl⟩ := Nat.exists_eq_add_of_le hm
    have := hle d
    exact ih (n0 + d + 1) (by omega) (fun k hk => hmono k (by omega)) hinf

/-- A thread that is never blocked from some instant on cannot execute
statements at infinitely many instants. -/
theorem no_infinite_runs {α : Type} [DecidableEq α] (s0 : State α) (sched : Nat → Action)
    (j n0 : Nat)
    (hnb : ∀ m, n0 ≤ m → ∃ u : Thread α, (trace s0 sched m).threads[j]? = some u
      ∧ u.pc.blocked = false)
    (hinf : ∀ k : Nat, ∃ m : Nat, k ≤ m ∧ runsAt s0 sched j m) : False := by
  have hstep : ∀ m, n0 ≤ m →
      (trace s0 sched (m + 1)).rankOf j ≤ (trace s0 sched m).rankOf j
      ∧ (runsAt s0 sched j m →
          (trace s0 sched (m + 1)).rankOf j < (trace s0 sched m).rankOf j) := by
    intro m hm
    obtain ⟨u, hu, hb⟩ := hnb m hm
    rcases trace_cases s0 sched m with ⟨hnone, he⟩ | hst
    · rw [he]
      refine ⟨Nat.le_refl _, ?_⟩
      rintro ⟨pick, s1, hsch, hs1⟩
      rw [hsch] at hnone
      rw [hnone] at hs1
      cases hs1
    · by_cases hown : ∃ pick, sched m = Action.run j pick
      · obtain ⟨pick, hsch⟩ := hown
        rw [hsch] at hst
        obtain ⟨u1, hu1, hlt⟩ := step_own_rank hst hu
        have : (trace s0 sched (m + 1)).rankOf j < (trace s0 sched m).rankOf j := by
          simp only [State.rankOf, hu, hu1]
          exact hlt
        exact ⟨Nat.le_of_lt this, fun _ => this⟩
      · have hne : ∀ pick, sched m ≠ Action.run j pick := fun pick hx => hown ⟨pick, hx⟩
        have hu1 := step_other_unchanged hst hu hb hne
        refine ⟨by simp only [State.rankOf, hu, hu1]; exact Nat.le_refl _, ?_⟩
        rintro ⟨pick, s1, hsch, -⟩
        exact absurd hsch (hne pick)
  apply no_infinite_descent (fun m => (trace s0 sched m).rankOf j)
    ((trace s0 sched n0).rankOf j) n0 (Nat.le_refl _)
  · intro m hm
    exact (hstep m hm).1
  · intro n
    obtain ⟨m, hm, hr⟩ := hinf (max n n0)
    exact ⟨m, by omega, (hstep m (by omega)).2 hr⟩

theorem step_finished_none {α : Type} [DecidableEq α] {s : State α} {j : Nat}
    {u : Thread α} (hj : s.threads[j]? = some u) (hf : u.finished) (pick : Nat) :
    step s (Action.run j pick) = none := by
  rcases u with ⟨pc, todo, value, got, result⟩
  obtain ⟨h1, h2⟩ := hf
  simp only at h1 h2
  subst h1 h2
  simp [step, hj, exec]

theorem finished_not_blocked {α : Type} {u : Thread α} (hf : u.finished) :
    u.pc.blocked = false := by
  rw [hf.1]
  rfl

/-- A finished thread stays as it is along the schedule. -/
theorem trace_finished {α : Type} [DecidableEq α] (s0 : State α) (sched : Nat → Action)
    {j n : Nat} {u : Thread α} (hj : (trace s0 sched n).threads[j]? = some u)
    (hf : u.finished) : ∀ d : Nat, (trace s0 sched (n + d)).threads[j]? = some u := by
  intro d
  induction d with
  | zero => exact hj
  | succ d ih =>
    rcases trace_cases s0 sched (n + d) with ⟨-, he⟩ | hst
    · rw [← Nat.add_assoc, he]
      exact ih
    · rw [← Nat.add_assoc]
      apply step_other_unchanged hst ih (finished_not_blocked hf)
      intro pick hx
      rw [hx, step_finished_none ih hf pick] at hst
      cases hst

theorem good_index {α : Type} {s : State α} {vs : List α} (hg : s.good vs) {k : Nat}
    {w : Thread α} (hk : s.threads[k]? = some w) : k = 0 ∨ k = 1 := by
  obtain ⟨hlt, -⟩ := List.getElem?_eq_some.mp hk
  have := hg.2.2.2.2.2
  omega

theorem good_consumer {α : Type} {s : State α} {vs : List α} (hg : s.good vs) :
    ∃ tc : Thread α, s.threads[0]? = some tc ∧ tc.consumerInv s.sh 1 :=
  hg.2.2.2.1.1

theorem good_producer {α : Type} {s : State α} {vs : List α} (hg : s.good vs) :
    ∃ tp : Thread α, s.threads[1]? = some tp ∧ s.sh.pushed ++ tp.pending = vs
      ∧ tp.pushOnly = true := by
  obtain ⟨tp, htp, hord⟩ := hg.2.2.2.2.1.1
  exact ⟨tp, htp, hord, hg.2.2.2.1.2.1 1 tp (by decide) htp⟩

/-- In the lone-consumer scenario, once every thread is blocked or finished and
the mutex is free, the consumer is not the blocked one: a wake-up has not been
lost. -/
theorem handoff_not_stuck {α : Type} {s : State α} {v : α} {rest : List α}
    (hs : s.ok) (hl : s.noLost)
    (hi : s.handoffInv 0 1 ((v :: rest : List α) : Multiset α))
    (hsp : s.soleProducer 1 (v :: rest)) (hfree : s.sh.m_mutex = none)
    (hth : ∀ (k : Nat) (w : Thread α), s.threads[k]? = some w →
      w.pc.blocked = true ∨ w.finished)
    {tc : Thread α} (htc : s.threads[0]? = some tc) (hb : tc.pc.blocked = true) : False := by
  obtain ⟨⟨tc1, htc1, hcons⟩, hprod, -⟩ := hi
  rw [htc] at htc1
  simp at htc1
  subst htc1
  obtain ⟨⟨tp, htp, hord⟩, -⟩ := hsp
  have hpb := pushOnly_not_blocked (hprod 1 tp (by decide) htp)
  have hpend : tp.pending = [] := by
    rcases hth 1 tp htp with hb1 | ⟨h1, h2⟩
    · rw [hpb] at hb1
      cases hb1
    · simp [Thread.pending, h1, h2, progPushes]
  rw [hpend] at hord
  simp at hord
  have hzero : total Thread.wakers s.threads = 0 := by
    apply total_zero
    intro k w hk
    rcases hth k w hk with hb1 | ⟨h1, -⟩
    · exact (woken_wakers hb1).1
    · simp [Thread.wakers, h1, Pc.notifyPending, Pc.competing]
  have hq : s.sh.m_queue = [] := by
    rcases hl with hA | hB
    · rw [hA 0 tc htc] at hb
      cases hb
    · exact List.eq_nil_of_length_eq_zero (by omega)
  have hfl := hs.1.2.1 hfree
  have hhist := hs.1.2.2
  obtain ⟨-, -, hlen, hret, -⟩ := hcons
  have hgot : tc.got = [] := by
    have hpl : 1 ≤ tc.popsLeft := by
      rcases tc with ⟨pc, todo, value, got, result⟩
      cases pc <;> simp [Pc.blocked] at hb <;> simp [Thread.popsLeft]
    exact List.eq_nil_of_length_eq_zero (by omega)
  rw [hret, hgot, hfl, hq, hord] at hhist
  simp at hhist

theorem canRun_of_holds {α : Type} [DecidableEq α] {s : State α} {k : Nat} {w : Thread α}
    (hk : s.threads[k]? = some w) (hh : w.pc.holds = true) : s.canRun k := by
  obtain ⟨w1, sh1, hex⟩ := exec_holds_some k w s.sh hh
  exact step_of_exec hk hex

theorem canRun_of_free {α : Type} [DecidableEq α] {s : State α} (hs : s.ok) {k : Nat}
    {w : Thread α} (hk : s.threads[k]? = some w) (hm : s.sh.m_mutex = none)
    (hb : w.pc.blocked = false) (hnf : ¬ w.finished) : s.canRun k := by
  have hh : w.pc.holds = false := by
    cases hc : w.pc.holds with
    | false => rfl
    | true =>
      have := (hs.2 k w hk hc).1
      rw [hm] at this
      cases this
  obtain ⟨r, hex⟩ := exec_free_some k w s.sh hm hh hb hnf
  exact step_of_exec hk hex

/-- An unfinished producer can execute a statement unless the consumer owns the
mutex. -/
theorem producer_canRun {α : Type} [DecidableEq α] {s : State α} {vs : List α}
    (hg : s.good vs) {tp : Thread α} (htp : s.threads[1]? = some tp) (hnf : ¬ tp.finished) :
    s.canRun 1 ∨ (∃ tc : Thread α, s.threads[0]? = some tc ∧ tc.pc.holds = true) := by
  have hpo := hg.2.2.2.1.2.1 1 tp (by decide) htp
  cases hm : s.sh.m_mutex with
  | none => exact Or.inl (canRun_of_free hg.1 htp hm (pushOnly_not_blocked hpo) hnf)
  | some k =>
    obtain ⟨w, hw, hwh⟩ := hg.2.1 k hm
    rcases good_index hg hw with rfl | rfl
    · exact Or.inr ⟨w, hw, hwh⟩
    · exact Or.inl (canRun_of_holds hw hwh)

/-- Once the producer has finished, an unfinished consumer is not blocked and
can execute a statement. -/
theorem consumer_canRun {α : Type} [DecidableEq α] {s : State α} {v : α} {rest : List α}
    (hg : s.good (v :: rest)) {tp tc : Thread α} (htp : s.threads[1]? = some tp)
    (hpf : tp.finished) (htc : s.threads[0]? = some tc) (hnf : ¬ tc.finished) :
    tc.pc.blocked = false ∧ s.canRun 0 := by
  have hfree_or : s.sh.m_mutex = none ∨ tc.pc.holds = true := by
    cases hm : s.sh.m_mutex with
    | none => exact Or.inl rfl
    | some k =>
      obtain ⟨w, hw, hwh⟩ := hg.2.1 k hm
      rcases good_index hg hw with rfl | rfl
      · rw [htc] at hw
        simp at hw
        subst hw
        exact Or.inr hwh
      · rw [htp] at hw
        simp at hw
        subst hw
        rw [hpf.1] at hwh
        cases hwh
  rcases hfree_or with hfree | hh
  · have hb : tc.pc.blocked = false := by
      cases hc : tc.pc.blocked with
      | false => rfl
      | true =>
        exfalso
        apply handoff_not_stuck hg.1 hg.2.2.1 hg.2.2.2.1 hg.2.2.2.2.1 hfree ?_ htc hc
        intro k w hk
        rcases good_index hg hk with rfl | rfl
        · rw [htc] at hk
          simp at hk
          subst hk
          exact Or.inl hc
        · rw [htp] at hk
          simp at hk
          subst hk
          exact Or.inr hpf
    exact ⟨hb, canRun_of_free hg.1 htc hfree hb hnf⟩
  · exact ⟨holds_not_blocked hh, canRun_of_holds htc hh⟩

/-- Along a fair schedule the producer completes its program. -/
theorem producer_finishes {α : Type} [DecidableEq α] {s0 : State α} {vs : List α}
    (hg : s0.good vs) (sched : Nat → Action) (hfair : Fair s0 sched) :
    ∃ (n : Nat) (tp : Thread α), (trace s0 sched n).threads[1]? = some tp ∧ tp.finished := by
  by_contra hcon
  have hnf : ∀ (n : Nat) (tp : Thread α), (trace s0 sched n).threads[1]? = some tp →
      ¬ tp.finished := fun n tp htp hf => hcon ⟨n, tp, htp, hf⟩
  have hnb : ∀ m, 0 ≤ m → ∃ u : Thread α, (trace s0 sched m).threads[1]? = some u
      ∧ u.pc.blocked = false := by
    intro m _
    obtain ⟨tp, htp, -, hpo⟩ := good_producer (trace_good hg sched m)
    exact ⟨tp, htp, pushOnly_not_blocked hpo⟩
  have hoften : ∀ k : Nat, ∃ m : Nat, k ≤ m ∧ (trace s0 sched m).canRun 1 := by
    by_contra hno
    push_neg at hno
    obtain ⟨k, hk⟩ := hno
    have hcons : ∀ m, k ≤ m → ∃ tc : Thread α, (trace s0 sched m).threads[0]? = some tc
        ∧ tc.pc.holds = true := by
      intro m hm
      have hgm := trace_good hg sched m
      obtain ⟨tp, htp, -, -⟩ := good_producer hgm
      rcases producer_canRun hgm htp (hnf m tp htp) with hc | hc
      · exact absurd hc (hk m hm)
      · exact hc
    apply no_infinite_runs s0 sched 0 k
    · intro m hm
      obtain ⟨tc, htc, hh⟩ := hcons m hm
      exact ⟨tc, htc, holds_not_blocked hh⟩
    · apply hfair 0
      intro k1
      obtain ⟨tc, htc, hh⟩ := hcons (max k k1) (Nat.le_max_left _ _)
      exact ⟨max k k1, Nat.le_max_right _ _, canRun_of_holds htc hh⟩
  exact no_infinite_runs s0 sched 1 0 hnb (hfair 1 hoften)

/-- Liveness in the lone-consumer scenario: along every fair schedule the
consumer returns, holding the first value pushed. -/
theorem handoff_live {α : Type} [DecidableEq α] {s0 : State α} {v : α} {rest : List α}
    (hg : s0.good (v :: rest)) (sched : Nat → Action) (hfair : Fair s0 sched) :
    ∃ (n : Nat) (tc : Thread α), (trace s0 sched n).threads[0]? = some tc
      ∧ tc.pc = Pc.idle ∧ tc.todo = [] ∧ tc.value = v ∧ tc.got = [v] := by
  obtain ⟨n1, tp, htp, hpf⟩ := producer_finishes hg sched hfair
  have hprod := trace_finished s0 sched htp hpf
  by_contra hcon
  have hnf : ∀ (n : Nat) (tc : Thread α), (trace s0 sched n).threads[0]? = some tc →
      ¬ tc.finished := by
    intro n tc htc hf
    have hgn := trace_good hg sched n
    obtain ⟨hv, hgot⟩ := handoff_returned hgn.1 hgn.2.2.2.1 hgn.2.2.2.2.1 htc hf.1 hf.2
    exact hcon ⟨n, tc, htc, hf.1, hf.2, hv, hgot⟩
  have hkey : ∀ m, n1 ≤ m → ∃ tc : Thread α, (trace s0 sched m).threads[0]? = some tc
      ∧ tc.pc.blocked = false ∧ (trace s0 sched m).canRun 0 := by
    intro m hm
    obtain ⟨d, rfl⟩ := Nat.exists_eq_add_of_le hm
    have hgm := trace_good hg sched (n1 + d)
    obtain ⟨tc, htc, -⟩ := good_consumer hgm
    obtain ⟨hb, hc⟩ := consumer_canRun hgm (hprod d) hpf htc (hnf _ tc htc)
    exact ⟨tc, htc, hb, hc⟩
  apply no_infinite_runs s0 sched 0 n1
  · intro m hm
    obtain ⟨tc, htc, hb, -⟩ := hkey m hm
    exact ⟨tc, htc, hb⟩
  · apply hfair 0
    intro k
    obtain ⟨tc, htc, -, hc⟩ := hkey (max n1 k) (Nat.le_max_left _ _)
    exact ⟨max n1 k, Nat.le_max_right _ _, hc⟩

/-! ### Fair schedules exist -/

theorem trace_shift {α : Type} [DecidableEq α] (s0 : State α) (sched : Nat → Action)
    (n : Nat) :
    trace s0 sched (n + 1)
      = trace (match step s0 (sched 0) with
               | some s1 => s1
               | none => s0) (fun k => sched (k + 1)) n := by
  induction n with
  | zero => rfl
  | succ n ih =>
    have h1 : trace s0 sched (n + 1 + 1)
        = (match step (trace s0 sched (n + 1)) (sched (n + 1)) with
           | some s1 => s1
           | none => trace s0 sched (n + 1)) := rfl
    rw [h1, ih]
    rfl

theorem trace_schedOf {α : Type} [DecidableEq α] (l : List Action) {s0 s1 : State α}
    (h : run s0 l = some s1) : trace s0 (schedOf l) l.length = s1 := by
  induction l generalizing s0 with
  | nil =>
    simp [run] at h
    subst h
    rfl
  | cons a rest ih =>
    simp only [run] at h
    split at h
    · simp at h
    · rename_i s2 hst
      have hsh : (fun k => schedOf (a :: rest) (k + 1)) = schedOf rest := by
        funext k
        simp [schedOf]
      have h0 : schedOf (a :: rest) 0 = a := by simp [schedOf]
      rw [List.length_cons, trace_shift, h0, hst, hsh]
      exact ih h

theorem trace_dead {α : Type} [DecidableEq α] (s0 : State α) (sched : Nat → Action)
    (n : Nat) (hdead : ∀ a : Action, step (trace s0 sched n) a = none) :
    ∀ d : Nat, trace s0 sched (n + d) = trace s0 sched n := by
  intro d
  induction d with
  | zero => rfl
  | succ d ih =>
    rcases trace_cases s0 sched (n + d) with ⟨-, he⟩ | hst
    · rw [← Nat.add_assoc, he]
      exact ih
    · rw [ih, hdead] at hst
      cases hst

/-- A schedule that reaches a state in which no action is enabled is fair. -/
theorem fair_of_dead {α : Type} [DecidableEq α] (s0 : State α) (sched : Nat → Action)
    (n : Nat) (hdead : ∀ a : Action, step (trace s0 sched n) a = none) : Fair s0 sched := by
  intro i hoften k
  exfalso
  obtain ⟨m, hm, pick, s1, hst⟩ := hoften n
  obtain ⟨d, rfl⟩ := Nat.exists_eq_add_of_le hm
  rw [trace_dead s0 sched n hdead d, hdead] at hst
  cases hst

theorem handoffDone_dead : ∀ a : Action, step handoffDone a = none := by
  intro a
  cases a with
  | run i pick =>
    match i with
    | 0 => rfl
    | 1 => rfl
    | k + 2 => rfl
  | wake j c =>
    match j with
    | 0 => rfl
    | 1 => rfl
    | k + 2 => rfl

theorem handoffComplete_run :
    run (State.init (handoffProgs [7, 8] 0)) handoffComplete = some handoffDone := rfl

theorem handoffComplete_fair :
    Fair (State.init (handoffProgs [7, 8] 0)) (schedOf handoffComplete) := by
  apply fair_of_dead _ _ handoffComplete.length
  rw [trace_schedOf handoffComplete handoffComplete_run]
  exact handoffDone_dead

theorem handoff_init_good {α : Type} (vs : List α) (v0 : α) :
    (State.init (handoffProgs vs v0)).good vs :=
  ⟨init_ok _, init_owned _, init_noLost _, (handoff_init vs v0).1, (handoff_init vs v0).2, rfl⟩

/-! ### Progress under fairness, for any pool -/

/-- While the mutex is owned, no action hands it to another thread: it stays
with its owner or becomes free. -/
theorem step_mutex_keep {α : Type} [DecidableEq α] {s s1 : State α} {a : Action} {h : Nat}
    (hs : s.ok) (hm : s.sh.m_mutex = some h) (hst : step s a = some s1) :
    s1.sh.m_mutex = some h ∨ s1.sh.m_mutex = none := by
  cases a with
  | run i pick =>
    obtain ⟨t, t1, sh1, n, hti, hex, hsh, -⟩ := step_run_inv hst
    subst hsh
    cases hh : t.pc.holds with
    | false =>
      have hkeep := (exec_nonholder hh (by rw [hm]; simp) hex).2.1
      left
      rw [hkeep]
      exact hm
    | true =>
      have hi := (hs.2 i t hti hh).1
      rw [hm] at hi
      simp at hi
      subst hi
      rcases exec_owner (hs.2 _ t hti) hex with ⟨-, h1, -⟩ | ⟨-, h1, -⟩ | ⟨-, -, h1⟩
      · exact Or.inl h1
      · exact Or.inr h1
      · left
        rw [h1]
        exact hm
  | wake j c =>
    obtain ⟨t, -, -, hsh, -⟩ := step_wake_inv hst
    left
    rw [hsh]
    exact hm

theorem trace_ok_owned {α : Type} [DecidableEq α] {s0 : State α} (hs : s0.ok)
    (ho : s0.owned) (sched : Nat → Action) (n : Nat) :
    (trace s0 sched n).ok ∧ (trace s0 sched n).owned := by
  induction n with
  | zero => exact ⟨hs, ho⟩
  | succ n ih =>
    rcases trace_cases s0 sched n with ⟨-, he⟩ | hst
    · rw [he]
      exact ih
    · exact ⟨step_ok ih.1 hst, step_owned ih.1 ih.2 hst⟩

theorem trace_length {α : Type} [DecidableEq α] (s0 : State α) (sched : Nat → Action)
    (n : Nat) : (trace s0 sched n).threads.length = s0.threads.length := by
  induction n with
  | zero => rfl
  | succ n ih =>
    rcases trace_cases s0 sched n with ⟨-, he⟩ | hst
    · rw [he]
      exact ih
    · rw [step_length hst]
      exact ih

/-- A mutex that is never free from some instant on has one and the same owner
from then on. -/
theorem holder_constant {α : Type} [DecidableEq α] {s0 : State α} (hs : s0.ok)
    (ho : s0.owned) (sched : Nat → Action) (K : Nat)
    (hheld : ∀ m, K ≤ m → (trace s0 sched m).sh.m_mutex ≠ none) :
    ∃ h : Nat, ∀ m, K ≤ m → (trace s0 sched m).sh.m_mutex = some h := by
  cases hm : (trace s0 sched K).sh.m_mutex with
  | none => exact absurd hm (hheld K (Nat.le_refl _))
  | some h =>
    refine ⟨h, ?_⟩
    intro m hKm
    obtain ⟨d, rfl⟩ := Nat.exists_eq_add_of_le hKm
    clear hKm
    induction d with
    | zero => exact hm
    | succ d ih =>
      rcases trace_cases s0 sched (K + d) with ⟨-, he⟩ | hst
      · rw [← Nat.add_assoc, he]
        exact ih
      · rcases step_mutex_keep (trace_ok_owned hs ho sched _).1 ih hst with h1 | h1
        · rw [← Nat.add_assoc]
          exact h1
        · exact absurd h1 (hheld _ (by omega))

/-- Under a fair schedule no thread stays for ever inside its program without
being blocked: the mutex it may be waiting for is released after finitely many
statements of its owner. -/
theorem fair_progress {α : Type} [DecidableEq α] {s0 : State α} (hs : s0.ok)
    (ho : s0.owned) (sched : Nat → Action) (hfair : Fair s0 sched) (j n0 : Nat)
    (hstay : ∀ m, n0 ≤ m → ∃ u : Thread α, (trace s0 sched m).threads[j]? = some u
      ∧ u.pc.blocked = false ∧ ¬ u.finished) : False := by
  have hnb : ∀ m, n0 ≤ m → ∃ u : Thread α, (trace s0 sched m).threads[j]? = some u
      ∧ u.pc.blocked = false := by
    intro m hm
    obtain ⟨u, hu, hb, -⟩ := hstay m hm
    exact ⟨u, hu, hb⟩
  by_cases hoften : ∀ k : Nat, ∃ m : Nat, k ≤ m ∧ (trace s0 sched m).canRun j
  · exact no_infinite_runs s0 sched j n0 hnb (hfair j hoften)
  · push_neg at hoften
    obtain ⟨K, hK⟩ := hoften
    have hheld : ∀ m, max K n0 ≤ m → (trace s0 sched m).sh.m_mutex ≠ none := by
      intro m hm hfree
      obtain ⟨u, hu, hb, hnf⟩ := hstay m (by omega)
      exact hK m (by omega)
        (canRun_of_free (trace_ok_owned hs ho sched m).1 hu hfree hb hnf)
    obtain ⟨h, hh⟩ := holder_constant hs ho sched (max K n0) hheld
    have hholder : ∀ m, max K n0 ≤ m →
        ∃ w : Thread α, (trace s0 sched m).threads[h]? = some w ∧ w.pc.holds = true :=
      fun m hm => (trace_ok_owned hs ho sched m).2 h (hh m hm)
    apply no_infinite_runs s0 sched h (max K n0)
    · intro m hm
      obtain ⟨w, hw, hwh⟩ := hholder m hm
      exact ⟨w, hw, holds_not_blocked hwh⟩
    · apply hfair h
      intro k
      obtain ⟨w, hw, hwh⟩ := hholder (max (max K n0) k) (Nat.le_max_left _ _)
      exact ⟨_, Nat.le_max_right _ _, canRun_of_holds hw hwh⟩

/-! ### One consumer, many producers: every item is delivered -/

theorem step_pool {α : Type} [DecidableEq α] {s s1 : State α} {a : Action} {c k : Nat}
    {all : Multiset α} (hp : s.pool c k all) (h : step s a = some s1) : s1.pool c k all :=
  ⟨step_ok hp.1 h, step_owned hp.1 hp.2.1 h, step_noLost hp.1 hp.2.2.1 h,
    step_handoff hp.2.2.2 h⟩

theorem run_pool {α : Type} [DecidableEq α] (acts : List Action) {s s1 : State α}
    {c k : Nat} {all : Multiset α} (hp : s.pool c k all) (h : run s acts = some s1) :
    s1.pool c k all := by
  induction acts generalizing s with
  | nil =>
    simp [run] at h
    subst h
    exact hp
  | cons a rest ih =>
    simp only [run] at h
    split at h
    · simp at h
    · rename_i s2 hst
      exact ih (step_pool hp hst) h

theorem trace_pool {α : Type} [DecidableEq α] {s0 : State α} {c k : Nat}
    {all : Multiset α} (hp : s0.pool c k all) (sched : Nat → Action) (n : Nat) :
    (trace s0 sched n).pool c k all := by
  induction n with
  | zero => exact hp
  | succ n ih =>
    rcases trace_cases s0 sched n with ⟨-, he⟩ | hst
    · rw [he]
      exact ih
    · exact step_pool ih hst

theorem contention_pool (N M : Nat) :
    (contention N M).pool N (N * M) (allTagged N M : Multiset (Nat × Nat)) :=
  ⟨init_ok _, init_owned _, init_noLost _, contention_handoff N M⟩

theorem pendingAll_nil {α : Type} (ts : List (Thread α))
    (h : ∀ (j : Nat) (u : Thread α), ts[j]? = some u → u.pending = []) :
    pendingAll ts = [] := by
  induction ts with
  | nil => rfl
  | cons t ts ih =>
    simp only [pendingAll]
    rw [h 0 t (by simp), ih (fun j u hj => h (j + 1) u (by simpa using hj))]
    rfl

theorem progPushes_waitPop {α : Type} (l : List (Op α))
    (h : l.all Op.isWaitPop = true) : progPushes l = [] := by
  induction l with
  | nil => rfl
  | cons op l ih =>
    simp only [List.all_cons, Bool.and_eq_true] at h
    obtain ⟨h1, h2⟩ := h
    cases op with
    | wait_and_pop => simp [progPushes, ih h2]
    | assert_eq v => simp [progPushes, ih h2]
    | push d => cases h1
    | empty => cases h1
    | try_pop => cases h1
    | try_wait_and_pop milli => cases h1

theorem consumer_pending {α : Type} {t : Thread α} {sh : Shared α} {k : Nat}
    (h : t.consumerInv sh k) : t.pending = [] := by
  obtain ⟨h1, h2, -⟩ := h
  rcases t with ⟨pc, todo, value, got, result⟩
  simp only at h1 h2
  cases pc <;> simp [Pc.inWaitPop] at h1 <;> simp [Thread.pending, progPushes_waitPop _ h2]

theorem finished_pending {α : Type} {u : Thread α} (hf : u.finished) : u.pending = [] := by
  simp [Thread.pending, hf.1, hf.2, progPushes]

/-- Once every producer has finished, the consumer is not blocked: were it
blocked, no notification would be outstanding, so the queue would be empty and
everything pushed would have been received, leaving the consumer no call to be
blocked in. -/
theorem pool_not_stuck {α : Type} {s : State α} {c k : Nat} {all : Multiset α}
    (hp : s.pool c k all) (hcard : Multiset.card all = k)
    (hfin : ∀ (j : Nat) (u : Thread α), j ≠ c → s.threads[j]? = some u → u.finished)
    {tc : Thread α} (htc : s.threads[c]? = some tc) (hb : tc.pc.blocked = true) : False := by
  obtain ⟨hs, ho, hl, ⟨tc1, htc1, hcons⟩, -, hmul⟩ := hp
  rw [htc] at htc1
  simp at htc1
  subst htc1
  have hfree : s.sh.m_mutex = none := by
    cases hm : s.sh.m_mutex with
    | none => rfl
    | some h =>
      obtain ⟨w, hw, hwh⟩ := ho h hm
      by_cases hc : h = c
      · rw [hc, htc] at hw
        simp at hw
        subst hw
        rw [holds_not_blocked hwh] at hb
        cases hb
      · have hidle := (hfin h w hc hw).1
        rw [hidle] at hwh
        cases hwh
  have hzero : total Thread.wakers s.threads = 0 := by
    apply total_zero
    intro j w hj
    by_cases hc : j = c
    · rw [hc, htc] at hj
      simp at hj
      subst hj
      exact (woken_wakers hb).1
    · have hidle := (hfin j w hc hj).1
      simp [Thread.wakers, hidle, Pc.notifyPending, Pc.competing]
  have hq : s.sh.m_queue = [] := by
    rcases hl with hA | hB
    · rw [hA c tc htc] at hb
      cases hb
    · exact List.eq_nil_of_length_eq_zero (by omega)
  have hpend : pendingAll s.threads = [] := by
    apply pendingAll_nil
    intro j w hj
    by_cases hc : j = c
    · rw [hc, htc] at hj
      simp at hj
      subst hj
      exact consumer_pending hcons
    · exact finished_pending (hfin j w hc hj)
  have hfl := hs.1.2.1 hfree
  have hhist := hs.1.2.2
  obtain ⟨-, -, hlen, hret, -⟩ := hcons
  rw [hpend] at hmul
  have hc1 := congrArg Multiset.card hmul
  simp only [Multiset.card_add, Multiset.coe_card, List.length_nil] at hc1
  rw [hfl, hq] at hhist
  simp at hhist
  have hpl : 1 ≤ tc.popsLeft := by
    rcases tc with ⟨pc, todo, value, got, result⟩
    cases pc <;> simp [Pc.blocked] at hb <;> simp [Thread.popsLeft]
  have hl2 := congrArg List.length hret
  rw [hhist] at hl2
  omega

/-- No deadlock with items stranded: where no statement can be executed, the
consumer has completed its program. -/
theorem pool_quiescent {α : Type} [DecidableEq α] {s : State α} {c k : Nat}
    {all : Multiset α} (hp : s.pool c k all) (hcard : Multiset.card all = k)
    (hq : ∀ (i pick : Nat), step s (Action.run i pick) = none) :
    ∃ tc : Thread α, s.threads[c]? = some tc ∧ tc.finished := by
  obtain ⟨-, hth⟩ := quiescent_spec hp.1 hp.2.1 hq
  obtain ⟨tc, htc, -⟩ := hp.2.2.2.1
  refine ⟨tc, htc, ?_⟩
  rcases hth c tc htc with hb | hf
  · exfalso
    apply pool_not_stuck hp hcard ?_ htc hb
    intro j u hj hu
    rcases hth j u hu with hb1 | hf1
    · rw [pushOnly_not_blocked (hp.2.2.2.2.1 j u hj hu)] at hb1
      cases hb1
    · exact hf1
  · exact hf

/-- Along a fair schedule every producer completes its program, and from some
instant on all of them have. -/
theorem pool_producers_finish {α : Type} [DecidableEq α] {s0 : State α} {c k : Nat}
    {all : Multiset α} (hp : s0.pool c k all) (sched : Nat → Action)
    (hfair : Fair s0 sched) (L : Nat) :
    ∃ n : Nat, ∀ m, n ≤ m → ∀ (j : Nat) (u : Thread α), j < L → j ≠ c →
      (trace s0 sched m).threads[j]? = some u → u.finished := by
  induction L with
  | zero => exact ⟨0, fun m _ j u hj => absurd hj (Nat.not_lt_zero j)⟩
  | succ L ih =>
    obtain ⟨n, hn⟩ := ih
    by_cases hex : L ≠ c ∧ L < s0.threads.length
    · obtain ⟨hLc, hLlt⟩ := hex
      have hthr : ∀ m, ∃ u : Thread α, (trace s0 sched m).threads[L]? = some u
          ∧ u.pushOnly = true := by
        intro m
        have hlen := trace_length s0 sched m
        have hlt : L < (trace s0 sched m).threads.length := by omega
        exact ⟨(trace s0 sched m).threads[L], List.getElem?_eq_getElem hlt,
          (trace_pool hp sched m).2.2.2.2.1 L _ hLc (List.getElem?_eq_getElem hlt)⟩
      have hsome : ∃ (m : Nat) (u : Thread α), (trace s0 sched m).threads[L]? = some u
          ∧ u.finished := by
        by_contra hno
        apply fair_progress hp.1 hp.2.1 sched hfair L 0
        intro m _
        obtain ⟨u, hu, hpo⟩ := hthr m
        exact ⟨u, hu, pushOnly_not_blocked hpo, fun hf => hno ⟨m, u, hu, hf⟩⟩
      obtain ⟨m1, u1, hu1, hf1⟩ := hsome
      refine ⟨max n m1, ?_⟩
      intro m hm j u hj hjc hu
      by_cases hjL : j = L
      · obtain ⟨d, rfl⟩ := Nat.exists_eq_add_of_le (show m1 ≤ m by omega)
        have hkeep := trace_finished s0 sched hu1 hf1 d
        rw [hjL, hkeep] at hu
        simp at hu
        subst hu
        exact hf1
      · exact hn m (by omega) j u (by omega) hjc hu
    · refine ⟨n, ?_⟩
      intro m hm j u hj hjc hu
      by_cases hjL : j = L
      · exfalso
        apply hex
        have hlt := (List.getElem?_eq_some.mp hu).1
        rw [trace_length] at hlt
        exact ⟨by rw [← hjL]; exact hjc, by rw [← hjL]; exact hlt⟩
      · exact hn m hm j u (by omega) hjc hu

/-- Liveness under contention: along every fair schedule the consumer completes
its program. -/
theorem pool_live {α : Type} [DecidableEq α] {s0 : State α} {c k : Nat}
    {all : Multiset α} (hp : s0.pool c k all) (hcard : Multiset.card all = k)
    (sched : Nat → Action) (hfair : Fair s0 sched) :
    ∃ (n : Nat) (tc : Thread α), (trace s0 sched n).threads[c]? = some tc
      ∧ tc.finished := by
  obtain ⟨n1, hn1⟩ := pool_producers_finish hp sched hfair s0.threads.length
  by_contra hno
  apply fair_progress hp.1 hp.2.1 sched hfair c n1
  intro m hm
  have hpm := trace_pool hp sched m
  obtain ⟨tc, htc, -⟩ := hpm.2.2.2.1
  refine ⟨tc, htc, ?_, fun hf => hno ⟨m, tc, htc, hf⟩⟩
  cases hb : tc.pc.blocked with
  | false => rfl
  | true =>
    exfalso
    apply pool_not_stuck hpm hcard ?_ htc hb
    intro j u hj hu
    apply hn1 m hm j u ?_ hj hu
    have hlt := (List.getElem?_eq_some.mp hu).1
    rw [trace_length] at hlt
    exact hlt

/-- From every state of the pool some run made of statement executions only,
without any wake-up other than those of `notify_one`, brings the consumer to
the end of its program. -/
theorem pool_completes {α : Type} [DecidableEq α] {c k : Nat} {all : Multiset α}
    (hcard : Multiset.card all = k) :
    ∀ (b : Nat) (s : State α), s.rank ≤ b → s.pool c k all →
      ∃ (more : List Action) (s1 : State α) (tc : Thread α),
        more.all Action.isRun = true ∧ run s more = some s1
        ∧ s1.threads[c]? = some tc ∧ tc.finished := by
  intro b
  induction b with
  | zero =>
    intro s hb hp
    have hq : ∀ (i pick : Nat), step s (Action.run i pick) = none := by
      intro i pick
      cases hst : step s (Action.run i pick) with
      | none => rfl
      | some s1 =>
        have := step_rank hst
        omega
    obtain ⟨tc, htc, hf⟩ := pool_quiescent hp hcard hq
    exact ⟨[], s, tc, rfl, rfl, htc, hf⟩
  | succ b ih =>
    intro s hb hp
    by_cases hq : ∀ (i pick : Nat), step s (Action.run i pick) = none
    · obtain ⟨tc, htc, hf⟩ := pool_quiescent hp hcard hq
      exact ⟨[], s, tc, rfl, rfl, htc, hf⟩
    · push_neg at hq
      obtain ⟨i, pick, hne⟩ := hq
      cases hst : step s (Action.run i pick) with
      | none => exact absurd hst hne
      | some s1 =>
        have hlt := step_rank hst
        obtain ⟨more, s2, tc, hall, hrun, htc, hf⟩ := ih s1 (by omega) (step_pool hp hst)
        refine ⟨Action.run i pick :: more, s2, tc, ?_, ?_, htc, hf⟩
        · simp [Action.isRun, hall]
        · simp [run, hst, hrun]

/-- The facts about a consumer that has completed the contention test. -/
theorem contention_done {N M : Nat} {s : State (Nat × Nat)}
    (hp : s.pool N (N * M) (allTagged N M : Multiset (Nat × Nat)))
    {tc : Thread (Nat × Nat)} (htc : s.threads[N]? = some tc) (hidle : tc.pc = Pc.idle)
    (hdone : tc.todo = []) :
    tc.got.length = N * M
    ∧ (tc.got : Multiset (Nat × Nat)) = (allTagged N M : Multiset (Nat × Nat))
    ∧ tc.got.Nodup
    ∧ s.sh.m_queue = []
    ∧ s.sh.pushed = tc.got
    ∧ pendingAll s.threads = [] := by
  have hcard : Multiset.card (allTagged N M : Multiset (Nat × Nat)) = N * M := by
    simp [allTagged_length]
  obtain ⟨h1, h2, h3, h4, -, h6, -⟩ :=
    handoff_done hp.1 hp.2.2.2 hcard htc hidle (by rw [hdone]; rfl)
  refine ⟨h1, h2, ?_, h3, h4, h6⟩
  have hperm : tc.got.Perm (allTagged N M) := Multiset.coe_eq_coe.mp h2
  exact hperm.nodup_iff.mpr (allTagged_nodup N M)

theorem contentionDone_dead : ∀ a : Action, step contentionDone a = none := by
  intro a
  cases a with
  | run i pick =>
    match i with
    | 0 => rfl
    | 1 => rfl
    | 2 => rfl
    | k + 3 => rfl
  | wake j c =>
    match j with
    | 0 => rfl
    | 1 => rfl
    | 2 => rfl
    | k + 3 => rfl

theorem contentionSchedule_run :
    run (contention 2 1) contentionSchedule = some contentionDone := rfl

theorem contentionSchedule_fair : Fair (contention 2 1) (schedOf contentionSchedule) := by
  apply fair_of_dead _ _ contentionSchedule.length
  rw [trace_schedOf contentionSchedule contentionSchedule_run]
  exact contentionDone_dead

/-- C7 (no loss, no duplicate under contention): `N` producers push `M` tagged
values each and one consumer calls `wait_and_pop` `N * M` times.  From every
state `s` reached along any schedule:
safety, if the consumer has completed its calls it has received exactly `N * M`
items, as a multiset exactly the pushed items, without duplicate, the queue is
empty and nothing remains to be pushed;
no deadlock, if no statement can be executed in `s` then the consumer has
completed its calls (so no item is stranded with the consumer blocked);
termination, statement executions alone go on for at most `rank` steps and
some such run, needing no wake-up except those of `notify_one`, completes the
consumer with all `N * M` items;
liveness, along every fair infinite continuation, with or without wake-ups
lacking a notification, the consumer completes its calls after finitely many
actions, holding each pushed item exactly once. -/
theorem C7_contention_exactly_once (N M : Nat) (acts : List Action)
    (s : State (Nat × Nat)) (h : run (contention N M) acts = some s) :
    (∀ tc : Thread (Nat × Nat), s.threads[N]? = some tc → tc.pc = Pc.idle →
        tc.todo = [] →
        tc.got.length = N * M
        ∧ (tc.got : Multiset (Nat × Nat)) = (allTagged N M : Multiset (Nat × Nat))
        ∧ tc.got.Nodup
        ∧ s.sh.m_queue = []
        ∧ s.sh.pushed = tc.got
        ∧ pendingAll s.threads = [])
    ∧ ((∀ (i pick : Nat), step s (Action.run i pick) = none) →
        ∃ tc : Thread (Nat × Nat), s.threads[N]? = some tc ∧ tc.pc = Pc.idle
          ∧ tc.todo = [] ∧ tc.got.length = N * M
          ∧ (tc.got : Multiset (Nat × Nat)) = (allTagged N M : Multiset (Nat × Nat))
          ∧ tc.got.Nodup ∧ s.sh.m_queue = [])
    ∧ (∀ (more : List Action) (s1 : State (Nat × Nat)),
        more.all Action.isRun = true → run s more = some s1 →
        more.length + s1.rank ≤ s.rank)
    ∧ (∃ (more : List Action) (s1 : State (Nat × Nat)) (tc : Thread (Nat × Nat)),
        more.all Action.isRun = true ∧ run s more = some s1
        ∧ s1.threads[N]? = some tc ∧ tc.pc = Pc.idle ∧ tc.todo = []
        ∧ tc.got.length = N * M
        ∧ (tc.got : Multiset (Nat × Nat)) = (allTagged N M : Multiset (Nat × Nat))
        ∧ tc.got.Nodup ∧ s1.sh.m_queue = [])
    ∧ (∀ sched : Nat → Action, Fair s sched →
        ∃ (n : Nat) (tc : Thread (Nat × Nat)), (trace s sched n).threads[N]? = some tc
          ∧ tc.pc = Pc.idle ∧ tc.todo = [] ∧ tc.got.length = N * M
          ∧ (tc.got : Multiset (Nat × Nat)) = (allTagged N M : Multiset (Nat × Nat))
          ∧ tc.got.Nodup ∧ (trace s sched n).sh.m_queue = []) := by
  have hp := run_pool acts (contention_pool N M) h
  have hcard : Multiset.card (allTagged N M : Multiset (Nat × Nat)) = N * M := by
    simp [allTagged_length]
  refine ⟨?_, ?_, ?_, ?_, ?_⟩
  · intro tc htc hidle hdone
    exact contention_done hp htc hidle hdone
  · intro hq
    obtain ⟨tc, htc, hf⟩ := pool_quiescent hp hcard hq
    obtain ⟨h1, h2, h3, h4, -⟩ := contention_done hp htc hf.1 hf.2
    exact ⟨tc, htc, hf.1, hf.2, h1, h2, h3, h4⟩
  · intro more s1 hall hrun
    exact run_rank more hall hrun
  · obtain ⟨more, s1, tc, hall, hrun, htc, hf⟩ :=
      pool_completes hcard s.rank s (Nat.le_refl _) hp
    obtain ⟨h1, h2, h3, h4, -⟩ := contention_done (run_pool more hp hrun) htc hf.1 hf.2
    exact ⟨more, s1, tc, hall, hrun, htc, hf.1, hf.2, h1, h2, h3, h4⟩
  · intro sched hfair
    obtain ⟨n, tc, htc, hf⟩ := pool_live hp hcard sched hfair
    obtain ⟨h1, h2, h3, h4, -⟩ := contention_done (trace_pool hp sched n) htc hf.1 hf.2
    exact ⟨n, tc, htc, hf.1, hf.2, h1, h2, h3, h4⟩

/-- C8 (no lost wake-up).  Along every schedule of any thread programs, with
wake-ups without notification allowed at any time:
whenever a thread is blocked inside `wait_and_pop` while the queue is non-empty,
some thread has a `notify_one` still to issue or is a consumer competing for the
head, and some statement can be executed; and statement executions alone cannot
go on for ever, a continuation made only of them being no longer than the
budget `rank`.  For a lone consumer calling `wait_and_pop` against a producer
that pushes `v` and then `rest`, from any state reached: whenever the consumer
has returned it holds `v`; in a state where no statement can be executed any
more the consumer has returned, with `v`; and along every fair infinite
continuation the consumer returns, with `v`, after finitely many actions. -/
theorem C8_no_lost_wakeup {α : Type} [DecidableEq α] (progs : List (List (Op α) × α))
    (acts : List Action) (s : State α) (h : run (State.init progs) acts = some s) :
    (∀ (j : Nat) (u : Thread α), s.threads[j]? = some u → u.pc = Pc.wp_blocked →
        s.sh.m_queue ≠ [] →
        (∃ (k : Nat) (w : Thread α), s.threads[k]? = some w
            ∧ (w.pc.notifyPending = true ∨ w.pc.competing = true))
        ∧ ∃ (i pick : Nat) (s1 : State α), step s (Action.run i pick) = some s1)
    ∧ (∀ (more : List Action) (s1 : State α),
        more.all Action.isRun = true → run s more = some s1 →
        more.length + s1.rank ≤ s.rank)
    ∧ (∀ (v : α) (rest : List α) (v0 : α), progs = handoffProgs (v :: rest) v0 →
        (∀ tc : Thread α, s.threads[0]? = some tc → tc.pc = Pc.idle → tc.todo = [] →
            tc.value = v ∧ tc.got = [v])
        ∧ ((∀ (i pick : Nat), step s (Action.run i pick) = none) →
            ∃ tc : Thread α, s.threads[0]? = some tc ∧ tc.pc = Pc.idle ∧ tc.todo = []
              ∧ tc.value = v ∧ tc.got = [v])
        ∧ (∀ sched : Nat → Action, Fair s sched →
            ∃ (n : Nat) (tc : Thread α), (trace s sched n).threads[0]? = some tc
              ∧ tc.pc = Pc.idle ∧ tc.todo = [] ∧ tc.value = v ∧ tc.got = [v])) := by
  obtain ⟨hs, ho⟩ := run_ok_owned acts (init_ok progs) (init_owned progs) h
  have hl := run_noLost acts (init_ok progs) (init_noLost progs) h
  refine ⟨?_, ?_, ?_⟩
  · intro j u hj hpc hq
    have hpos : 0 < total Thread.wakers s.threads := by
      rcases hl with hA | hB
      · have := hA j u hj
        rw [hpc] at this
        cases this
      · have : 0 < s.sh.m_queue.length := List.length_pos.mpr hq
        omega
    obtain ⟨k, w, hk, hw⟩ := total_pos Thread.wakers s.threads hpos
    have hw1 : w.pc.notifyPending = true ∨ w.pc.competing = true := by
      unfold Thread.wakers at hw
      split at hw
      · rename_i hc
        simpa using hc
      · cases hw
    refine ⟨⟨k, w, hk, hw1⟩, ?_⟩
    apply enabled_of_runnable hs ho hk
    · rcases w with ⟨pc, todo, value, got, result⟩
      cases pc <;> simp [Pc.notifyPending, Pc.competing] at hw1 <;> rfl
    · intro hx
      rw [hx.1] at hw1
      simp [Pc.notifyPending, Pc.competing] at hw1
  · intro more s1 hall hrun
    exact run_rank more hall hrun
  · intro v rest v0 hprogs
    subst hprogs
    have hg := run_good acts (handoff_init_good (v :: rest) v0) h
    obtain ⟨-, -, -, hi, hsp, -⟩ := id hg
    refine ⟨fun tc htc hidle hdone => handoff_returned hs hi hsp htc hidle hdone, ?_,
      fun sched hfair => handoff_live hg sched hfair⟩
    intro hquiet
    obtain ⟨hfree, hth⟩ := quiescent_spec hs ho hquiet
    obtain ⟨tc, htc, -⟩ := good_consumer hg
    rcases hth 0 tc htc with hb | ⟨hidle, hdone⟩
    · exact absurd hb (fun hb => handoff_not_stuck hs hl hi hsp hfree hth htc hb)
    · obtain ⟨hv, hg1⟩ := handoff_returned hs hi hsp htc hidle hdone
      exact ⟨tc, htc, hidle, hdone, hv, hg1⟩

/-! ### The loop of `try_wait_and_pop` runs its body at most once -/

theorem try_wait_and_pop_loop_eq {α : Type} (value : α) (milli : Int) (l : List α)
    (wakes : List (Wake α)) :
    try_wait_and_pop_loop value milli l wakes [SyncEvent.lock]
      = LockingQueue.try_wait_and_pop_once { m_queue := l } value milli wakes := by
  cases l with
  | cons x rest =>
    simp [try_wait_and_pop_loop, LockingQueue.try_wait_and_pop_once, popOrFail]
  | nil =>
    cases wakes with
    | nil => simp [try_wait_and_pop_loop, LockingQueue.try_wait_and_pop_once]
    | cons w ws =>
      cases hw : w.queue with
      | nil =>
        simp [try_wait_and_pop_loop, LockingQueue.try_wait_and_pop_once, popOrFail, hw]
      | cons y l2 =>
        simp [try_wait_and_pop_loop, LockingQueue.try_wait_and_pop_once, popOrFail, hw]

theorem try_wait_and_pop_iterations_le {α : Type} (l : List α) (wakes : List (Wake α)) :
    try_wait_and_pop_iterations l wakes ≤ 1 := by
  cases l with
  | cons x rest => simp [try_wait_and_pop_iterations]
  | nil =>
    cases wakes with
    | nil => simp [try_wait_and_pop_iterations]
    | cons w ws =>
      cases hw : w.queue with
      | nil => simp [try_wait_and_pop_iterations, hw]
      | cons y l2 => simp [try_wait_and_pop_iterations, hw]

theorem popOrFail_timedWaits {α : Type} (value : α) (l : List α) (ev : List SyncEvent) :
    (popOrFail value l ev).events.countP SyncEvent.isTimedWait
      = ev.countP SyncEvent.isTimedWait := by
  cases l <;> simp [popOrFail, List.countP_append, SyncEvent.isTimedWait]

/-- A thread's own statement keeps what is known of its count of timed waits. -/
theorem exec_waits {α : Type} [DecidableEq α] {i w : Nat} {t t1 : Thread α}
    {sh sh1 : Shared α} {n : Bool} (h : exec i t sh = some (t1, sh1, n)) (hw : w ≤ 1)
    (htest : t.pc = Pc.tw_test → w = 0 ∨ sh.m_queue ≠ []) (hwait : t.pc = Pc.tw_wait → w = 0) :
    t.pc.waitsAfter w ≤ 1
    ∧ (t1.pc = Pc.tw_test → t.pc.waitsAfter w = 0 ∨ sh1.m_queue ≠ [])
    ∧ (t1.pc = Pc.tw_wait → t.pc.waitsAfter w = 0) := by
  rcases t with ⟨pc, todo, value, got, result⟩
  rcases sh with ⟨q, m, ub, af, pushed, returned, inflight⟩
  cases pc
  case idle =>
    rcases todo with _ | ⟨op, rest⟩
    · simp [exec] at h
    · cases op <;> cases m <;>
        simp [exec, enter, Shared.acquire] at h <;>
        obtain ⟨rfl, rfl, rfl⟩ := h <;>
        simp [Pc.waitsAfter]
  all_goals
    try (rename_i b; cases b)
  all_goals
    cases q <;> cases m <;>
      simp [exec, Thread.goto, Shared.release, execFront, execPop, execRet,
        Shared.acquire] at h htest hwait <;>
      obtain ⟨rfl, rfl, rfl⟩ := h <;>
      simp [Pc.waitsAfter] <;>
      omega

theorem step_waitsOk {α : Type} [DecidableEq α] {s s1 : State α} {a : Action} {i w : Nat}
    (hs : s.ok) (hw : s.waitsOk i w) (h : step s a = some s1) :
    s1.waitsOk i (bumpWaits i s a w) := by
  obtain ⟨hle, hth⟩ := hw
  cases a with
  | run j pick =>
    obtain ⟨t, t1, sh1, n, htj, hex, hsh, hts⟩ := step_run_inv h
    by_cases hji : j = i
    · subst hji
      have hb : bumpWaits j s (Action.run j pick) w = t.pc.waitsAfter w := by
        simp [bumpWaits, htj]
      obtain ⟨h1, h2, h3⟩ := exec_waits hex hle (hth t htj).1 (hth t htj).2
      rw [hb]
      refine ⟨h1, ?_⟩
      intro u1 hu1
      have hu : u1 = t1 := by
        rcases hts with ⟨-, hts⟩ | ⟨hn, hnot⟩
        · rw [hts, getElem?_set_same htj] at hu1
          simpa using hu1.symm
        · subst hn
          have hidle := exec_notify_idle hex
          have hkeep := notifyOne_keep hnot (getElem?_set_same htj)
            (by rw [hidle]; rfl : t1.pc.blocked = false)
          rw [hkeep] at hu1
          simpa using hu1.symm
      subst hu
      rw [hsh]
      exact ⟨h2, h3⟩
    · have hb : bumpWaits i s (Action.run j pick) w = w := by
        simp [bumpWaits, hji]
      rw [hb]
      refine ⟨hle, ?_⟩
      intro u1 hu1
      have hold : ∃ u : Thread α, s.threads[i]? = some u
          ∧ (u1 = u ∨ (u.pc.blocked = true ∧ u1 = u.goto u.pc.woken)) := by
        rcases hts with ⟨-, hts⟩ | ⟨-, hnot⟩
        · rw [hts, List.getElem?_set_ne hji] at hu1
          exact ⟨u1, hu1, Or.inl rfl⟩
        · obtain ⟨u, hu, hcase⟩ := notifyOne_get hnot hu1
          rw [List.getElem?_set_ne hji] at hu
          exact ⟨u, hu, hcase⟩
      obtain ⟨u, hu, hcase⟩ := hold
      have hqueue : u.pc.holds = true → sh1.m_queue = s.sh.m_queue := by
        intro hh
        have hm := (hs.2 i u hu hh).1
        have hp : t.pc.holds = false := by
          cases hc : t.pc.holds with
          | false => rfl
          | true =>
            have := (hs.2 j t htj hc).1
            rw [hm] at this
            simp at this
            exact absurd this.symm hji
        exact (exec_nonholder hp (by rw [hm]; simp) hex).1
      rcases hcase with rfl | ⟨hbl, rfl⟩
      · refine ⟨?_, (hth u1 hu).2⟩
        intro hpc
        rcases (hth u1 hu).1 hpc with h0 | hq
        · exact Or.inl h0
        · right
          rw [hsh, hqueue (by rw [hpc]; rfl)]
          exact hq
      · rcases u with ⟨pc, todo, value, got, result⟩
        cases pc <;> simp [Pc.blocked] at hbl <;> simp [Thread.goto, Pc.woken]
  | wake k c =>
    obtain ⟨t, htk, hb, hsh, hts⟩ := step_wake_inv h
    have hbw : bumpWaits i s (Action.wake k c) w = w := rfl
    rw [hbw]
    refine ⟨hle, ?_⟩
    intro u1 hu1
    rw [hts, List.getElem?_set] at hu1
    split at hu1
    · split at hu1
      · simp at hu1
        subst hu1
        rcases t with ⟨pc, todo, value, got, result⟩
        cases pc <;> simp [Pc.blocked] at hb <;> simp [Thread.goto, Pc.woken]
      · simp at hu1
    · rw [hsh]
      exact hth u1 hu1

theorem timedWaits_le {α : Type} [DecidableEq α] (i : Nat) (acts : List Action)
    {s : State α} {w : Nat} (hs : s.ok) (hw : s.waitsOk i w) :
    timedWaits i s acts w ≤ 1 := by
  induction acts generalizing s w with
  | nil => exact hw.1
  | cons a rest ih =>
    simp only [timedWaits]
    split
    · exact hw.1
    · rename_i s1 hst
      exact ih (step_ok hs hst) (step_waitsOk hs hw hst)

theorem init_waitsOk {α : Type} (progs : List (List (Op α) × α)) (i : Nat) :
    (State.init progs).waitsOk i 0 := by
  refine ⟨Nat.zero_le _, ?_⟩
  intro t _
  exact ⟨fun _ => Or.inl rfl, fun _ => rfl⟩

theorem try_wait_and_pop_waits {α : Type} (value : α) (milli : Int) (l : List α)
    (wakes : List (Wake α)) (r : PopResult α)
    (h : LockingQueue.try_wait_and_pop { m_queue := l } value milli wakes = some r) :
    r.events.countP SyncEvent.isTimedWait = try_wait_and_pop_iterations l wakes
    ∧ SyncEvent.wait ∉ r.events := by
  cases l with
  | cons x rest =>
    simp [LockingQueue.try_wait_and_pop, try_wait_and_pop_loop] at h
    subst h
    simp [try_wait_and_pop_iterations, SyncEvent.isTimedWait]
  | nil =>
    cases wakes with
    | nil => simp [LockingQueue.try_wait_and_pop, try_wait_and_pop_loop] at h
    | cons w ws =>
      cases hw : w.queue with
      | nil =>
        simp [LockingQueue.try_wait_and_pop, try_wait_and_pop_loop, hw] at h
        subst h
        simp [try_wait_and_pop_iterations, SyncEvent.isTimedWait, hw]
      | cons y l2 =>
        simp [LockingQueue.try_wait_and_pop, try_wait_and_pop_loop, hw] at h
        subst h
        simp [try_wait_and_pop_iterations, SyncEvent.isTimedWait, hw]

/-- C11 (the loop of `try_wait_and_pop` runs its body at most once): for every
queue, variable, duration and sequence of wake-ups the function equals the
loop-free version "if the queue is empty, wait once; if it is still empty return
false; otherwise pop the head and return true".  The loop body is entered at
most once, and not at all when the queue is non-empty on entry; a call that
returns has made exactly as many timed waits as body entries, so at most one,
and no untimed wait.  The outcome depends on the first wake-up only, through the
contents found then and not through its cause or anything later, and one
wake-up is enough for the call to return.  Statement by statement, along every
schedule of any thread programs no thread executes `m_cond.wait_for` more than
once within one call; the bound is reached in `racedSchedule`. -/
theorem C11_try_wait_and_pop_single_wait {α : Type} [DecidableEq α] (q : LockingQueue α)
    (value : α) (milli : Int) (wakes : List (Wake α)) :
    q.try_wait_and_pop value milli wakes = q.try_wait_and_pop_once value milli wakes
    ∧ try_wait_and_pop_iterations q.m_queue wakes ≤ 1
    ∧ (∀ (x : α) (rest : List α), try_wait_and_pop_iterations (x :: rest) wakes = 0)
    ∧ (∀ r : PopResult α, q.try_wait_and_pop value milli wakes = some r →
        r.events.countP SyncEvent.isTimedWait = try_wait_and_pop_iterations q.m_queue wakes
        ∧ r.events.countP SyncEvent.isTimedWait ≤ 1
        ∧ SyncEvent.wait ∉ r.events)
    ∧ (∀ (x : α) (rest : List α),
        (LockingQueue.try_wait_and_pop { m_queue := x :: rest } value milli wakes).map
            (fun r => r.events.countP SyncEvent.isTimedWait) = some 0)
    ∧ (∀ (c c2 : WakeCause) (l : List α) (ws ws2 : List (Wake α)),
        q.try_wait_and_pop value milli ({ cause := c, queue := l } :: ws)
          = q.try_wait_and_pop value milli ({ cause := c2, queue := l } :: ws2)
        ∧ (q.try_wait_and_pop value milli ({ cause := c, queue := l } :: ws)).isSome = true)
    ∧ (∀ (progs : List (List (Op α) × α)) (acts : List Action) (i : Nat),
        timedWaits i (State.init progs) acts 0 ≤ 1)
    ∧ timedWaits 0 (State.init racedProgs) racedSchedule 0 = 1 := by
  rcases q with ⟨l⟩
  refine ⟨try_wait_and_pop_loop_eq value milli l wakes,
    try_wait_and_pop_iterations_le l wakes, fun x rest => ?_, fun r hr => ?_,
    fun x rest => ?_, fun c c2 l2 ws ws2 => ?_, fun progs acts i => ?_, rfl⟩
  · simp [try_wait_and_pop_iterations]
  · obtain ⟨h1, h2⟩ := try_wait_and_pop_waits value milli l wakes r hr
    exact ⟨h1, by rw [h1]; exact try_wait_and_pop_iterations_le l wakes, h2⟩
  · simp [LockingQueue.try_wait_and_pop, try_wait_and_pop_loop, SyncEvent.isTimedWait]
  · have e1 := try_wait_and_pop_loop_eq value milli l ({ cause := c, queue := l2 } :: ws)
    have e2 := try_wait_and_pop_loop_eq value milli l ({ cause := c2, queue := l2 } :: ws2)
    simp only [LockingQueue.try_wait_and_pop]
    rw [e1, e2]
    cases l <;> simp [LockingQueue.try_wait_and_pop_once]
  · exact timedWaits_le i acts (init_ok progs) (init_waitsOk progs i)

/-! ### Outcomes of `try_wait_and_pop` -/

/-- C5, as stated, fails: the queue can become non-empty during the bounded wait
and the call still return "no value".  In `expiredSchedule`, after five actions
thread 0 is blocked in `wait_for` and the queue holds 1; another consumer,
thread 2, removes the 1 with `try_pop`; the wait of thread 0 then ends by
timeout, the re-check finds the queue empty and thread 0 returns `false`, its
variable and its received values untouched.  So "non-empty at some instant of
the wait" does not imply success, even when the whole wait budget is used. -/
theorem C5_element_during_wait_yet_no_value :
    run (State.init racedProgs) expiredElementArrived = some expiredWaiting
    ∧ expiredWaiting.threads.map (fun t => t.pc)
        = [Pc.tw_blocked, Pc.push_unlock, Pc.idle]
    ∧ expiredWaiting.sh.m_queue = [1]
    ∧ run expiredWaiting (expiredSchedule.drop 5) = some expiredDone
    ∧ run (State.init racedProgs) expiredSchedule = some expiredDone
    ∧ Action.wake 0 WakeCause.timeout ∈ expiredSchedule.drop 5
    ∧ expiredDone.threads.map (fun t => (t.pc, t.result, t.value, t.got))
        = [(Pc.idle, some false, 0, []), (Pc.idle, none, 0, []),
           (Pc.idle, some true, 1, [1])]
    ∧ ¬ (∀ (progs : List (List (Op Nat) × Nat)) (before later : List Action)
          (s1 s2 : State Nat) (i : Nat) (t1 t2 : Thread Nat),
          run (State.init progs) before = some s1 → s1.threads[i]? = some t1 →
          t1.pc = Pc.tw_blocked → t1.todo = [] → s1.sh.m_queue ≠ [] →
          run s1 later = some s2 → s2.threads[i]? = some t2 → t2.pc = Pc.idle →
          t2.result = some true) := by
  refine ⟨rfl, rfl, rfl, rfl, rfl, by decide, rfl, ?_⟩
  intro hall
  have hx := hall racedProgs expiredElementArrived (expiredSchedule.drop 5)
    expiredWaiting expiredDone 0
    { pc := Pc.tw_blocked, todo := [], value := 0, got := [], result := none }
    { pc := Pc.idle, todo := [], value := 0, got := [], result := some false }
    rfl rfl rfl rfl (by simp [expiredWaiting]) rfl rfl rfl
  simp at hx

/-- C5 (amended outcomes of `try_wait_and_pop`).  Call by call: a non-empty
queue on entry gives the head without any wait; an empty queue on entry that is
non-empty when `wait_for` has returned and the mutex is held again gives the
head found then, whatever woke the caller; in both cases the rest stays in
order.  An empty queue on entry that is still empty when the wait ends by
timeout gives `false`.  While no wake has happened the call has not returned.
Every success delivers the head of the contents the call saw on entry or at a
wake, and every `false` comes with the queue empty on entry and at the return
and with `value` as the caller passed it.
Statement by statement, along every schedule: no `front()` or `pop()` runs on
an empty queue; a test or a re-check after the wait that finds the queue
non-empty leads to `value = m_queue.front()`; there the queue is
non-empty and the head is stored, the following `m_queue.pop()` removes exactly
that element, which the call returns with `true`; and the call stands at
`return false` only with the queue empty, and returns leaving `value` alone. -/
theorem C5_try_wait_and_pop_outcomes {α : Type} [DecidableEq α] (value x : α)
    (rest : List α) (milli : Int) (cause : WakeCause) (ws : List (Wake α))
    (progs : List (List (Op α) × α)) (acts : List Action) (s : State α)
    (h : run (State.init progs) acts = some s) :
    LockingQueue.try_wait_and_pop { m_queue := x :: rest } value milli ws
        = some { ret := true, value := x, queue := { m_queue := rest },
                 events := [SyncEvent.lock, SyncEvent.unlock] }
    ∧ LockingQueue.try_wait_and_pop { m_queue := [] } value milli
          ({ cause := cause, queue := x :: rest } :: ws)
        = some { ret := true, value := x, queue := { m_queue := rest },
                 events := [SyncEvent.lock, SyncEvent.wait_for milli, SyncEvent.unlock] }
    ∧ LockingQueue.try_wait_and_pop { m_queue := [] } value milli
          ({ cause := WakeCause.timeout, queue := [] } :: ws)
        = some { ret := false, value := value, queue := { m_queue := [] },
                 events := [SyncEvent.lock, SyncEvent.wait_for milli, SyncEvent.unlock] }
    ∧ LockingQueue.try_wait_and_pop { m_queue := [] } value milli [] = none
    ∧ (∀ (q : LockingQueue α) (wakes : List (Wake α)) (r : PopResult α),
        q.try_wait_and_pop value milli wakes = some r →
          (r.ret = true ∧ ∃ l, (l = q.m_queue ∨ ∃ w ∈ wakes, l = w.queue)
              ∧ l = r.value :: r.queue.m_queue)
          ∨ (r.ret = false ∧ r.value = value ∧ r.queue.m_queue = []
              ∧ q.m_queue = []))
    ∧ s.sh.ub = false
    ∧ (∀ (i : Nat) (t : Thread α), s.threads[i]? = some t →
        (t.pc = Pc.tw_front →
            ∃ y l, s.sh.m_queue = y :: l
              ∧ exec i t s.sh = some ({ t with pc := Pc.tw_pop, value := y }, s.sh, false))
        ∧ (t.pc = Pc.tw_pop →
            ∃ l, s.sh.m_queue = t.value :: l
              ∧ exec i t s.sh
                = some (t.goto (Pc.tw_ret true),
                        { s.sh with m_queue := l, inflight := [t.value] }, false))
        ∧ (t.pc = Pc.tw_ret true →
            s.sh.inflight = [t.value]
            ∧ exec i t s.sh
              = some ({ t with pc := Pc.idle, result := some true,
                               got := t.got ++ [t.value] },
                      { s.sh with m_mutex := none, returned := s.sh.returned ++ [t.value],
                                  inflight := [] }, false))
        ∧ (t.pc = Pc.tw_ret false →
            s.sh.m_queue = []
            ∧ exec i t s.sh
              = some ({ t with pc := Pc.idle, result := some false }, s.sh.release,
                      false))
        ∧ (t.pc = Pc.tw_test → s.sh.m_queue ≠ [] →
            exec i t s.sh = some (t.goto Pc.tw_front, s.sh, false))
        ∧ (t.pc = Pc.tw_recheck → s.sh.m_queue ≠ [] →
            exec i t s.sh = some (t.goto Pc.tw_test, s.sh, false))) := by
  have hs := run_ok acts (init_ok progs) h
  refine ⟨?_, ?_, ?_, rfl, ?_, hs.1.1, ?_⟩
  · simp [LockingQueue.try_wait_and_pop, try_wait_and_pop_loop]
  · simp [LockingQueue.try_wait_and_pop, try_wait_and_pop_loop]
  · simp [LockingQueue.try_wait_and_pop, try_wait_and_pop_loop]
  · intro q wakes r hr
    cases q with
    | mk l =>
      cases l with
      | cons y l =>
        simp [LockingQueue.try_wait_and_pop, try_wait_and_pop_loop] at hr
        subst hr
        simp
      | nil =>
        cases wakes with
        | nil => simp [LockingQueue.try_wait_and_pop, try_wait_and_pop_loop] at hr
        | cons w ws =>
          cases hw : w.queue with
          | nil =>
            simp [LockingQueue.try_wait_and_pop, try_wait_and_pop_loop, hw] at hr
            subst hr
            simp
          | cons y l =>
            simp [LockingQueue.try_wait_and_pop, try_wait_and_pop_loop, hw] at hr
            subst hr
            simp [hw]
  · intro i t hti
    have hok := hs.2 i t hti
    unfold Thread.ok at hok
    rcases t with ⟨pc, todo, v, got, result⟩
    refine ⟨?_, ?_, ?_, ?_, ?_, ?_⟩
    · intro hpc
      simp only at hpc
      subst hpc
      have hne := (hok rfl).2.2.2.1 rfl
      cases hq : s.sh.m_queue with
      | nil => exact absurd hq hne
      | cons y l => exact ⟨y, l, rfl, by simp [exec, execFront, hq]⟩
    · intro hpc
      simp only at hpc
      subst hpc
      obtain ⟨l, hq⟩ := (hok rfl).2.2.2.2.1 rfl
      simp only at hq
      exact ⟨l, hq, by simp [exec, execPop, hq, Thread.goto]⟩
    · intro hpc
      simp only at hpc
      subst hpc
      have hfl := (hok rfl).2.1 rfl
      exact ⟨hfl, by simp [exec, execRet]⟩
    · intro hpc
      simp only at hpc
      subst hpc
      have hq := (hok rfl).2.2.2.2.2 rfl
      simp only at hq
      exact ⟨hq, by simp [exec, execRet]⟩
    · intro hpc hne
      simp only at hpc
      subst hpc
      cases hq : s.sh.m_queue with
      | nil => exact absurd hq hne
      | cons y l => simp [exec, hq, Thread.goto]
    · intro hpc hne
      simp only at hpc
      subst hpc
      cases hq : s.sh.m_queue with
      | nil => exact absurd hq hne
      | cons y l => simp [exec, hq, Thread.goto]

/-! ## Concrete instances -/

/-- Instance of C4 on a complete run of the demo. -/
theorem C4_demo_consumer_receives_hello_witness :
    run main demoSchedule = some demoDone
    ∧ demoDone.threads[1]? = some demoConsumerDone
    ∧ demoConsumerDone.pc = Pc.idle
    ∧ demoConsumerDone.todo ≠ consumer
    ∧ demoDone.sh.assert_failed = false
    ∧ demoConsumerDone.value = "Hello"
    ∧ demoConsumerDone.got = ["Hello"]
    ∧ (LockingQueue.empty { m_queue := demoDone.sh.m_queue }).1 = true :=
  ⟨rfl, rfl, rfl, by decide,
    C4_demo_consumer_receives_hello demoSchedule demoDone demoConsumerDone rfl rfl rfl
      (by decide)⟩

/-- Instance of C7 with two producers of one value each: at the end of a
complete run the consumer holds both items, and along the fair schedule that
plays this run the consumer completes. -/
theorem C7_contention_exactly_once_witness :
    run (contention 2 1) contentionSchedule = some contentionDone
    ∧ contentionDone.threads[2]? = some contentionConsumerDone
    ∧ (contentionConsumerDone.got.length = 2 * 1
        ∧ (contentionConsumerDone.got : Multiset (Nat × Nat))
            = (allTagged 2 1 : Multiset (Nat × Nat))
        ∧ contentionConsumerDone.got.Nodup
        ∧ contentionDone.sh.m_queue = []
        ∧ contentionDone.sh.pushed = contentionConsumerDone.got
        ∧ pendingAll contentionDone.threads = [])
    ∧ Fair contentionDone (schedOf [])
    ∧ ∃ (n : Nat) (tc : Thread (Nat × Nat)),
        (trace contentionDone (schedOf []) n).threads[2]? = some tc
        ∧ tc.pc = Pc.idle ∧ tc.todo = [] ∧ tc.got.length = 2 * 1
        ∧ (tc.got : Multiset (Nat × Nat)) = (allTagged 2 1 : Multiset (Nat × Nat))
        ∧ tc.got.Nodup ∧ (trace contentionDone (schedOf []) n).sh.m_queue = [] :=
  ⟨rfl, rfl,
    (C7_contention_exactly_once 2 1 contentionSchedule contentionDone rfl).1
      contentionConsumerDone rfl rfl rfl,
    fair_of_dead contentionDone (schedOf []) 0 contentionDone_dead,
    (C7_contention_exactly_once 2 1 contentionSchedule contentionDone rfl).2.2.2.2
      (schedOf []) (fair_of_dead contentionDone (schedOf []) 0 contentionDone_dead)⟩

/-- Instance of C9 on a run with one value returned and one still queued. -/
theorem C9_global_fifo_history_witness :
    run (State.init pairProgs) pairScheduleLater = some pairLater
    ∧ pairLater.sh.returned ++ pairLater.sh.inflight ++ pairLater.sh.m_queue
        = pairLater.sh.pushed
    ∧ pairLater.sh.returned <+: pairLater.sh.pushed :=
  ⟨rfl,
    (C9_global_fifo_history pairProgs pairScheduleLater pairLater rfl).1,
    (C9_global_fifo_history pairProgs pairScheduleLater pairLater rfl).2.2.2.1⟩

/-- Instance of C10 on a run that leaves the consumer, woken by the producer's
notification, at `m_queue.pop()` with the head 1 in its variable. -/
theorem C10_wait_and_pop_rechecks_witness :
    run (State.init pairProgs) pairScheduleFront = some pairAtPop
    ∧ pairAtPop.sh.ub = false
    ∧ ∃ rest : List Nat, pairAtPop.sh.m_queue = 1 :: rest
        ∧ exec 1 { pc := Pc.wp_pop, todo := [], value := 1, got := [], result := none }
            pairAtPop.sh
          = some ({ pc := Pc.wp_ret, todo := [], value := 1, got := [], result := none },
                  { pairAtPop.sh with m_queue := rest, inflight := [1] }, false) :=
  ⟨rfl, (C10_wait_and_pop_rechecks pairProgs pairScheduleFront pairAtPop rfl).1,
    ((C10_wait_and_pop_rechecks pairProgs pairScheduleFront pairAtPop rfl).2 1
      { pc := Pc.wp_pop, todo := [], value := 1, got := [], result := none }
      rfl).2.2.2.2.2.1 rfl⟩

/-- Instance of C8: the consumer is blocked, 7 is queued, and the producer's
`notify_one` is pending and can be executed; and along the fair schedule that
plays `handoffComplete` from the start the consumer returns with 7. -/
theorem C8_no_lost_wakeup_witness :
    run (State.init (handoffProgs [7, 8] 0)) handoffSchedule = some handoffBlocked
    ∧ (∃ (k : Nat) (w : Thread Nat), handoffBlocked.threads[k]? = some w
        ∧ (w.pc.notifyPending = true ∨ w.pc.competing = true))
    ∧ (∃ (i pick : Nat) (s1 : State Nat),
        step handoffBlocked (Action.run i pick) = some s1)
    ∧ Fair (State.init (handoffProgs [7, 8] 0)) (schedOf handoffComplete)
    ∧ ∃ (n : Nat) (tc : Thread Nat),
        (trace (State.init (handoffProgs [7, 8] 0)) (schedOf handoffComplete) n).threads[0]?
          = some tc
        ∧ tc.pc = Pc.idle ∧ tc.todo = [] ∧ tc.value = 7 ∧ tc.got = [7] :=
  ⟨rfl,
    ((C8_no_lost_wakeup (handoffProgs [7, 8] 0) handoffSchedule handoffBlocked rfl).1
      0 { pc := Pc.wp_blocked, todo := [], value := 0, got := [], result := none }
      rfl rfl (by decide)).1,
    ((C8_no_lost_wakeup (handoffProgs [7, 8] 0) handoffSchedule handoffBlocked rfl).1
      0 { pc := Pc.wp_blocked, todo := [], value := 0, got := [], result := none }
      rfl rfl (by decide)).2,
    handoffComplete_fair,
    ((C8_no_lost_wakeup (handoffProgs [7, 8] 0) [] (State.init (handoffProgs [7, 8] 0))
      rfl).2.2 7 [8] 0 rfl).2.2 (schedOf handoffComplete) handoffComplete_fair⟩


/-- Instance of C5 on the run that brings thread 0 of `racedProgs` to its
`return false`: the queue is empty at that point. -/
theorem C5_try_wait_and_pop_outcomes_witness :
    run (State.init racedProgs) expiredBeforeReturn = some expiredAboutToFail
    ∧ expiredAboutToFail.sh.ub = false
    ∧ expiredAboutToFail.sh.m_queue = []
    ∧ exec 0 { pc := Pc.tw_ret false, todo := [], value := 0, got := [], result := none }
          expiredAboutToFail.sh
        = some ({ pc := Pc.idle, todo := [], value := 0, got := [], result := some false },
                expiredAboutToFail.sh.release, false) :=
  ⟨rfl,
    (C5_try_wait_and_pop_outcomes 0 1 [] 50 WakeCause.notified [] racedProgs
      expiredBeforeReturn expiredAboutToFail rfl).2.2.2.2.2.1,
    ((C5_try_wait_and_pop_outcomes 0 1 [] 50 WakeCause.notified [] racedProgs
      expiredBeforeReturn expiredAboutToFail rfl).2.2.2.2.2.2 0
      { pc := Pc.tw_ret false, todo := [], value := 0, got := [], result := none }
      rfl).2.2.2.1 rfl⟩
end Snippets
